import Mathlib

/-!
# Metropolis-coupled MCMC coordinator (`Mcmcmc.cpp`)

A shallow embedding of `src/core/analysis/mcmc/Mcmcmc.cpp`.

* `double` is an arbitrary linearly ordered field `α` with a floor function
  (exact arithmetic; `ℚ` for evaluation, `ℝ` for the real-valued reading).  Theorems on
  these definitions are statements about exact arithmetic.  Where the rounding of
  `double` decides a property, the computation is given a second time with the result
  of every operation rounded by a function `rn` (`computeBetaRounded`,
  `initializeChainsRounded`); `roundDouble` is the rounding of IEEE 754 binary64 on `ℚ`.
* `size_t`, `unsigned long` and the non-negative `int` indices are `Nat`; counter
  overflow is not modelled.
* `std::vector` is `List`; a read `v[i]` is `v.getD i d` and a write `v[i] = x` is
  `v.set i x`.  Reads and writes outside the vector are undefined behaviour in the
  source; the theorems below only rely on in-bounds accesses.
* The library functions `exp` and `pow` and the draws of `GLOBAL_RNG->uniform01()`
  are parameters.
* The embedding is of the build without `RB_MPI` (one process): every
  `#ifdef RB_MPI` block is compiled out.  The build with `RB_MPI` is modelled for
  `swapNeighborChains` alone, one process at a time (`swapNeighborChainsMPI`).
-/

set_option linter.unusedSectionVars false
set_option linter.unusedVariables false

namespace Mcmcmc

/-- The record `Mcmc::tuningInfo` (fields as named at lines 1056-1058). -/
structure TuningInfo (α : Type) where
  num_tried : Nat
  num_accepted : Nat
  tuning_parameter : α
deriving DecidableEq, Repr

/-- Modelled from the spec: the chain handle, class `Mcmc`, which is not among the
sources.  Only what the coordinator reads and writes through the contract of spec §6
is kept: the active flag (`setChainActive`/`isChainActive`), the posterior heat
(`setChainPosteriorHeat`/`getChainPosteriorHeat`), the tuning snapshot
(`setMovesTuningInfo`/`getMovesTuningInfo`) and the two values
`getModelLnProbability(false)` and `getModelLnProbability(true)`. -/
structure Chain (α : Type) where
  chain_active : Bool
  chain_posterior_heat : α
  chain_idx : Nat
  moves_tuningInfo : List (TuningInfo α)
  lnPosterior : α
  lnLikelihood : α
deriving DecidableEq, Repr

/-- The member variables of `Mcmcmc`, together with the three members it inherits from
`Parallelizable` (`num_processes`, `pid`, `active_PID`).  A `NULL` chain pointer is
`none`. -/
structure State (α : Type) where
  num_chains : Nat
  current_generation : Nat
  burnin_generation : Nat
  generation : Nat
  swap_interval : Nat
  swap_interval2 : Nat
  active_chain_index : Nat
  delta : α
  tune_heat : Bool
  useNeighborSwapping : Bool
  useRandomSwapping : Bool
  chains : List (Option (Chain α))
  chain_values : List α
  chain_heats : List α
  pid_per_chain : List Nat
  heat_ranks : List Nat
  heat_temps : List α
  numAttemptedSwaps : List (List Nat)
  numAcceptedSwaps : List (List Nat)
  chain_moves_tuningInfo : List (List (TuningInfo α))
  base_chain : Chain α
  num_processes : Nat
  pid : Nat
  active_PID : Nat
deriving DecidableEq, Repr

/-- Modelled from the spec: a move, class `Move`, which is not among the sources, as
`Mcmcmc::swapMovesTuningInfo` reads and writes it through `getMoveName`,
`getNumberTried`/`setNumberTried`, `getNumberAccepted`/`setNumberAccepted` and
`getMoveTuningParameter`/`setMoveTuningParameter`.  A tuning parameter that is NaN (the
move has none) is `none`. -/
structure Move (α : Type) where
  moveName : String
  numberTried : Nat
  numberAccepted : Nat
  moveTuningParameter : Option α
deriving DecidableEq, Repr

/-- How a call of `Mcmcmc::swapMovesTuningInfo` ends: it returns, with the two vectors
as they are then; or it throws an `RbException` with a message; or the iterator `itk` is
dereferenced when it is `mvsk.end()`, which the loop does not test (undefined
behaviour). -/
inductive SwapInfoResult (α : Type) where
  | returned (mvsj mvsk : List (Move α))
  | thrown (message : String)
  | pastTheEnd
deriving DecidableEq, Repr

section Defs

variable {α : Type} [LinearOrderedField α] [FloorRing α]

/-- Read `m[r][c]` of a counter matrix. -/
def matGet (m : List (List Nat)) (r c : Nat) : Nat :=
  (m.getD r []).getD c 0

/-- The assignment `m[r][c] = v`. -/
def matSet (m : List (List Nat)) (r c v : Nat) : List (List Nat) :=
  m.set r ((m.getD r []).set c v)

/-- The statement `++m[r][c]`. -/
def matIncr (m : List (List Nat)) (r c : Nat) : List (List Nat) :=
  matSet m r c (matGet m r c + 1)

/-- The exchange of the entries `j` and `k` of a vector, as written at lines 1289-1306. -/
def exchange {β : Type} (l : List β) (j k : Nat) (d : β) : List β :=
  (l.set j (l.getD k d)).set k (l.getD j d)

/-- The exchange ratio of lines 1228-1232 and 1357-1361 (`lnProposalRatio` is the
constant `0.0`). -/
def lnR (s : State α) (j k : Nat) : α :=
  let lnProposalRatio : α := 0
  let bj := s.chain_heats.getD j 0
  let bk := s.chain_heats.getD k 0
  let lnPj := s.chain_values.getD j 0
  let lnPk := s.chain_values.getD k 0
  bj * (lnPk - lnPj) + bk * (lnPj - lnPk) + lnProposalRatio

/-- The accept/reject cascade of lines 1237-1252 and 1366-1381; `ex` is `exp`. -/
def acceptTest (ex : α → α) (lnR u : α) : Bool :=
  if lnR ≥ 0 then true
  else if lnR < -100 then false
  else if u < ex lnR then true
  else false

/-- Lines 1314-1316 and 1444-1446: chain `i` after it has been given its heat, its tuning
snapshot and its active flag. -/
def swapPushed (s : State α) (i : Nat) (c : Chain α) : Chain α :=
  { c with
    chain_posterior_heat := s.chain_heats.getD i 0
    moves_tuningInfo := s.chain_moves_tuningInfo.getD i []
    chain_active := decide (s.chain_heats.getD i 0 = 1) }

/-- The loop of lines 1309-1318 and 1439-1448: push heat, tuning snapshot and active flag
to every chain that is not `NULL`. -/
def pushSwapState (s : State α) : State α :=
  (List.range s.num_chains).foldl
    (fun (t : State α) (i : Nat) =>
      match t.chains.getD i none with
      | some c => { t with chains := t.chains.set i (some (swapPushed t i c)) }
      | none => t)
    s

/-- Lines 1274-1320 and 1404-1450: what every process does with the decided tuple
`(j, k, accept)`. -/
def applyDecision (s : State α) (j k : Nat) (accept : Bool) : State α :=
  if accept = true then
    let s1 := { s with numAcceptedSwaps :=
                  matIncr s.numAcceptedSwaps (s.heat_ranks.getD j 0) (s.heat_ranks.getD k 0) }
    let s2 := { s1 with active_chain_index :=
                  if s1.active_chain_index = j then k
                  else if s1.active_chain_index = k then j
                  else s1.active_chain_index }
    let bj := s2.chain_heats.getD j 0
    let bk := s2.chain_heats.getD k 0
    let s3 := { s2 with chain_heats := (s2.chain_heats.set j bk).set k bj }
    let tmp := s3.heat_ranks.getD j 0
    let s4 := { s3 with heat_ranks :=
                  (s3.heat_ranks.set j (s3.heat_ranks.getD k 0)).set k tmp }
    let tmp_mvs_ti := s4.chain_moves_tuningInfo.getD j []
    let tk := s4.chain_moves_tuningInfo.getD k []
    let s5 := { s4 with chain_moves_tuningInfo :=
                  (s4.chain_moves_tuningInfo.set j tk).set k tmp_mvs_ti }
    pushSwapState s5
  else s

/-- Lines 1225 and 1354: `++numAttemptedSwaps[heat_ranks[j]][heat_ranks[k]]`. -/
def countAttempt (s : State α) (j k : Nat) : State α :=
  { s with numAttemptedSwaps :=
      matIncr s.numAttemptedSwaps (s.heat_ranks.getD j 0) (s.heat_ranks.getD k 0) }

/-- Lines 1225-1320 and 1354-1450, which are the same text in `swapNeighborChains` and
`swapRandomChains`, in the build without `RB_MPI`: count the attempt, compute the ratio,
test with the draw `u`, and apply the decision.  In the build with `RB_MPI` the tuple
`(j, k, accept)` that is applied is the one of the coordinator (`swapNeighborChainsMPI`). -/
def swapAttempt (ex : α → α) (s : State α) (j k : Nat) (u : α) : State α :=
  let s1 := countAttempt s j k
  let accept := acceptTest ex (lnR s1 j k) u
  applyDecision s1 j k accept

/-- The index chosen at line 1222: `j = int(uniform01() * (num_chains-1))`. -/
def neighborIndex (s : State α) (u : α) : Nat :=
  ⌊u * ((s.num_chains - 1 : Nat) : α)⌋₊

/-- The function `Mcmcmc::swapNeighborChains`; `u1` is the draw for the index, `u2` the draw of the
test. -/
def swapNeighborChains (ex : α → α) (s : State α) (u1 u2 : α) : State α :=
  let j := neighborIndex s u1
  let k := j + 1
  swapAttempt ex s j k u2

/-- The index of lines 1345 and 1349: `int(uniform01() * num_chains)`. -/
def randomIndex (s : State α) (u : α) : Nat :=
  ⌊u * (s.num_chains : α)⌋₊

/-- The `do ... while (j == k)` loop of lines 1348-1351 run on a finite supply of
draws: the chosen `k` and the unused draws, or `none` when the supply runs out before
the loop exits. -/
def pickOther (s : State α) (j : Nat) : List α → Option (Nat × List α)
  | [] => none
  | u :: us =>
    let k := randomIndex s u
    if j = k then pickOther s j us else some (k, us)

/-- Lines 1345-1352: the pair chosen by `swapRandomChains` and the unused draws. -/
def randomPair (s : State α) : List α → Option ((Nat × Nat) × List α)
  | [] => none
  | u :: us =>
    let j := randomIndex s u
    if s.num_chains > 1 then
      match pickOther s j us with
      | some (k, rest) => some ((j, k), rest)
      | none => none
    else some ((j, 0), us)

/-- The function `Mcmcmc::swapRandomChains` on a finite supply of draws; the result is the new state
and the unused draws. -/
def swapRandomChains (ex : α → α) (s : State α) (draws : List α) :
    Option (State α × List α) :=
  match randomPair s draws with
  | some ((j, k), u :: rest) => some (swapAttempt ex s j k u, rest)
  | _ => none

/-- The function `Mcmcmc::computeBeta` in exact arithmetic: the argument `d` is ignored,
the member `delta` is used.  The same computation with rounded operations is
`computeBetaRounded`. -/
def computeBeta (s : State α) (_d : α) (idx : Nat) : α :=
  1 / (1 + s.delta * (idx : α))

/-- Line 282: `processors_per_chain`. -/
def processors_per_chain (s : State α) : α :=
  (s.num_processes : α) / (s.num_chains : α)

/-- Line 302: `active_pid_for_chain` for chain `i`. -/
def active_pid_for_chain (s : State α) (i : Nat) : Nat :=
  ⌊(i : α) * processors_per_chain s⌋₊ + s.active_PID

/-- Lines 303-307: `num_processer_for_chain` for chain `i`. -/
def num_processer_for_chain (s : State α) (i : Nat) : Nat :=
  let n := (⌊((i + 1 : Nat) : α) * processors_per_chain s⌋₊ + s.active_PID)
    - active_pid_for_chain s i
  if n < 1 then 1 else n

/-- Lines 290-298: the heat given to chain `i`. -/
def initialHeat (s : State α) (i : Nat) : α :=
  if s.heat_temps.getD 0 0 ≠ 0 then s.heat_temps.getD i 0
  else computeBeta s s.delta i

/-- Lines 316-321: the chain created for index `i` from the template chain. -/
def newChain (s : State α) (i : Nat) : Chain α :=
  { s.base_chain with
    chain_active := decide (i = 0)
    chain_posterior_heat := s.chain_heats.getD i 0
    chain_idx := i }

/-- Line 312: whether this process creates chain `i`. -/
def ownsChain (s : State α) (i : Nat) : Bool :=
  decide (s.pid ≥ active_pid_for_chain s i ∧
    s.pid < active_pid_for_chain s i + num_processer_for_chain s i)

/-- The slot of chain `i` after `initializeChains`. -/
def initialSlot (s : State α) (i : Nat) : Option (Chain α) :=
  if ownsChain s i = true then
    some { s.base_chain with
           chain_active := decide (i = 0)
           chain_posterior_heat := initialHeat s i
           chain_idx := i }
  else none

/-- The body of the loop of `Mcmcmc::initializeChains` (lines 286-327) for chain `i`. -/
def initializeChain (s : State α) (i : Nat) : State α :=
  let s1 := { s with heat_ranks := s.heat_ranks.set i i }
  let s2 := { s1 with chain_heats := s1.chain_heats.set i (initialHeat s1 i) }
  let s3 := { s2 with chain_moves_tuningInfo :=
                s2.chain_moves_tuningInfo.set i s2.base_chain.moves_tuningInfo }
  let s4 := { s3 with pid_per_chain := s3.pid_per_chain.set i (active_pid_for_chain s3 i) }
  if ownsChain s4 i = true then
    { s4 with chains := s4.chains.set i (some (newChain s4 i)) }
  else
    { s4 with chains := s4.chains.set i none }

/-- The function `Mcmcmc::initializeChains`. -/
def initializeChains (s : State α) : State α :=
  (List.range s.num_chains).foldl initializeChain s

/-- The member initialisers and container sizes of the constructor (lines 20-45), with
the two swap flags `un` and `ur`. -/
def blankState (base : Chain α) (nc si : Nat) (dt : α) (th un ur : Bool)
    (num_processes pid active_PID : Nat) : State α :=
  { num_chains := nc
    current_generation := 0
    burnin_generation := 0
    generation := 0
    swap_interval := si
    swap_interval2 := 0
    active_chain_index := 0
    delta := dt
    tune_heat := th
    useNeighborSwapping := un
    useRandomSwapping := ur
    chains := List.replicate nc none
    chain_values := List.replicate nc 0
    chain_heats := List.replicate nc 0
    pid_per_chain := List.replicate nc 0
    heat_ranks := List.replicate nc 0
    heat_temps := List.replicate nc 0
    numAttemptedSwaps := List.replicate nc (List.replicate nc 0)
    numAcceptedSwaps := List.replicate nc (List.replicate nc 0)
    chain_moves_tuningInfo := List.replicate nc []
    base_chain := base
    num_processes := num_processes
    pid := pid
    active_PID := active_PID }

/-- The constructor `Mcmcmc::Mcmcmc` (lines 19-70).  `base` is the template chain
`new Mcmc(m, mv, mn)`; the last three arguments are the members set by the base class. -/
def construct (base : Chain α) (nc si : Nat) (dt : α) (th : Bool) (sm : String)
    (num_processes pid active_PID : Nat) : State α :=
  let s0 : State α := blankState base nc si dt th true false num_processes pid active_PID
  let s1 :=
    if sm = "neighbor" then
      { s0 with useNeighborSwapping := true, useRandomSwapping := false }
    else if sm = "random" then
      { s0 with useNeighborSwapping := false, useRandomSwapping := true }
    else if sm = "both" then
      { s0 with useNeighborSwapping := true, useRandomSwapping := true }
    else s0
  initializeChains s1

/-- The state of the scenario of spec §8: two chains with heats `[1.0, 0.5]` and
log-probabilities `[-10, -12]`. -/
def twoChainScenario (base : Chain α) : State α :=
  { construct base 2 1 1 false "neighbor" 1 0 0 with
    chain_heats := [1, 1 / 2]
    chain_values := [-10, -12] }

/-- A template chain over `ℚ` with one move, used to evaluate the model. -/
def base0 : Chain ℚ :=
  { chain_active := false
    chain_posterior_heat := 1
    chain_idx := 0
    moves_tuningInfo := [⟨0, 0, 1⟩]
    lnPosterior := -3
    lnLikelihood := -2 }

/-- The same template chain over any field of numbers. -/
def baseChain : Chain α :=
  { chain_active := false
    chain_posterior_heat := 1
    chain_idx := 0
    moves_tuningInfo := [⟨0, 0, 1⟩]
    lnPosterior := -3
    lnLikelihood := -2 }

/-- Three chains with spacing `1/5` on one process, the log-probabilities of the chains
being `-12`, `-10` and `-11`. -/
def sampleState : State ℚ :=
  { construct base0 3 1 (1 / 5) true "both" 1 0 0 with
    chain_values := [-12, -10, -11] }

/-- A stand-in for `exp` over `ℚ`, for evaluations in which the test is decided before
the `exp` branch. -/
def expStub : ℚ → ℚ := fun _ => 0

/-- A stand-in for `pow` over `ℚ` that satisfies `PowSpec` and agrees with `pow` at the
exponents `0` and `1`. -/
def powStub : ℚ → ℚ → ℚ := fun b e => 1 + (b - 1) * e

/-- The function `Mcmcmc::setHeatsInitial`. -/
def setHeatsInitial (s : State α) (ht : List α) : State α :=
  { s with heat_temps := ht }

/-- The function `Mcmcmc::setSwapInterval2`. -/
def setSwapInterval2 (s : State α) (si2 : Nat) : State α :=
  { s with swap_interval2 := si2 }

/-- The effect of `v.resize(n, d)` on a vector. -/
def resize {β : Type} (v : List β) (n : Nat) (d : β) : List β :=
  v.take n ++ List.replicate (n - v.length) d

/-- The function `Mcmcmc::setActivePIDSpecialized` (its two arguments are not used by the body). -/
def setActivePIDSpecialized (s : State α) (_i _n : Nat) : State α :=
  let s1 := { s with chains := List.replicate s.num_chains none
                     chain_values := List.replicate s.num_chains 0
                     chain_heats := List.replicate s.num_chains 0
                     pid_per_chain := resize s.pid_per_chain s.num_chains 0
                     heat_ranks := List.replicate s.num_chains 0
                     chain_moves_tuningInfo := List.replicate s.num_chains [] }
  initializeChains s1

/-- The function `Mcmcmc::resetCounters`. -/
def resetCounters (s : State α) : State α :=
  (List.range s.num_chains).foldl
    (fun (t : State α) (i : Nat) =>
      (List.range t.num_chains).foldl
        (fun (t : State α) (j : Nat) =>
          { t with numAttemptedSwaps := matSet t.numAttemptedSwaps i j 0
                   numAcceptedSwaps := matSet t.numAcceptedSwaps i j 0 })
        t)
    s

/-- The function `Mcmcmc::synchronizeValues` in the build without `RB_MPI`. -/
def synchronizeValues (s : State α) (likelihood_only : Bool) : State α :=
  let results : List α := (List.range s.num_chains).map fun j =>
    match s.chains.getD j none with
    | some c => if likelihood_only = true then c.lnLikelihood else c.lnPosterior
    | none => 0
  if s.active_PID = s.pid then
    { s with chain_values :=
        (List.range s.num_chains).foldl (fun v i => v.set i (results.getD i 0)) s.chain_values }
  else s

/-- The function `Mcmcmc::synchronizeHeats` in the build without `RB_MPI`. -/
def synchronizeHeats (s : State α) : State α :=
  let heats : List α := (List.range s.num_chains).map fun j =>
    match s.chains.getD j none with
    | some c => c.chain_posterior_heat
    | none => 0
  if s.active_PID = s.pid then
    { s with chain_heats :=
        (List.range s.num_chains).foldl (fun v i => v.set i (heats.getD i 0)) s.chain_heats }
  else s

/-- The function `Mcmcmc::synchronizeTuningInfo` in the build without `RB_MPI`. -/
def synchronizeTuningInfo (s : State α) : State α :=
  let chain_mvs_ti : List (List (TuningInfo α)) := (List.range s.num_chains).map fun j =>
    match s.chains.getD j none with
    | some c => c.moves_tuningInfo
    | none => s.base_chain.moves_tuningInfo
  if s.active_PID = s.pid then
    { s with chain_moves_tuningInfo :=
        (List.range s.num_chains).foldl (fun v i => v.set i (chain_mvs_ti.getD i [])) (
          s.chain_moves_tuningInfo) }
  else s

/-- The function `Mcmcmc::swapChains` on a finite supply of draws: the new state and the unused
draws, or `none` when the supply runs out. -/
def swapChains (ex : α → α) (s : State α) (swap_method : String) (draws : List α) :
    Option (State α × List α) :=
  if s.num_chains < 2 then some (s, draws)
  else
    let s1 := synchronizeValues s false
    let s2 := synchronizeHeats s1
    let s3 := synchronizeTuningInfo s2
    if swap_method = "neighbor" then
      match draws with
      | u1 :: u2 :: rest => some (swapNeighborChains ex s3 u1 u2, rest)
      | _ => none
    else if swap_method = "random" then
      swapRandomChains ex s3 draws
    else some (s3, draws)

/-- The expression `std::find(heat_ranks.begin(), heat_ranks.end(), r) - heat_ranks.begin()`:
the index of the chain whose rank is `r`. -/
def chainOfRank (heat_ranks : List Nat) (r : Nat) : Nat :=
  heat_ranks.indexOf r

/-- The heat of the chain whose rank is `r`, read as `tune` reads it (lines 1472-1475). -/
def heatAtRank (heat_ranks : List Nat) (chain_heats : List α) (r : Nat) : α :=
  chain_heats.getD (chainOfRank heat_ranks r) 0

/-- The constant `tuneHeatTarget` of line 1466. -/
def tuneHeatTarget : α := 23 / 100

/-- The constant `heatMinBound` of line 1502. -/
def heatMinBound : α := 1 / 100

/-- The loop of lines 1470-1476: the gaps between the heats of adjacent ranks. -/
def heatsDiff (s : State α) : List α :=
  (List.range' 1 (s.num_chains - 1)).foldl
    (fun (heats_diff : List α) (i : Nat) =>
      let colderChainIdx := chainOfRank s.heat_ranks (i - 1)
      let hotterChainIdx := chainOfRank s.heat_ranks i
      heats_diff.set (i - 1)
        (s.chain_heats.getD colderChainIdx 0 - s.chain_heats.getD hotterChainIdx 0))
    (List.replicate (s.num_chains - 1) 0)

/-- Lines 1489-1496: the gap `gap` after `*=` or `/=` with the acceptance rate `rate`. -/
def retuneGap (gap rate : α) : α :=
  if rate > tuneHeatTarget then
    gap * (1 + (rate - tuneHeatTarget) / (1 - tuneHeatTarget))
  else
    gap / (2 - rate / tuneHeatTarget)

/-- The body of the loop of lines 1478-1500 for the rank pair `(i-1, i)`. -/
def tuneGap (s : State α) (heats_diff : List α) (i : Nat) : List α :=
  let numAttemptedSwapsPairwise :=
    matGet s.numAttemptedSwaps (i - 1) i + matGet s.numAttemptedSwaps i (i - 1)
  if numAttemptedSwapsPairwise > 2 then
    let numAcceptedSwapsPairwise :=
      matGet s.numAcceptedSwaps (i - 1) i + matGet s.numAcceptedSwaps i (i - 1)
    let rate : α := (numAcceptedSwapsPairwise : α) / (numAttemptedSwapsPairwise : α)
    heats_diff.set (i - 1) (retuneGap (heats_diff.getD (i - 1) 0) rate)
  else heats_diff

/-- The loop of lines 1478-1500. -/
def tuneGaps (s : State α) (heats_diff : List α) : List α :=
  (List.range' 1 (s.num_chains - 1)).foldl (tuneGap s) heats_diff

/-- The loop of lines 1503-1517 with `n` iterations left, that is at `j = num_chains - n`:
the value of `j` when the loop is left and the heats then.  The subtraction is exact; in
`double` a gap below half the spacing of the doubles at the colder heat leaves that heat
unchanged. -/
def tuneForward (heat_ranks : List Nat) (heats_diff : List α) (num_chains : Nat) :
    Nat → List α → Nat × List α
  | 0, chain_heats => (num_chains, chain_heats)
  | n + 1, chain_heats =>
    let j := num_chains - (n + 1)
    let colderChainIdx := chainOfRank heat_ranks (j - 1)
    let hotterChainIdx := chainOfRank heat_ranks j
    let chain_heats1 := chain_heats.set hotterChainIdx
      (chain_heats.getD colderChainIdx 0 - heats_diff.getD (j - 1) 0)
    if chain_heats1.getD hotterChainIdx 0 < heatMinBound then (j, chain_heats1)
    else tuneForward heat_ranks heats_diff num_chains n chain_heats1

/-- Lines 1524-1534: the geometric interpolation from rank `j` on; `pw` is `pow`. -/
def tuneInterpolate (pw : α → α → α) (heat_ranks : List Nat) (num_chains j : Nat)
    (chain_heats : List α) : List α :=
  let colderChainIdx := chainOfRank heat_ranks (j - 1)
  let rho := pw (chain_heats.getD colderChainIdx 0 / heatMinBound)
    (1 / ((num_chains - j : Nat) : α))
  (List.range' j (num_chains - j)).foldl
    (fun (h : List α) (k : Nat) =>
      let hotterChainIdx := chainOfRank heat_ranks k
      h.set hotterChainIdx (h.getD colderChainIdx 0 / pw rho ((k + 1 - j : Nat) : α)))
    chain_heats

/-- Lines 1545-1548: chain `i` after it has been given its heat and its active flag and
has retuned its moves.  The parameter `tuneMoves` is what `Mcmc::tune`, which is not among
the sources, does to the tuning snapshot of the chain. -/
def tunePushed (tuneMoves : List (TuningInfo α) → List (TuningInfo α)) (s : State α)
    (i : Nat) (c : Chain α) : Chain α :=
  { c with
    chain_posterior_heat := s.chain_heats.getD i 0
    chain_active := decide (s.chain_heats.getD i 0 = 1)
    moves_tuningInfo := tuneMoves c.moves_tuningInfo }

/-- The loop of lines 1541-1550. -/
def pushTuneState (tuneMoves : List (TuningInfo α) → List (TuningInfo α)) (s : State α) :
    State α :=
  (List.range s.num_chains).foldl
    (fun (t : State α) (i : Nat) =>
      match t.chains.getD i none with
      | some c => { t with chains := t.chains.set i (some (tunePushed tuneMoves t i c)) }
      | none => t)
    s

/-- Lines 1466-1535 of `Mcmcmc::tune`: the heats after the gaps have been retuned, the
ladder rebuilt from the cold chain outward and, when a heat fell below `heatMinBound`, the
hotter ranks interpolated. -/
def tunedHeats (pw : α → α → α) (s : State α) : List α :=
  let heats_diff := tuneGaps s (heatsDiff s)
  let fw := tuneForward s.heat_ranks heats_diff s.num_chains (s.num_chains - 1) s.chain_heats
  let j := fw.1
  if j < s.num_chains then tuneInterpolate pw s.heat_ranks s.num_chains j fw.2
  else fw.2

/-- The function `Mcmcmc::tune`. -/
def tune (pw : α → α → α) (tuneMoves : List (TuningInfo α) → List (TuningInfo α))
    (s : State α) : State α :=
  let s1 :=
    if s.tune_heat = true ∧ s.num_chains > 1 then
      resetCounters { s with chain_heats := tunedHeats pw s }
    else s
  pushTuneState tuneMoves s1

/-- What the theorems on `tune` use of the library function `pow`: on bases at least
one it is at least one for non-negative exponents, above one for a base above one and a
positive exponent, and non-decreasing in the exponent. -/
structure PowSpec (pw : α → α → α) : Prop where
  one_le : ∀ b e, 1 ≤ b → 0 ≤ e → 1 ≤ pw b e
  one_lt : ∀ b e, 1 < b → 0 < e → 1 < pw b e
  mono : ∀ b e1 e2, 1 ≤ b → 0 ≤ e1 → e1 ≤ e2 → pw b e1 ≤ pw b e2

/-- The ladder read by chain index: `heat_ranks` is a permutation of the ranks, the
chain of rank `0` has heat one, the other chains have heats below one, and a chain of
smaller rank has a heat at least as large. -/
structure Ladder (s : State α) : Prop where
  perm : s.heat_ranks.Perm (List.range s.num_chains)
  len : s.chain_heats.length = s.num_chains
  cold : ∀ a, a < s.num_chains → s.heat_ranks.getD a 0 = 0 → s.chain_heats.getD a 0 = 1
  hot : ∀ a, a < s.num_chains → 0 < s.heat_ranks.getD a 0 → s.chain_heats.getD a 0 < 1
  mono : ∀ a b, a < s.num_chains → b < s.num_chains →
    s.heat_ranks.getD a 0 < s.heat_ranks.getD b 0 →
    s.chain_heats.getD b 0 ≤ s.chain_heats.getD a 0

/-- Every chain is held by this process and was given the heat recorded for it in
`chain_heats`. -/
structure Synced (s : State α) : Prop where
  chains_len : s.chains.length = s.num_chains
  owned : ∀ i, i < s.num_chains →
    ∃ c, s.chains.getD i none = some c ∧ c.chain_posterior_heat = s.chain_heats.getD i 0

/-- Every chain is held by this process and reports the log-probability `p`. -/
def Flat (p : α) (s : State α) : Prop :=
  ∀ i, i < s.num_chains → ∃ c, s.chains.getD i none = some c ∧ c.lnPosterior = p

/-- The index whose entry is found at index `a` after the entries `j` and `k` have been
exchanged. -/
def swapIdx (j k a : Nat) : Nat :=
  if a = k then j else if a = j then k else a

/-- Modelled from the spec: what one cycle of the chains themselves (`Mcmc::nextCycle`, not
among the sources) may change in the chain handles: the sampled values and the tuning
snapshots, but neither the heat, the active flag nor the index of a chain, and not
which chains exist. -/
def chainsAdvanced (cs cs2 : List (Option (Chain α))) : Prop :=
  cs2.length = cs.length ∧
  ∀ i, (cs.getD i none = none → cs2.getD i none = none) ∧
    ∀ c, cs.getD i none = some c →
      ∃ c2, cs2.getD i none = some c2 ∧
        c2.chain_posterior_heat = c.chain_posterior_heat ∧
        c2.chain_active = c.chain_active ∧ c2.chain_idx = c.chain_idx

/-- One operation on the coordinator: a call of `swapChains` with draws of
`uniform01()` in `[0,1)`, a call of `tune`, a call of `resetCounters`, or the chains
advancing on their own while the generation counters move. -/
inductive Step (ex : α → α) (pw : α → α → α) : State α → State α → Prop
  | swap (s : State α) (swap_method : String) (draws : List α) (s2 : State α)
      (rest : List α) :
      (∀ u ∈ draws, 0 ≤ u ∧ u < 1) →
      swapChains ex s swap_method draws = some (s2, rest) → Step ex pw s s2
  | tune (s : State α) (tuneMoves : List (TuningInfo α) → List (TuningInfo α)) :
      Step ex pw s (tune pw tuneMoves s)
  | resetCounters (s : State α) : Step ex pw s (resetCounters s)
  | advance (s : State α) (cs2 : List (Option (Chain α))) (cg bg : Nat) :
      chainsAdvanced s.chains cs2 →
      Step ex pw s { s with chains := cs2, current_generation := cg, burnin_generation := bg }

/-- The states reached from `s0` by finitely many operations. -/
def Reachable (ex : α → α) (pw : α → α → α) (s0 s : State α) : Prop :=
  Relation.ReflTransGen (Step ex pw) s0 s

/-- Lines 368-377 of `Mcmcmc::nextCycle`: every chain that is not `NULL` runs one cycle.
The parameter `chainCycle` is `Mcmc::nextCycle`, which is not among the sources. -/
def advanceChains (chainCycle : Bool → Chain α → Chain α) (s : State α)
    (advanceCycle : Bool) : State α :=
  (List.range s.num_chains).foldl
    (fun (t : State α) (i : Nat) =>
      match t.chains.getD i none with
      | some c => { t with chains := t.chains.set i (some (chainCycle advanceCycle c)) }
      | none => t)
    s

/-- Lines 379-387 of `Mcmcmc::nextCycle`: the counter of the phase is advanced. -/
def countGeneration (s : State α) (advanceCycle : Bool) : State α :=
  if advanceCycle = true then
    { s with current_generation := s.current_generation + 1 }
  else
    { s with burnin_generation := s.burnin_generation + 1 }

/-- The generation that the interval tests of `Mcmcmc::nextCycle` compare: the burn-in
counter while `current_generation` is zero, `current_generation` after that. -/
def testedGeneration (s : State α) : Nat :=
  if s.current_generation = 0 then s.burnin_generation else s.current_generation

/-- The test of lines 391, 405, 425 and 442 against `interval`.  The test takes a remainder
modulo `interval` whatever the counters are; there is no value when `interval` is zero. -/
def swapDue (s : State α) (interval : Nat) : Option Bool :=
  if interval = 0 then none
  else some (decide ((s.current_generation = 0 ∧ s.burnin_generation % interval = 0) ∨
    (s.current_generation > 0 ∧ s.current_generation % interval = 0)))

/-- A loop `for (i = 0; i < n; ++i) body` on the state and the supply of draws; there is
no result when the supply of draws runs out. -/
def repeatSwaps (body : State α → List α → Option (State α × List α)) :
    Nat → State α → List α → Option (State α × List α)
  | 0, s, draws => some (s, draws)
  | n + 1, s, draws =>
    match body s draws with
    | some (s2, rest) => repeatSwaps body n s2 rest
    | none => none

/-- The loop of lines 400-403 and 434-437: `num_chains` calls of `swapChains("neighbor")`. -/
def neighborSwaps (ex : α → α) (s : State α) (draws : List α) : Option (State α × List α) :=
  repeatSwaps (fun t d => swapChains ex t "neighbor" d) s.num_chains s draws

/-- The double loop of lines 414-420 and 451-457: `num_chains` times `num_chains` calls of
`swapChains("random")`. -/
def randomSwaps (ex : α → α) (s : State α) (draws : List α) : Option (State α × List α) :=
  repeatSwaps
    (fun t d => repeatSwaps (fun t d => swapChains ex t "random" d) t.num_chains t d)
    s.num_chains s draws

/-- The function `Mcmcmc::nextCycle` on a finite supply of draws: the new state and the
unused draws; there is no result when the supply of draws runs out or an interval test
has no value. -/
def nextCycle (ex : α → α) (chainCycle : Bool → Chain α → Chain α) (s : State α)
    (advanceCycle : Bool) (draws : List α) : Option (State α × List α) :=
  let s1 := advanceChains chainCycle s advanceCycle
  let s2 := countGeneration s1 advanceCycle
  if s2.useNeighborSwapping = true ∧ s2.useRandomSwapping = true then
    match swapDue s2 s2.swap_interval with
    | none => none
    | some due1 =>
      match (if due1 = true then neighborSwaps ex s2 draws else some (s2, draws)) with
      | none => none
      | some (s3, rest) =>
        match swapDue s3 s3.swap_interval2 with
        | none => none
        | some due2 => if due2 = true then randomSwaps ex s3 rest else some (s3, rest)
  else if s2.useNeighborSwapping = true then
    match swapDue s2 s2.swap_interval with
    | none => none
    | some due1 => if due1 = true then neighborSwaps ex s2 draws else some (s2, draws)
  else if s2.useRandomSwapping = true then
    match swapDue s2 s2.swap_interval with
    | none => none
    | some due1 => if due1 = true then randomSwaps ex s2 draws else some (s2, draws)
  else some (s2, draws)

/-- The schedule of the swaps in words: after the chains have run and the counter of the
phase has moved, the neighbor swaps are run exactly when neighbor swapping is selected and
the tested generation is a multiple of `swap_interval`; then the random swaps are run
exactly when random swapping is selected and the tested generation is a multiple of
`swap_interval2` if neighbor swapping is selected too, of `swap_interval` if it is not. -/
def scheduledCycle (ex : α → α) (chainCycle : Bool → Chain α → Chain α) (s : State α)
    (advanceCycle : Bool) (draws : List α) : Option (State α × List α) :=
  let t := countGeneration (advanceChains chainCycle s advanceCycle) advanceCycle
  let g := testedGeneration t
  let neighborTrigger : Bool :=
    decide (t.useNeighborSwapping = true ∧ g % t.swap_interval = 0)
  let randomInterval : Nat :=
    if t.useNeighborSwapping = true then t.swap_interval2 else t.swap_interval
  let randomTrigger : Bool :=
    decide (t.useRandomSwapping = true ∧ g % randomInterval = 0)
  match (if neighborTrigger = true then neighborSwaps ex t draws else some (t, draws)) with
  | none => none
  | some (s3, rest) => if randomTrigger = true then randomSwaps ex s3 rest else some (s3, rest)

/-- The sum of all cells of a counter matrix. -/
def matSum (m : List (List Nat)) : Nat :=
  (m.map List.sum).sum

/-- The draws of a sequence of random swaps: for each swap the draw of `j`, the draw of
`k` and the draw of the test. -/
def tripleDraws : List (α × α × α) → List α
  | [] => []
  | t :: ts => t.1 :: t.2.1 :: t.2.2 :: tripleDraws ts

/-- Lines 641-642 of `Mcmcmc::printSummaryPair`: the acceptance ratio that is printed for
the cell `(row, col)`.  The parameter `fdiv` is the division of `double`. -/
def acceptanceRatio (fdiv : α → α → α) (s : State α) (row col : Nat) : α :=
  let ratio := fdiv (matGet s.numAcceptedSwaps row col : α)
    (matGet s.numAttemptedSwaps row col : α)
  if matGet s.numAttemptedSwaps row col = 0 then 0 else ratio

/-- The counter matrices are `num_chains` by `num_chains` and the rank map is a
permutation of the ranks. -/
structure CountersOK (s : State α) : Prop where
  perm : s.heat_ranks.Perm (List.range s.num_chains)
  rows : s.numAttemptedSwaps.length = s.num_chains
  cols : ∀ r, r < s.num_chains → (s.numAttemptedSwaps.getD r []).length = s.num_chains

/-- The members that `nextCycle` reads for its schedule, which no swap writes: the state
`t` has the number of chains, the generation counters, the intervals and the swap flags
of `s`. -/
def SameSchedule (s t : State α) : Prop :=
  t.num_chains = s.num_chains ∧ t.current_generation = s.current_generation ∧
  t.burnin_generation = s.burnin_generation ∧ t.swap_interval = s.swap_interval ∧
  t.swap_interval2 = s.swap_interval2 ∧ t.useNeighborSwapping = s.useNeighborSwapping ∧
  t.useRandomSwapping = s.useRandomSwapping

/-- The draws of a sequence of random swaps in which the draw of `k` never repeats the
index chosen for `j`, so that each `do ... while` loop is left after one draw. -/
def distinctDraws (s : State α) (ts : List (α × α × α)) : Prop :=
  ∀ t ∈ ts, randomIndex s t.1 ≠ randomIndex s t.2.1

/-- The state at line 389 of `Mcmcmc::nextCycle`: the chains have run one cycle and the
counter of the phase has moved. -/
def countedState (chainCycle : Bool → Chain α → Chain α) (s : State α)
    (advanceCycle : Bool) : State α :=
  countGeneration (advanceChains chainCycle s advanceCycle) advanceCycle

/-- Two chains with neighbor swapping alone and `swap_interval = 1`. -/
def neighborOnlyScenario : State ℚ :=
  construct base0 2 1 (1 / 5) true "neighbor" 1 0 0

/-- Two chains with random swapping alone and `swap_interval = 1`. -/
def randomOnlyScenario : State ℚ :=
  construct base0 2 1 (1 / 5) true "random" 1 0 0

/-- Two chains with random swapping alone, `swap_interval = 2` and `swap_interval2 = 1`. -/
def randomOnlyScenario2 : State ℚ :=
  setSwapInterval2 (construct base0 2 2 (1 / 5) true "random" 1 0 0) 1

/-- Two chains with both kinds of swaps, `swap_interval = 1` and `swap_interval2 = 1`. -/
def bothScenario : State ℚ :=
  setSwapInterval2 (construct base0 2 1 (1 / 5) true "both" 1 0 0) 1

/-- The draws of four random swaps on two chains, each choosing `j = 0` and `k = 1`. -/
def fourSwapDraws : List (ℚ × ℚ × ℚ) :=
  [(0, 1 / 2, 0), (0, 1 / 2, 0), (0, 1 / 2, 0), (0, 1 / 2, 0)]

/-- The loop of lines 1503-1517 as `tune` runs it: the value of `j` when the loop is left
(`num_chains` if no heat fell below `heatMinBound`) and the heats then. -/
def forwardPass (s : State α) : Nat × List α :=
  tuneForward s.heat_ranks (tuneGaps s (heatsDiff s)) s.num_chains (s.num_chains - 1)
    s.chain_heats

/-- The value `chain_heats[colderChainIdx]` read at lines 1526 and 1532: the heat of the
rank below the one at which the loop of lines 1503-1517 was left. -/
def lastValidHeat (s : State α) : α :=
  heatAtRank s.heat_ranks (forwardPass s).2 ((forwardPass s).1 - 1)

/-- Two chains initialized with the explicit heats `1, 1/200` and heat tuning enabled. -/
def floorScenario : State α :=
  initializeChains (setHeatsInitial (blankState baseChain 2 1 0 true true false 1 0 0)
    [1, 1 / 200])

/-- Four chains initialized with the explicit heats `1, 3/256, 1/100, 1/200` and heat
tuning enabled.  On these heats every subtraction of `Mcmcmc::tune` is exact in `double`
too: `1 - 3/256` and `3/256` are dyadic, `3/256 - 0.01` and `0.01 - 0.005` are differences
of two doubles within a factor two of each other, and `3/256 - (3/256 - 0.01)` is the
double `0.01` itself. -/
def floorTieScenario : State α :=
  initializeChains (setHeatsInitial (blankState baseChain 4 1 0 true true false 1 0 0)
    [1, 3 / 256, 1 / 100, 1 / 200])

/-- The function `Mcmcmc::swapMovesTuningInfo` (lines 1167-1207).  The loop runs over `mvsj`
and advances `itk` with it; the length of `mvsk` is compared only after the loop.  What
the vectors hold when an exception is thrown is not kept. -/
def swapMovesTuningInfo : List (Move α) → List (Move α) → SwapInfoResult α
  | [], [] => SwapInfoResult.returned [] []
  | [], _ :: _ =>
    SwapInfoResult.thrown "The two moves objetcs whose tuning information is attempted to be swapped have different number of moves."
  | _ :: _, [] => SwapInfoResult.pastTheEnd
  | mj :: js, mk :: ks =>
    if mj.moveName ≠ mk.moveName then
      SwapInfoResult.thrown "The two moves whose tuning information is attempted to be swapped are not the same move as their names do not match."
    else
      let mj1 := { mj with numberTried := mk.numberTried, numberAccepted := mk.numberAccepted }
      let mk1 := { mk with numberTried := mj.numberTried, numberAccepted := mj.numberAccepted }
      let nanj := mj.moveTuningParameter.isNone
      let nank := mk.moveTuningParameter.isNone
      if (nanj = true ∧ nank = false) ∨ (nanj = false ∧ nank = true) then
        SwapInfoResult.thrown "The two moves whose tuning information is attempted to be swapped are not the same move as only one of them has tuning parameter."
      else
        let mj2 :=
          if nanj = false then { mj1 with moveTuningParameter := mk.moveTuningParameter }
          else mj1
        let mk2 :=
          if nanj = false then { mk1 with moveTuningParameter := mj.moveTuningParameter }
          else mk1
        match swapMovesTuningInfo js ks with
        | SwapInfoResult.returned a b => SwapInfoResult.returned (mj2 :: a) (mk2 :: b)
        | r => r

/-- The function `Mcmcmc::swapNeighborChains` in the build with `RB_MPI`, on one process.
The two calls of `uniform01()` (lines 1222 and 1236), the count of the attempt (line 1225)
and the test are outside the `#ifdef`: every process makes the draws `u1` and `u2` from
its own generator, counts the attempt on the pair it drew and computes a decision.  In
the block of lines 1255-1272 the coordinator (`active_PID == pid`) sends its
`(j, k, accept)` and every other process overwrites its own by the tuple `received`.  The
result is the new state and the tuple after that block. -/
def swapNeighborChainsMPI (ex : α → α) (s : State α) (u1 u2 : α)
    (received : Nat × Nat × Bool) : State α × (Nat × Nat × Bool) :=
  let j := neighborIndex s u1
  let k := j + 1
  let s1 := countAttempt s j k
  let accept := acceptTest ex (lnR s1 j k) u2
  let decided : Nat × Nat × Bool :=
    if s.active_PID = s.pid then (j, k, accept) else received
  (applyDecision s1 decided.1 decided.2.1 decided.2.2, decided)

/-- One neighbor swap in the build with `RB_MPI` on the coordinator `c` and on one other
process `w`: the coordinator draws `uc1`, `uc2` and sends its tuple, the other process
draws `uw1`, `uw2` and receives the tuple. -/
def neighborSwapOnTwoProcesses (ex : α → α) (c w : State α) (uc1 uc2 uw1 uw2 : α) :
    State α × State α :=
  let onCoordinator := swapNeighborChainsMPI ex c uc1 uc2 (0, 0, false)
  let onWorker := swapNeighborChainsMPI ex w uw1 uw2 onCoordinator.2
  (onCoordinator.1, onWorker.1)

/-- Three chains on two processes, as the coordinator (rank `0`) holds them after the
values `-12, -10, -11` have been synchronized. -/
def mpiCoordinator : State ℚ :=
  { construct base0 3 1 (1 / 5) true "neighbor" 2 0 0 with chain_values := [-12, -10, -11] }

/-- The same coordinator state as the process of rank `1` holds it. -/
def mpiWorker : State ℚ :=
  { construct base0 3 1 (1 / 5) true "neighbor" 2 1 0 with chain_values := [-12, -10, -11] }

/-- Two chains with neighbor swapping alone and `swap_interval = 2`. -/
def intervalTwoScenario : State ℚ :=
  construct base0 2 2 (1 / 5) true "neighbor" 1 0 0

/-- The counter matrices are `num_chains` by `num_chains`, the rank map is a permutation
of the ranks, no cell has more accepted than attempted swaps and no attempt is counted on
the diagonal. -/
structure CountsInv (s : State α) : Prop where
  ok : CountersOK s
  rowsA : s.numAcceptedSwaps.length = s.num_chains
  colsA : ∀ r, r < s.num_chains → (s.numAcceptedSwaps.getD r []).length = s.num_chains
  le : ∀ r c, matGet s.numAcceptedSwaps r c ≤ matGet s.numAttemptedSwaps r c
  diag : ∀ i, matGet s.numAttemptedSwaps i i = 0

/-- The state `t` is the state `s` but for one more attempt counted in the cell `(r, c)`
of `numAttemptedSwaps`: the heats, the values, the rank map, the tuning snapshots, the
index of the active chain, the chains and `numAcceptedSwaps` are those of `s`. -/
def OnlyAttemptCounted (s t : State α) (r c : Nat) : Prop :=
  t.chain_heats = s.chain_heats ∧ t.chain_values = s.chain_values ∧
  t.heat_ranks = s.heat_ranks ∧ t.chain_moves_tuningInfo = s.chain_moves_tuningInfo ∧
  t.active_chain_index = s.active_chain_index ∧
  t.numAcceptedSwaps = s.numAcceptedSwaps ∧ t.chains = s.chains ∧
  ∀ r1 c1, matGet t.numAttemptedSwaps r1 c1
    = matGet s.numAttemptedSwaps r1 c1 + if r = r1 ∧ c = c1 then 1 else 0

/-- The integer nearest to `q`; when `q` lies half-way between two integers, the even
one. -/
def roundHalfEven (q : ℚ) : ℤ :=
  if q - (⌊q⌋ : ℚ) < 1 / 2 then ⌊q⌋
  else if 1 / 2 < q - (⌊q⌋ : ℚ) then ⌊q⌋ + 1
  else if ⌊q⌋ % 2 = 0 then ⌊q⌋ else ⌊q⌋ + 1

/-- The rounding of every operation on `double` (IEEE 754 binary64, to nearest, ties to
even), on the rationals: the result has a significand of 53 bits.  The range of the
exponent is not bounded, so there is no overflow and no subnormal range. -/
def roundDouble (q : ℚ) : ℚ :=
  if q = 0 then 0
  else (roundHalfEven (q / (2 : ℚ) ^ (Int.log 2 |q| - 52)) : ℚ) * (2 : ℚ) ^ (Int.log 2 |q| - 52)

/-- The function `Mcmcmc::computeBeta`, `1.0 / (1.0 + delta * idx)`, in an arithmetic that
rounds the result of every operation by `rn`: the product, the sum and the quotient are
each rounded.  With `rn = roundDouble` this is the computation in `double`, with `rn = id`
it is `computeBeta`.  The conversion of `idx` is exact. -/
def computeBetaRounded (rn : α → α) (s : State α) (_d : α) (idx : Nat) : α :=
  rn (1 / rn (1 + rn (s.delta * (idx : α))))

/-- Lines 290-298 in the arithmetic that rounds by `rn`: the heat given to chain `i`. -/
def initialHeatRounded (rn : α → α) (s : State α) (i : Nat) : α :=
  if s.heat_temps.getD 0 0 ≠ 0 then s.heat_temps.getD i 0
  else computeBetaRounded rn s s.delta i

/-- The body of the loop of `Mcmcmc::initializeChains` (lines 286-327) for chain `i`, with
the heat computed in the arithmetic that rounds by `rn`.  The products of lines 302-303,
which do not bear on the heats, are left as in `initializeChain`. -/
def initializeChainRounded (rn : α → α) (s : State α) (i : Nat) : State α :=
  let s1 := { s with heat_ranks := s.heat_ranks.set i i }
  let s2 := { s1 with chain_heats := s1.chain_heats.set i (initialHeatRounded rn s1 i) }
  let s3 := { s2 with chain_moves_tuningInfo :=
                s2.chain_moves_tuningInfo.set i s2.base_chain.moves_tuningInfo }
  let s4 := { s3 with pid_per_chain := s3.pid_per_chain.set i (active_pid_for_chain s3 i) }
  if ownsChain s4 i = true then
    { s4 with chains := s4.chains.set i (some (newChain s4 i)) }
  else
    { s4 with chains := s4.chains.set i none }

/-- The function `Mcmcmc::initializeChains` with the heats computed in the arithmetic that
rounds by `rn`. -/
def initializeChainsRounded (rn : α → α) (s : State α) : State α :=
  (List.range s.num_chains).foldl (initializeChainRounded rn) s

/-- Two chains on one process with neighbor swapping and the spacing `delta = 2^-60`, as
the member initialisers of the constructor leave them, before `initializeChains`. -/
def tinyDeltaScenario : State ℚ :=
  blankState base0 2 1 (1 / 2 ^ 60) true true false 1 0 0

/-- The loop of lines 1470-1476 in the arithmetic that rounds by `rn`. -/
def heatsDiffRounded (rn : α → α) (s : State α) : List α :=
  (List.range' 1 (s.num_chains - 1)).foldl
    (fun (heats_diff : List α) (i : Nat) =>
      let colderChainIdx := chainOfRank s.heat_ranks (i - 1)
      let hotterChainIdx := chainOfRank s.heat_ranks i
      heats_diff.set (i - 1)
        (rn (s.chain_heats.getD colderChainIdx 0 - s.chain_heats.getD hotterChainIdx 0)))
    (List.replicate (s.num_chains - 1) 0)

/-- Lines 1489-1496 in the arithmetic that rounds by `rn`: the gap after `*=` or `/=`.
The literal `0.23` is the number `rn (23 / 100)`. -/
def retuneGapRounded (rn : α → α) (gap rate : α) : α :=
  if rate > rn (23 / 100) then
    rn (gap * rn (1 + rn (rn (rate - rn (23 / 100)) / rn (1 - rn (23 / 100)))))
  else
    rn (gap / rn (2 - rn (rate / rn (23 / 100))))

/-- The body of the loop of lines 1478-1500 for the rank pair `(i-1, i)` in the arithmetic
that rounds by `rn`; the two counts are converted to `double` for the quotient. -/
def tuneGapRounded (rn : α → α) (s : State α) (heats_diff : List α) (i : Nat) : List α :=
  let numAttemptedSwapsPairwise :=
    matGet s.numAttemptedSwaps (i - 1) i + matGet s.numAttemptedSwaps i (i - 1)
  if numAttemptedSwapsPairwise > 2 then
    let numAcceptedSwapsPairwise :=
      matGet s.numAcceptedSwaps (i - 1) i + matGet s.numAcceptedSwaps i (i - 1)
    let rate : α :=
      rn (rn (numAcceptedSwapsPairwise : α) / rn (numAttemptedSwapsPairwise : α))
    heats_diff.set (i - 1) (retuneGapRounded rn (heats_diff.getD (i - 1) 0) rate)
  else heats_diff

/-- The loop of lines 1478-1500 in the arithmetic that rounds by `rn`. -/
def tuneGapsRounded (rn : α → α) (s : State α) (heats_diff : List α) : List α :=
  (List.range' 1 (s.num_chains - 1)).foldl (tuneGapRounded rn s) heats_diff

/-- The loop of lines 1503-1517 in the arithmetic that rounds by `rn`, with `n` iterations
left; the literal `0.01` is the number `rn (1 / 100)`. -/
def tuneForwardRounded (rn : α → α) (heat_ranks : List Nat) (heats_diff : List α)
    (num_chains : Nat) : Nat → List α → Nat × List α
  | 0, chain_heats => (num_chains, chain_heats)
  | n + 1, chain_heats =>
    let j := num_chains - (n + 1)
    let colderChainIdx := chainOfRank heat_ranks (j - 1)
    let hotterChainIdx := chainOfRank heat_ranks j
    let chain_heats1 := chain_heats.set hotterChainIdx
      (rn (chain_heats.getD colderChainIdx 0 - heats_diff.getD (j - 1) 0))
    if chain_heats1.getD hotterChainIdx 0 < rn (1 / 100) then (j, chain_heats1)
    else tuneForwardRounded rn heat_ranks heats_diff num_chains n chain_heats1

/-- Lines 1524-1534 in the arithmetic that rounds by `rn`; `pw` is `pow`, whose result is
taken as it is. -/
def tuneInterpolateRounded (rn : α → α) (pw : α → α → α) (heat_ranks : List Nat)
    (num_chains j : Nat) (chain_heats : List α) : List α :=
  let colderChainIdx := chainOfRank heat_ranks (j - 1)
  let rho := pw (rn (chain_heats.getD colderChainIdx 0 / rn (1 / 100)))
    (rn (1 / rn ((num_chains - j : Nat) : α)))
  (List.range' j (num_chains - j)).foldl
    (fun (h : List α) (k : Nat) =>
      let hotterChainIdx := chainOfRank heat_ranks k
      h.set hotterChainIdx
        (rn (h.getD colderChainIdx 0 / pw rho (rn ((k + 1 - j : Nat) : α)))))
    chain_heats

/-- Lines 1466-1535 of `Mcmcmc::tune` in the arithmetic that rounds by `rn`. -/
def tunedHeatsRounded (rn : α → α) (pw : α → α → α) (s : State α) : List α :=
  let heats_diff := tuneGapsRounded rn s (heatsDiffRounded rn s)
  let fw := tuneForwardRounded rn s.heat_ranks heats_diff s.num_chains (s.num_chains - 1)
    s.chain_heats
  let j := fw.1
  if j < s.num_chains then tuneInterpolateRounded rn pw s.heat_ranks s.num_chains j fw.2
  else fw.2

/-- The function `Mcmcmc::tune` in the arithmetic that rounds by `rn`. -/
def tuneRounded (rn : α → α) (pw : α → α → α)
    (tuneMoves : List (TuningInfo α) → List (TuningInfo α)) (s : State α) : State α :=
  let s1 :=
    if s.tune_heat = true ∧ s.num_chains > 1 then
      resetCounters { s with chain_heats := tunedHeatsRounded rn pw s }
    else s
  pushTuneState tuneMoves s1

/-- One operation on the coordinator, whatever the arithmetic does to the numbers that
decide a swap: a swap attempt of `swapChains` on the chain indices `j != k` below
`num_chains` (the synchronisation of lines 1146-1152, the count of the attempt, and the
decision `accept`, which may be either), a call of `swapChains` that attempts no swap, a
call of `tune` in the arithmetic that rounds by `rn`, a call of `resetCounters`, or the
chains advancing on their own. -/
inductive StepRounded (rn : α → α) (pw : α → α → α) : State α → State α → Prop
  | swap (s : State α) (j k : Nat) (accept : Bool) :
      j < s.num_chains → k < s.num_chains → j ≠ k →
      StepRounded rn pw s
        (applyDecision
          (countAttempt (synchronizeTuningInfo (synchronizeHeats (synchronizeValues s false)))
            j k) j k accept)
  | noswap (s : State α) :
      StepRounded rn pw s (synchronizeTuningInfo (synchronizeHeats (synchronizeValues s false)))
  | tune (s : State α) (tuneMoves : List (TuningInfo α) → List (TuningInfo α)) :
      StepRounded rn pw s (tuneRounded rn pw tuneMoves s)
  | resetCounters (s : State α) : StepRounded rn pw s (resetCounters s)
  | advance (s : State α) (cs2 : List (Option (Chain α))) (cg bg : Nat) :
      chainsAdvanced s.chains cs2 →
      StepRounded rn pw s
        { s with chains := cs2, current_generation := cg, burnin_generation := bg }

/-- The states reached from `s0` by finitely many such operations. -/
def ReachableRounded (rn : α → α) (pw : α → α → α) (s0 s : State α) : Prop :=
  Relation.ReflTransGen (StepRounded rn pw) s0 s

end Defs

/-! ## Lemmas on vectors and counted loops -/

section Lemmas

variable {α : Type} [LinearOrderedField α] [FloorRing α]

theorem getD_set_self {β : Type} (l : List β) (i : Nat) (a d : β) (h : i < l.length) :
    (l.set i a).getD i d = a := by
  simp [List.getD_eq_getElem?_getD, List.getElem?_set, h]

theorem getD_set_ne {β : Type} (l : List β) (i j : Nat) (a d : β) (h : i ≠ j) :
    (l.set i a).getD j d = l.getD j d := by
  simp [List.getD_eq_getElem?_getD, List.getElem?_set, h]

theorem getD_set {β : Type} (l : List β) (i j : Nat) (a d : β) :
    (l.set i a).getD j d = if i = j ∧ i < l.length then a else l.getD j d := by
  by_cases h : i = j
  · subst h
    by_cases h2 : i < l.length
    · simp [getD_set_self, h2]
    · simp [h2, List.set_eq_of_length_le (not_lt.mp h2)]
  · simp [h, getD_set_ne]

/-- Two vectors of the same size with the same entries are equal. -/
theorem ext_getD {β : Type} (l1 l2 : List β) (d : β) (hlen : l1.length = l2.length)
    (h : ∀ i, i < l1.length → l1.getD i d = l2.getD i d) : l1 = l2 := by
  apply List.ext_getElem hlen
  intro i h1 h2
  have := h i h1
  rwa [List.getD_eq_getElem _ _ h1, List.getD_eq_getElem _ _ h2] at this

/-- Induction principle for a counted loop `for (i = 0; i < n; ++i)`. -/
theorem foldl_range_induct {σ : Type} (P : Nat → σ → Prop) (f : σ → Nat → σ) (s : σ) (n : Nat)
    (h0 : P 0 s) (hstep : ∀ i t, i < n → P i t → P (i + 1) (f t i)) :
    P n ((List.range n).foldl f s) := by
  induction n with
  | zero => simpa using h0
  | succ m ih =>
    rw [List.range_succ, List.foldl_append]
    simp only [List.foldl_cons, List.foldl_nil]
    exact hstep m _ (Nat.lt_succ_self m) (ih (fun i t hi hp => hstep i t (Nat.lt_succ_of_lt hi) hp))

theorem exchange_length {β : Type} (l : List β) (j k : Nat) (d : β) :
    (exchange l j k d).length = l.length := by
  simp [exchange]

theorem exchange_getD {β : Type} (l : List β) (j k i : Nat) (d : β)
    (hj : j < l.length) (hk : k < l.length) :
    (exchange l j k d).getD i d =
      if i = k then l.getD j d else if i = j then l.getD k d else l.getD i d := by
  unfold exchange
  rw [getD_set, getD_set]
  by_cases h1 : i = k
  · subst h1; simp [hk]
  · by_cases h2 : i = j
    · subst h2; simp [hj, h1, Ne.symm h1]
    · simp [h1, h2, Ne.symm h1, Ne.symm h2]

theorem exchange_exchange {β : Type} (l : List β) (j k : Nat) (d : β)
    (hj : j < l.length) (hk : k < l.length) :
    exchange (exchange l j k d) j k d = l := by
  apply ext_getD _ _ d (by simp [exchange_length])
  intro i _
  rw [exchange_getD _ _ _ _ _ (by simpa [exchange_length] using hj)
    (by simpa [exchange_length] using hk)]
  simp only [exchange_getD l j k _ d hj hk]
  by_cases h1 : i = k
  · subst h1
    by_cases h3 : j = i
    · subst h3; simp only [if_true]
    · simp only [if_true, if_neg h3]
  · by_cases h2 : i = j
    · subst h2; simp only [if_true, if_neg h1, if_neg (Ne.symm h1)]
    · simp only [if_neg h1, if_neg h2]

theorem matGet_matSet (m : List (List Nat)) (r c v r1 c1 : Nat) :
    matGet (matSet m r c v) r1 c1 =
      if r = r1 ∧ c = c1 ∧ r < m.length ∧ c < (m.getD r []).length then v
      else matGet m r1 c1 := by
  unfold matGet matSet
  rw [getD_set]
  by_cases h1 : r = r1 ∧ r < m.length
  · obtain ⟨rfl, hr⟩ := h1
    simp only [hr, and_self, if_true, true_and, and_true]
    rw [getD_set]
  · rw [if_neg h1]
    have : ¬ (r = r1 ∧ c = c1 ∧ r < m.length ∧ c < (m.getD r []).length) := by
      rintro ⟨a, -, b, -⟩; exact h1 ⟨a, b⟩
    rw [if_neg this]

theorem matGet_matIncr (m : List (List Nat)) (r c r1 c1 : Nat)
    (hr : r < m.length) (hc : c < (m.getD r []).length) :
    matGet (matIncr m r c) r1 c1 = matGet m r1 c1 + if r = r1 ∧ c = c1 then 1 else 0 := by
  unfold matIncr
  rw [matGet_matSet]
  by_cases h : r = r1 ∧ c = c1
  · obtain ⟨rfl, rfl⟩ := h
    rw [if_pos ⟨rfl, rfl, hr, hc⟩, if_pos ⟨rfl, rfl⟩]
  · have : ¬ (r = r1 ∧ c = c1 ∧ r < m.length ∧ c < (m.getD r []).length) := by
      rintro ⟨a, b, -, -⟩; exact h ⟨a, b⟩
    rw [if_neg this, if_neg h, Nat.add_zero]

theorem pushSwapState_frame (s : State α) :
    ∃ cs, pushSwapState s = { s with chains := cs } := by
  unfold pushSwapState
  refine foldl_range_induct (fun _ t => ∃ cs, t = { s with chains := cs }) _ s s.num_chains
    ⟨s.chains, rfl⟩ ?_
  rintro i t _ ⟨cs, rfl⟩
  dsimp only
  split
  · exact ⟨_, rfl⟩
  · exact ⟨_, rfl⟩

theorem applyDecision_true (s : State α) (j k : Nat) :
    ∃ cs, applyDecision s j k true =
      { s with
        numAcceptedSwaps :=
          matIncr s.numAcceptedSwaps (s.heat_ranks.getD j 0) (s.heat_ranks.getD k 0)
        active_chain_index :=
          if s.active_chain_index = j then k
          else if s.active_chain_index = k then j else s.active_chain_index
        chain_heats := exchange s.chain_heats j k 0
        heat_ranks := exchange s.heat_ranks j k 0
        chain_moves_tuningInfo := exchange s.chain_moves_tuningInfo j k []
        chains := cs } := by
  unfold applyDecision
  simp only [if_true]
  obtain ⟨cs, h⟩ := pushSwapState_frame
    { s with
      numAcceptedSwaps :=
        matIncr s.numAcceptedSwaps (s.heat_ranks.getD j 0) (s.heat_ranks.getD k 0)
      active_chain_index :=
        if s.active_chain_index = j then k
        else if s.active_chain_index = k then j else s.active_chain_index
      chain_heats := exchange s.chain_heats j k 0
      heat_ranks := exchange s.heat_ranks j k 0
      chain_moves_tuningInfo := exchange s.chain_moves_tuningInfo j k [] }
  exact ⟨cs, h⟩

theorem applyDecision_false (s : State α) (j k : Nat) : applyDecision s j k false = s := by
  simp [applyDecision]

theorem acceptTest_eq_decide (ex : α → α) (L u : α) :
    acceptTest ex L u = decide (0 ≤ L ∨ (-100 ≤ L ∧ L < 0 ∧ u < ex L)) := by
  unfold acceptTest
  by_cases h0 : L ≥ 0
  · simp [h0]
  · have h0' : L < 0 := lt_of_not_ge h0
    by_cases h1 : L < -100
    · have : ¬ (-100 ≤ L) := not_le.mpr h1
      simp [h0, h1, this, not_le.mpr h0']
    · have h1' : -100 ≤ L := not_lt.mp h1
      by_cases h2 : u < ex L <;> simp [h0, h1, h2, h1', h0', not_le.mpr h0']

theorem foldl_set_range {β : Type} (g : Nat → β) (l : List β) (n : Nat) (d : β) :
    ((List.range n).foldl (fun v i => v.set i (g i)) l).length = l.length ∧
    ∀ i, ((List.range n).foldl (fun v i => v.set i (g i)) l).getD i d =
      if i < n ∧ i < l.length then g i else l.getD i d := by
  refine foldl_range_induct
    (fun m v => v.length = l.length ∧
      ∀ i, v.getD i d = if i < m ∧ i < l.length then g i else l.getD i d)
    _ l n ⟨rfl, fun i => by simp⟩ ?_
  rintro m v _ ⟨hlen, hget⟩
  refine ⟨by simp [hlen], fun i => ?_⟩
  rw [getD_set, hget i, hlen]
  by_cases h1 : m = i
  · subst h1
    by_cases h2 : m < l.length
    · simp [h2]
    · simp [h2]
  · by_cases h2 : i < l.length
    · have : (i < m + 1) ↔ (i < m) := by omega
      simp [h1, h2, this]
    · simp [h1, h2]

theorem initializeChain_eq (s : State α) (hr : List Nat) (ch : List α)
    (ti : List (List (TuningInfo α))) (pp : List Nat) (cs : List (Option (Chain α))) (i : Nat) :
    initializeChain { s with heat_ranks := hr, chain_heats := ch, chain_moves_tuningInfo := ti,
                             pid_per_chain := pp, chains := cs } i =
      { s with
        heat_ranks := hr.set i i
        chain_heats := ch.set i (initialHeat s i)
        chain_moves_tuningInfo := ti.set i s.base_chain.moves_tuningInfo
        pid_per_chain := pp.set i (active_pid_for_chain s i)
        chains := cs.set i
          (if ownsChain s i = true then
            some { s.base_chain with
                   chain_active := decide (i = 0)
                   chain_posterior_heat := (ch.set i (initialHeat s i)).getD i 0
                   chain_idx := i }
          else none) } := by
  unfold initializeChain
  dsimp only
  split
  · rename_i h
    rw [if_pos (show ownsChain s i = true from h)]
    rfl
  · rename_i h
    rw [if_neg (show ¬ ownsChain s i = true from h)]
    rfl

theorem initializeChains_spec (s : State α)
    (h1 : s.heat_ranks.length = s.num_chains) (h2 : s.chain_heats.length = s.num_chains)
    (h3 : s.chain_moves_tuningInfo.length = s.num_chains)
    (h4 : s.pid_per_chain.length = s.num_chains) (h5 : s.chains.length = s.num_chains) :
    initializeChains s =
      { s with
        heat_ranks := List.range s.num_chains
        chain_heats := (List.range s.num_chains).map (initialHeat s)
        chain_moves_tuningInfo :=
          (List.range s.num_chains).map (fun _ => s.base_chain.moves_tuningInfo)
        pid_per_chain := (List.range s.num_chains).map (active_pid_for_chain s)
        chains := (List.range s.num_chains).map (initialSlot s) } := by
  have key := foldl_range_induct
    (fun i (t : State α) => ∃ hr ch ti pp cs,
      t = { s with heat_ranks := hr, chain_heats := ch, chain_moves_tuningInfo := ti,
                   pid_per_chain := pp, chains := cs } ∧
      hr.length = s.num_chains ∧ ch.length = s.num_chains ∧ ti.length = s.num_chains ∧
      pp.length = s.num_chains ∧ cs.length = s.num_chains ∧
      ∀ m, m < i → hr.getD m 0 = m ∧ ch.getD m 0 = initialHeat s m ∧
        ti.getD m [] = s.base_chain.moves_tuningInfo ∧
        pp.getD m 0 = active_pid_for_chain s m ∧ cs.getD m none = initialSlot s m)
    initializeChain s s.num_chains
    ⟨_, _, _, _, _, rfl, h1, h2, h3, h4, h5, fun m hm => absurd hm (Nat.not_lt_zero m)⟩
    (by
      rintro i t hi ⟨hr, ch, ti, pp, cs, rfl, l1, l2, l3, l4, l5, hm⟩
      rw [initializeChain_eq]
      refine ⟨_, _, _, _, _, rfl, by simp [l1], by simp [l2], by simp [l3], by simp [l4],
        by simp [l5], ?_⟩
      intro m hm2
      rcases Nat.lt_succ_iff_lt_or_eq.mp hm2 with hlt | rfl
      · have hne : i ≠ m := by omega
        simp only [getD_set_ne _ _ _ _ _ hne]
        exact hm m hlt
      · refine ⟨getD_set_self _ _ _ _ (l1 ▸ hi), getD_set_self _ _ _ _ (l2 ▸ hi),
          getD_set_self _ _ _ _ (l3 ▸ hi), getD_set_self _ _ _ _ (l4 ▸ hi), ?_⟩
        rw [getD_set_self _ _ _ _ (l5 ▸ hi), getD_set_self _ _ _ _ (l2 ▸ hi)]
        rfl)
  obtain ⟨hr, ch, ti, pp, cs, heq, l1, l2, l3, l4, l5, hm⟩ := key
  unfold initializeChains
  rw [heq]
  have r1 : hr = List.range s.num_chains := by
    apply ext_getD _ _ 0 (by simp [l1])
    intro i hi
    rw [l1] at hi
    rw [(hm i hi).1, List.getD_eq_getElem _ _ (by simpa using hi)]
    simp
  have r2 : ch = (List.range s.num_chains).map (initialHeat s) := by
    apply ext_getD _ _ 0 (by simp [l2])
    intro i hi
    rw [l2] at hi
    rw [(hm i hi).2.1, List.getD_eq_getElem _ _ (by simpa using hi)]
    simp
  have r3 : ti = (List.range s.num_chains).map (fun _ => s.base_chain.moves_tuningInfo) := by
    apply ext_getD _ _ [] (by simp [l3])
    intro i hi
    rw [l3] at hi
    rw [(hm i hi).2.2.1, List.getD_eq_getElem _ _ (by simpa using hi)]
    simp
  have r4 : pp = (List.range s.num_chains).map (active_pid_for_chain s) := by
    apply ext_getD _ _ 0 (by simp [l4])
    intro i hi
    rw [l4] at hi
    rw [(hm i hi).2.2.2.1, List.getD_eq_getElem _ _ (by simpa using hi)]
    simp
  have r5 : cs = (List.range s.num_chains).map (initialSlot s) := by
    apply ext_getD _ _ none (by simp [l5])
    intro i hi
    rw [l5] at hi
    rw [(hm i hi).2.2.2.2, List.getD_eq_getElem _ _ (by simpa using hi)]
    simp
  rw [r1, r2, r3, r4, r5]


theorem construct_eq_initializeChains (base : Chain α) (nc si : Nat) (dt : α) (th : Bool)
    (sm : String) (P pid apid : Nat) :
    construct base nc si dt th sm P pid apid =
      initializeChains (blankState base nc si dt th
        (decide (sm ≠ "random")) (decide (sm = "random" ∨ sm = "both")) P pid apid) := by
  unfold construct
  dsimp only
  split_ifs with h1 h2 h3
  · subst h1; rfl
  · subst h2; rfl
  · subst h3; rfl
  · simp [h1, h2, h3]

theorem initialHeat_geometric (s : State α) (i : Nat) (h : s.heat_temps.getD 0 0 = 0) :
    initialHeat s i = 1 / (1 + s.delta * (i : α)) := by
  unfold initialHeat computeBeta
  rw [if_neg (not_not.mpr h)]

theorem geometric_pos (d : α) (hd : 0 < d) (i : Nat) : 0 < 1 + d * (i : α) := by
  have : 0 ≤ d * (i : α) := mul_nonneg hd.le (Nat.cast_nonneg i)
  linarith

theorem geometric_strict (d : α) (hd : 0 < d) (i j : Nat) (hij : i < j) :
    1 / (1 + d * (j : α)) < 1 / (1 + d * (i : α)) := by
  apply one_div_lt_one_div_of_lt (geometric_pos d hd i)
  have : (i : α) < (j : α) := by exact_mod_cast hij
  have := mul_lt_mul_of_pos_left this hd
  linarith

theorem getD_map_range {β : Type} (f : Nat → β) (n i : Nat) (d : β) (h : i < n) :
    ((List.range n).map f).getD i d = f i := by
  rw [List.getD_eq_getElem _ _ (by simpa using h)]
  simp

theorem construct_spec (base : Chain α) (nc si : Nat) (dt : α) (th : Bool)
    (sm : String) (P pid apid : Nat) :
    construct base nc si dt th sm P pid apid =
      { blankState base nc si dt th
          (decide (sm ≠ "random")) (decide (sm = "random" ∨ sm = "both")) P pid apid with
        heat_ranks := List.range nc
        chain_heats := (List.range nc).map (fun (i : Nat) => 1 / (1 + dt * (i : α)))
        chain_moves_tuningInfo := (List.range nc).map (fun _ => base.moves_tuningInfo)
        pid_per_chain :=
          (List.range nc).map (active_pid_for_chain (blankState base nc si dt th
            (decide (sm ≠ "random")) (decide (sm = "random" ∨ sm = "both")) P pid apid))
        chains :=
          (List.range nc).map (initialSlot (blankState base nc si dt th
            (decide (sm ≠ "random")) (decide (sm = "random" ∨ sm = "both")) P pid apid)) } := by
  rw [construct_eq_initializeChains, initializeChains_spec _ (by simp [blankState]) (by simp [blankState])
    (by simp [blankState]) (by simp [blankState]) (by simp [blankState])]
  have e : (List.range nc).map (initialHeat (blankState base nc si dt th
      (decide (sm ≠ "random")) (decide (sm = "random" ∨ sm = "both")) P pid apid)) =
      (List.range nc).map (fun (i : Nat) => 1 / (1 + dt * (i : α))) := by
    apply List.map_congr_left
    intro i _
    rw [initialHeat_geometric _ _ (by
      cases nc <;> simp [blankState, List.replicate])]
    rfl
  simp only [blankState] at e ⊢
  rw [e]

theorem sampleState_fields :
    sampleState.num_chains = 3 ∧ sampleState.chain_heats = [1, 5 / 6, 5 / 7] ∧
    sampleState.heat_ranks = [0, 1, 2] ∧ sampleState.chain_values = [-12, -10, -11] ∧
    sampleState.chain_moves_tuningInfo = [[⟨0, 0, 1⟩], [⟨0, 0, 1⟩], [⟨0, 0, 1⟩]] ∧
    sampleState.numAttemptedSwaps = [[0, 0, 0], [0, 0, 0], [0, 0, 0]] ∧
    sampleState.numAcceptedSwaps = [[0, 0, 0], [0, 0, 0], [0, 0, 0]] := by
  unfold sampleState
  rw [construct_spec]
  simp only [blankState, List.range_succ, List.range_zero, List.map_append, List.map_cons,
    List.map_nil, List.nil_append, List.cons_append, base0, List.replicate, true_and]
  norm_num


theorem exchange_perm (l : List Nat) (j k : Nat) (hj : j < l.length) (hk : k < l.length) :
    (exchange l j k 0).Perm l := by
  rw [List.perm_iff_count]
  intro b
  unfold exchange
  have hk2 : k < (l.set j (l.getD k 0)).length := by simpa using hk
  rw [List.count_set _ _ _ _ hk2, List.count_set _ _ _ _ hj]
  have e1 : (l.set j (l.getD k 0))[k] = l.getD k 0 := by
    rw [List.getElem_set]
    split
    · rfl
    · exact (List.getD_eq_getElem _ _ hk).symm
  rw [e1, List.getD_eq_getElem _ _ hk, List.getD_eq_getElem _ _ hj]
  have c1 : (if (l[j] == b) = true then 1 else 0) ≤ l.count b := by
    split
    · rename_i h
      have : l[j] = b := by simpa using h
      have hm : b ∈ l := this ▸ List.getElem_mem hj
      exact List.count_pos_iff.mpr hm
    · exact Nat.zero_le _
  omega

theorem neighborIndex_lt (s : State α) (u : α) (hN : 2 ≤ s.num_chains) (h0 : 0 ≤ u)
    (h1 : u < 1) : neighborIndex s u + 1 < s.num_chains := by
  unfold neighborIndex
  have hpos : (0 : α) < ((s.num_chains - 1 : Nat) : α) := by
    have : 0 < s.num_chains - 1 := by omega
    exact_mod_cast this
  have hlt : ⌊u * ((s.num_chains - 1 : Nat) : α)⌋₊ < s.num_chains - 1 := by
    rw [Nat.floor_lt (mul_nonneg h0 hpos.le)]
    calc u * ((s.num_chains - 1 : Nat) : α) < 1 * ((s.num_chains - 1 : Nat) : α) :=
          mul_lt_mul_of_pos_right h1 hpos
      _ = _ := one_mul _
  omega

theorem randomIndex_lt (s : State α) (u : α) (hN : 1 ≤ s.num_chains) (h0 : 0 ≤ u)
    (h1 : u < 1) : randomIndex s u < s.num_chains := by
  unfold randomIndex
  have hpos : (0 : α) < (s.num_chains : α) := by exact_mod_cast hN
  rw [Nat.floor_lt (mul_nonneg h0 hpos.le)]
  calc u * (s.num_chains : α) < 1 * (s.num_chains : α) := mul_lt_mul_of_pos_right h1 hpos
    _ = _ := one_mul _

theorem pickOther_spec (s : State α) (j : Nat) (hN : 1 ≤ s.num_chains) (draws : List α)
    (hd : ∀ u ∈ draws, 0 ≤ u ∧ u < 1) (k : Nat) (rest : List α)
    (h : pickOther s j draws = some (k, rest)) :
    k < s.num_chains ∧ j ≠ k ∧ ∀ u ∈ rest, 0 ≤ u ∧ u < 1 := by
  induction draws with
  | nil => simp [pickOther] at h
  | cons u us ih =>
    unfold pickOther at h
    dsimp only at h
    split at h
    · exact ih (fun v hv => hd v (List.mem_cons_of_mem _ hv)) h
    · rename_i hne
      simp only [Option.some.injEq, Prod.mk.injEq] at h
      obtain ⟨rfl, rfl⟩ := h
      exact ⟨randomIndex_lt s u hN (hd u (List.mem_cons_self _ _)).1
        (hd u (List.mem_cons_self _ _)).2, hne,
        fun v hv => hd v (List.mem_cons_of_mem _ hv)⟩

theorem randomPair_spec (s : State α) (hN : 2 ≤ s.num_chains) (draws : List α)
    (hd : ∀ u ∈ draws, 0 ≤ u ∧ u < 1) (j k : Nat) (rest : List α)
    (h : randomPair s draws = some ((j, k), rest)) :
    j < s.num_chains ∧ k < s.num_chains ∧ j ≠ k ∧ ∀ u ∈ rest, 0 ≤ u ∧ u < 1 := by
  cases draws with
  | nil => simp [randomPair] at h
  | cons u us =>
    unfold randomPair at h
    dsimp only at h
    rw [if_pos (by omega)] at h
    split at h
    · rename_i k1 rest1 hp
      simp only [Option.some.injEq, Prod.mk.injEq] at h
      obtain ⟨⟨rfl, rfl⟩, rfl⟩ := h
      have := pickOther_spec s _ (by omega) us
        (fun v hv => hd v (List.mem_cons_of_mem _ hv)) _ _ hp
      exact ⟨randomIndex_lt s u (by omega) (hd u (List.mem_cons_self _ _)).1
        (hd u (List.mem_cons_self _ _)).2, this.1, this.2.1, this.2.2⟩
    · simp at h



theorem resetCounters_frame (s : State α) :
    ∃ a b, resetCounters s = { s with numAttemptedSwaps := a, numAcceptedSwaps := b } := by
  unfold resetCounters
  refine foldl_range_induct
    (fun _ t => ∃ a b, t = { s with numAttemptedSwaps := a, numAcceptedSwaps := b }) _ s
    s.num_chains ⟨_, _, rfl⟩ ?_
  rintro i t _ ⟨a, b, rfl⟩
  dsimp only
  refine foldl_range_induct
    (fun _ t => ∃ a b, t = { s with numAttemptedSwaps := a, numAcceptedSwaps := b }) _ _
    s.num_chains ⟨a, b, rfl⟩ ?_
  rintro j t _ ⟨a, b, rfl⟩
  exact ⟨_, _, rfl⟩

theorem pushTuneState_frame (f : List (TuningInfo α) → List (TuningInfo α)) (s : State α) :
    ∃ cs, pushTuneState f s = { s with chains := cs } := by
  unfold pushTuneState
  refine foldl_range_induct (fun _ t => ∃ cs, t = { s with chains := cs }) _ s s.num_chains
    ⟨s.chains, rfl⟩ ?_
  rintro i t _ ⟨cs, rfl⟩
  dsimp only
  split
  · exact ⟨_, rfl⟩
  · exact ⟨_, rfl⟩

theorem synchronizeValues_frame (s : State α) (b : Bool) :
    ∃ v, synchronizeValues s b = { s with chain_values := v } := by
  unfold synchronizeValues
  dsimp only
  split
  · exact ⟨_, rfl⟩
  · exact ⟨_, rfl⟩

theorem synchronizeHeats_frame (s : State α) :
    ∃ v, synchronizeHeats s = { s with chain_heats := v } := by
  unfold synchronizeHeats
  dsimp only
  split
  · exact ⟨_, rfl⟩
  · exact ⟨_, rfl⟩

theorem synchronizeTuningInfo_frame (s : State α) :
    ∃ v, synchronizeTuningInfo s = { s with chain_moves_tuningInfo := v } := by
  unfold synchronizeTuningInfo
  dsimp only
  split
  · exact ⟨_, rfl⟩
  · exact ⟨_, rfl⟩

theorem tune_frame (pw : α → α → α) (f : List (TuningInfo α) → List (TuningInfo α))
    (s : State α) :
    ∃ h a b cs, tune pw f s =
      { s with chain_heats := h, numAttemptedSwaps := a, numAcceptedSwaps := b,
               chains := cs } := by
  unfold tune
  dsimp only
  split
  · obtain ⟨a, b, h1⟩ := resetCounters_frame { s with chain_heats := tunedHeats pw s }
    rw [h1]
    obtain ⟨cs, h2⟩ := pushTuneState_frame f _
    rw [h2]
    exact ⟨_, _, _, _, rfl⟩
  · obtain ⟨cs, h2⟩ := pushTuneState_frame f s
    rw [h2]
    exact ⟨_, _, _, _, rfl⟩

/-- The state in which `swapChains` calls a swap function. -/
theorem swapAttempt_cases (ex : α → α) (s : State α) (j k : Nat) (u : α) :
    swapAttempt ex s j k u = countAttempt s j k ∨
    swapAttempt ex s j k u = applyDecision (countAttempt s j k) j k true := by
  unfold swapAttempt
  dsimp only
  cases acceptTest ex (lnR (countAttempt s j k) j k) u
  · left; exact applyDecision_false _ _ _
  · right; rfl

theorem swapChains_cases (ex : α → α) (s : State α) (swap_method : String) (draws : List α)
    (s2 : State α) (rest : List α) (hd : ∀ u ∈ draws, 0 ≤ u ∧ u < 1)
    (h : swapChains ex s swap_method draws = some (s2, rest)) :
    (s.num_chains < 2 ∧ s2 = s) ∨
    (2 ≤ s.num_chains ∧
      (s2 = synchronizeTuningInfo (synchronizeHeats (synchronizeValues s false)) ∨
       ∃ j k u, j < s.num_chains ∧ k < s.num_chains ∧ j ≠ k ∧
         s2 = swapAttempt ex
           (synchronizeTuningInfo (synchronizeHeats (synchronizeValues s false))) j k u)) := by
  unfold swapChains at h
  by_cases hN : s.num_chains < 2
  · left
    rw [if_pos hN] at h
    simp only [Option.some.injEq, Prod.mk.injEq] at h
    exact ⟨hN, h.1.symm⟩
  · right
    rw [if_neg hN] at h
    dsimp only at h
    have hN2 : 2 ≤ s.num_chains := by omega
    obtain ⟨v1, e1⟩ := synchronizeValues_frame s false
    obtain ⟨v2, e2⟩ := synchronizeHeats_frame (synchronizeValues s false)
    obtain ⟨v3, e3⟩ := synchronizeTuningInfo_frame (synchronizeHeats (synchronizeValues s false))
    have hn3 : (synchronizeTuningInfo (synchronizeHeats (synchronizeValues s false))).num_chains
        = s.num_chains := by rw [e3, e2, e1]
    refine ⟨hN2, ?_⟩
    split at h
    · cases draws with
      | nil => simp at h
      | cons u1 us =>
        cases us with
        | nil => simp at h
        | cons u2 us2 =>
          simp only [Option.some.injEq, Prod.mk.injEq] at h
          right
          have hu1 := hd u1 (List.mem_cons_self _ _)
          have hlt := neighborIndex_lt
            (synchronizeTuningInfo (synchronizeHeats (synchronizeValues s false))) u1
            (by rw [hn3]; exact hN2) hu1.1 hu1.2
          rw [hn3] at hlt
          exact ⟨_, _, u2, by omega, hlt, by omega, h.1.symm⟩
    · split at h
      · unfold swapRandomChains at h
        split at h
        · rename_i j k u rest2 hp
          simp only [Option.some.injEq, Prod.mk.injEq] at h
          have hr := randomPair_spec _ (by rw [hn3]; exact hN2) draws hd j k _ hp
          rw [hn3] at hr
          right
          exact ⟨j, k, u, hr.1, hr.2.1, hr.2.2.1, h.1.symm⟩
        · simp at h
      · simp only [Option.some.injEq, Prod.mk.injEq] at h
        left
        exact h.1.symm

/-- The three `synchronize` calls of `swapChains`. -/
theorem sync_frame (s : State α) :
    ∃ v1 v2 v3, synchronizeTuningInfo (synchronizeHeats (synchronizeValues s false)) =
      { s with chain_values := v1, chain_heats := v2, chain_moves_tuningInfo := v3 } := by
  obtain ⟨v1, e1⟩ := synchronizeValues_frame s false
  obtain ⟨v2, e2⟩ := synchronizeHeats_frame (synchronizeValues s false)
  obtain ⟨v3, e3⟩ := synchronizeTuningInfo_frame (synchronizeHeats (synchronizeValues s false))
  exact ⟨v1, v2, v3, by rw [e3, e2, e1]⟩

theorem sync_ranks (s : State α) :
    (synchronizeTuningInfo (synchronizeHeats (synchronizeValues s false))).num_chains
      = s.num_chains ∧
    (synchronizeTuningInfo (synchronizeHeats (synchronizeValues s false))).heat_ranks
      = s.heat_ranks := by
  obtain ⟨v1, v2, v3, e⟩ := sync_frame s
  rw [e]
  exact ⟨rfl, rfl⟩

theorem swapAttempt_ranks (ex : α → α) (s : State α) (j k : Nat) (u : α) :
    (swapAttempt ex s j k u).num_chains = s.num_chains ∧
    ((swapAttempt ex s j k u).heat_ranks = s.heat_ranks ∨
     (swapAttempt ex s j k u).heat_ranks = exchange s.heat_ranks j k 0) := by
  rcases swapAttempt_cases ex s j k u with h1 | h1
  · rw [h1]
    exact ⟨rfl, Or.inl rfl⟩
  · obtain ⟨cs, h2⟩ := applyDecision_true (countAttempt s j k) j k
    rw [h1, h2]
    exact ⟨rfl, Or.inr rfl⟩

theorem step_ranks (ex : α → α) (pw : α → α → α) (s s2 : State α) (h : Step ex pw s s2)
    (hp : s.heat_ranks.Perm (List.range s.num_chains)) :
    s2.num_chains = s.num_chains ∧ s2.heat_ranks.Perm (List.range s2.num_chains) := by
  have hlen : s.heat_ranks.length = s.num_chains := by simpa using hp.length_eq
  cases h with
  | swap swap_method draws _ rest hd hs =>
    rcases swapChains_cases ex s swap_method draws s2 rest hd hs with
      ⟨_, rfl⟩ | ⟨hN, rfl | ⟨j, k, u, hj, hk, hjk, rfl⟩⟩
    · exact ⟨rfl, hp⟩
    · rw [(sync_ranks s).1, (sync_ranks s).2]
      exact ⟨rfl, hp⟩
    · have hs := swapAttempt_ranks ex
        (synchronizeTuningInfo (synchronizeHeats (synchronizeValues s false))) j k u
      rw [(sync_ranks s).1, (sync_ranks s).2] at hs
      rw [hs.1]
      refine ⟨rfl, ?_⟩
      rcases hs.2 with h1 | h1
      · rw [h1]; exact hp
      · rw [h1]; exact (exchange_perm _ _ _ (hlen ▸ hj) (hlen ▸ hk)).trans hp
  | tune f =>
    obtain ⟨a, b, c, d, e⟩ := tune_frame pw f s
    rw [e]
    exact ⟨rfl, hp⟩
  | resetCounters =>
    obtain ⟨a, b, e⟩ := resetCounters_frame s
    rw [e]
    exact ⟨rfl, hp⟩
  | advance cs2 cg bg hc => exact ⟨rfl, hp⟩

theorem reachable_ranks (ex : α → α) (pw : α → α → α) (s0 s : State α)
    (h : Reachable ex pw s0 s) (hp : s0.heat_ranks.Perm (List.range s0.num_chains)) :
    s.num_chains = s0.num_chains ∧ s.heat_ranks.Perm (List.range s.num_chains) := by
  induction h with
  | refl => exact ⟨rfl, hp⟩
  | tail _ hstep ih =>
    have := step_ranks ex pw _ _ hstep ih.2
    exact ⟨this.1.trans ih.1, this.2⟩



theorem chainOfRank_lt (ranks : List Nat) (n r : Nat) (hp : ranks.Perm (List.range n))
    (hr : r < n) : chainOfRank ranks r < n := by
  have hlen : ranks.length = n := by simpa using hp.length_eq
  unfold chainOfRank
  rw [← hlen, List.indexOf_lt_length]
  exact hp.mem_iff.mpr (List.mem_range.mpr hr)

theorem getD_chainOfRank (ranks : List Nat) (n r : Nat) (hp : ranks.Perm (List.range n))
    (hr : r < n) : ranks.getD (chainOfRank ranks r) 0 = r := by
  have hlen : ranks.length = n := by simpa using hp.length_eq
  have h := chainOfRank_lt ranks n r hp hr
  have h2 : chainOfRank ranks r < ranks.length := hlen ▸ h
  rw [List.getD_eq_getElem _ _ h2]
  exact List.getElem_indexOf h2

theorem chainOfRank_getD (ranks : List Nat) (n a : Nat) (hp : ranks.Perm (List.range n))
    (ha : a < n) : chainOfRank ranks (ranks.getD a 0) = a := by
  have hlen : ranks.length = n := by simpa using hp.length_eq
  have h2 : a < ranks.length := hlen ▸ ha
  rw [List.getD_eq_getElem _ _ h2]
  exact List.indexOf_getElem (hp.nodup_iff.mpr (List.nodup_range n)) a h2

theorem getD_rank_lt (ranks : List Nat) (n a : Nat) (hp : ranks.Perm (List.range n))
    (ha : a < n) : ranks.getD a 0 < n := by
  have hlen : ranks.length = n := by simpa using hp.length_eq
  have h2 : a < ranks.length := hlen ▸ ha
  rw [List.getD_eq_getElem _ _ h2]
  have : ranks[a] ∈ List.range n := hp.mem_iff.mp (List.getElem_mem _)
  simpa using this

theorem chainOfRank_ne (ranks : List Nat) (n r t : Nat) (hp : ranks.Perm (List.range n))
    (hr : r < n) (ht : t < n) (hne : r ≠ t) : chainOfRank ranks r ≠ chainOfRank ranks t := by
  intro h
  apply hne
  rw [← getD_chainOfRank ranks n r hp hr, ← getD_chainOfRank ranks n t hp ht, h]

/-- Induction principle for a counted loop `for (i = a; i < a + n; ++i)`. -/
theorem foldl_range'_induct {σ : Type} (P : Nat → σ → Prop) (f : σ → Nat → σ) (s : σ)
    (a n : Nat) (h0 : P 0 s) (hstep : ∀ i t, i < n → P i t → P (i + 1) (f t (a + i))) :
    P n ((List.range' a n).foldl f s) := by
  rw [List.range'_eq_map_range, List.foldl_map]
  exact foldl_range_induct P (fun t i => f t (a + i)) s n h0 hstep

theorem heatsDiff_spec (s : State α) :
    (heatsDiff s).length = s.num_chains - 1 ∧
    ∀ m, m < s.num_chains - 1 →
      (heatsDiff s).getD m 0 =
        heatAtRank s.heat_ranks s.chain_heats m - heatAtRank s.heat_ranks s.chain_heats (m + 1) := by
  unfold heatsDiff
  have key := foldl_range'_induct
    (fun i (d : List α) => d.length = s.num_chains - 1 ∧
      ∀ m, m < i → d.getD m 0 =
        heatAtRank s.heat_ranks s.chain_heats m - heatAtRank s.heat_ranks s.chain_heats (m + 1))
    (fun (heats_diff : List α) (i : Nat) =>
      heats_diff.set (i - 1)
        (s.chain_heats.getD (chainOfRank s.heat_ranks (i - 1)) 0 -
          s.chain_heats.getD (chainOfRank s.heat_ranks i) 0))
    (List.replicate (s.num_chains - 1) 0) 1 (s.num_chains - 1)
    ⟨by simp, fun m hm => absurd hm (Nat.not_lt_zero m)⟩
    (by
      rintro i d hi ⟨hlen, hd⟩
      refine ⟨by simp [hlen], fun m hm => ?_⟩
      have e : 1 + i - 1 = i := by omega
      dsimp only
      rw [e]
      rcases Nat.lt_succ_iff_lt_or_eq.mp hm with hlt | rfl
      · rw [getD_set_ne _ _ _ _ _ (by omega)]
        exact hd m hlt
      · rw [getD_set_self _ _ _ _ (by omega), Nat.add_comm 1 m]
        rfl)
  exact key

theorem heatAtRank_set_ne (ranks : List Nat) (heats : List α) (n r t : Nat) (v : α)
    (hp : ranks.Perm (List.range n)) (hr : r < n) (ht : t < n) (hne : r ≠ t) :
    heatAtRank ranks (heats.set (chainOfRank ranks r) v) t = heatAtRank ranks heats t := by
  unfold heatAtRank
  exact getD_set_ne _ _ _ _ _ (chainOfRank_ne ranks n r t hp hr ht hne)

theorem heatAtRank_set_self (ranks : List Nat) (heats : List α) (n r : Nat) (v : α)
    (hp : ranks.Perm (List.range n)) (hr : r < n) (hlen : heats.length = n) :
    heatAtRank ranks (heats.set (chainOfRank ranks r) v) r = v := by
  unfold heatAtRank
  exact getD_set_self _ _ _ _ (hlen ▸ chainOfRank_lt ranks n r hp hr)

theorem tuneInterpolate_spec (pw : α → α → α) (ranks : List Nat) (N j : Nat) (heats : List α)
    (hp : ranks.Perm (List.range N)) (hj1 : 1 ≤ j) (hjN : j < N) (hlen : heats.length = N) :
    (tuneInterpolate pw ranks N j heats).length = N ∧
    (∀ r, r < j → heatAtRank ranks (tuneInterpolate pw ranks N j heats) r
      = heatAtRank ranks heats r) ∧
    (∀ k, j ≤ k → k < N → heatAtRank ranks (tuneInterpolate pw ranks N j heats) k =
      heatAtRank ranks heats (j - 1) /
        pw (pw (heatAtRank ranks heats (j - 1) / heatMinBound) (1 / ((N - j : Nat) : α)))
          ((k + 1 - j : Nat) : α)) := by
  unfold tuneInterpolate
  dsimp only
  have key := foldl_range'_induct
    (fun i (h : List α) => h.length = N ∧
      (∀ r, r < j → heatAtRank ranks h r = heatAtRank ranks heats r) ∧
      (∀ k, j ≤ k → k < j + i → heatAtRank ranks h k =
        heatAtRank ranks heats (j - 1) /
          pw (pw (heatAtRank ranks heats (j - 1) / heatMinBound) (1 / ((N - j : Nat) : α)))
            ((k + 1 - j : Nat) : α)))
    (fun (h : List α) (k : Nat) =>
      h.set (chainOfRank ranks k) (h.getD (chainOfRank ranks (j - 1)) 0 /
        pw (pw (heats.getD (chainOfRank ranks (j - 1)) 0 / heatMinBound)
          (1 / ((N - j : Nat) : α))) ((k + 1 - j : Nat) : α)))
    heats j (N - j)
    ⟨hlen, fun r _ => rfl, fun k h1 h2 => by omega⟩
    (by
      rintro i h hi ⟨hl, hlow, hhigh⟩
      dsimp only
      have hk : j + i < N := by omega
      refine ⟨by simp [hl], ?_, ?_⟩
      · intro r hr
        rw [heatAtRank_set_ne ranks h N (j + i) r _ hp hk (by omega) (by omega)]
        exact hlow r hr
      · intro k hk1 hk2
        rcases Nat.lt_succ_iff_lt_or_eq.mp (by omega : k < j + i + 1) with hlt | heq
        · rw [heatAtRank_set_ne ranks h N (j + i) k _ hp hk (by omega) (by omega)]
          exact hhigh k hk1 hlt
        · rw [heq, heatAtRank_set_self ranks h N (j + i) _ hp hk hl]
          have e : h.getD (chainOfRank ranks (j - 1)) 0 = heatAtRank ranks heats (j - 1) :=
            hlow (j - 1) (by omega)
          rw [e]
          rfl)
  obtain ⟨k1, k2, k3⟩ := key
  refine ⟨k1, k2, fun k h1 h2 => k3 k h1 (by omega)⟩

/-- A loop that rewrites every chain that is not `NULL` in place. -/
theorem push_loop (g : State α → Nat → Chain α → Chain α) (s : State α)
    (hg : ∀ cs i c, g { s with chains := cs } i c = g s i c) :
    ∃ cs, (List.range s.num_chains).foldl
        (fun (t : State α) (i : Nat) =>
          match t.chains.getD i none with
          | some c => { t with chains := t.chains.set i (some (g t i c)) }
          | none => t) s = { s with chains := cs } ∧
      cs.length = s.chains.length ∧
      ∀ i, cs.getD i none =
        if i < s.num_chains then (s.chains.getD i none).map (g s i) else s.chains.getD i none := by
  refine foldl_range_induct
    (fun m (t : State α) => ∃ cs, t = { s with chains := cs } ∧ cs.length = s.chains.length ∧
      ∀ i, cs.getD i none =
        if i < m then (s.chains.getD i none).map (g s i) else s.chains.getD i none)
    _ s s.num_chains ⟨s.chains, rfl, rfl, fun i => by simp⟩ ?_
  rintro m t hm ⟨cs, rfl, hlen, hcs⟩
  dsimp only
  have hm0 : cs.getD m none = s.chains.getD m none := by
    rw [hcs m, if_neg (lt_irrefl m)]
  cases hc : cs.getD m none with
  | none =>
    refine ⟨cs, rfl, hlen, fun i => ?_⟩
    rw [hcs i]
    by_cases h1 : i < m
    · simp [h1, Nat.lt_succ_of_lt h1]
    · by_cases h2 : i = m
      · subst h2
        rw [← hm0, hc]
        simp
      · have : ¬ i < m + 1 := by omega
        simp [h1, this]
  | some c =>
    refine ⟨_, rfl, by simp [hlen], fun i => ?_⟩
    rw [getD_set, hg]
    by_cases h2 : m = i
    · subst h2
      have hlt : m < cs.length := by
        by_contra hge
        rw [List.getD_eq_default _ _ (not_lt.mp hge)] at hc
        exact Option.noConfusion hc
      rw [if_pos ⟨rfl, hlt⟩, if_pos (Nat.lt_succ_self m), ← hm0, hc]
      rfl
    · rw [if_neg (fun h => h2 h.1), hcs i]
      have : (i < m + 1) ↔ (i < m) := by omega
      simp only [this]

theorem pushSwapState_chains (s : State α) :
    ∃ cs, pushSwapState s = { s with chains := cs } ∧ cs.length = s.chains.length ∧
      ∀ i, cs.getD i none =
        if i < s.num_chains then (s.chains.getD i none).map (swapPushed s i)
        else s.chains.getD i none :=
  push_loop swapPushed s (fun _ _ _ => rfl)

theorem ladder_congr (s s2 : State α) (h1 : s2.num_chains = s.num_chains)
    (h2 : s2.heat_ranks = s.heat_ranks) (h3 : s2.chain_heats = s.chain_heats)
    (hL : Ladder s) : Ladder s2 := by
  obtain ⟨a, b, c, d, e⟩ := hL
  constructor
  · rw [h1, h2]; exact a
  · rw [h1, h3]; exact b
  · rw [h1, h2, h3]; exact c
  · rw [h1, h2, h3]; exact d
  · rw [h1, h2, h3]; exact e

theorem synced_congr (s s2 : State α) (h1 : s2.num_chains = s.num_chains)
    (h3 : s2.chain_heats = s.chain_heats) (h4 : s2.chains = s.chains)
    (hS : Synced s) : Synced s2 := by
  obtain ⟨a, b⟩ := hS
  constructor
  · rw [h1, h4]; exact a
  · rw [h1, h3, h4]; exact b

theorem exchange_getD_swapIdx {β : Type} (l : List β) (j k a : Nat) (d : β)
    (hj : j < l.length) (hk : k < l.length) :
    (exchange l j k d).getD a d = l.getD (swapIdx j k a) d := by
  rw [exchange_getD l j k a d hj hk]
  unfold swapIdx
  split
  · rfl
  · split <;> rfl

theorem swapIdx_lt (j k a n : Nat) (hj : j < n) (hk : k < n) (ha : a < n) :
    swapIdx j k a < n := by
  unfold swapIdx
  split
  · exact hj
  · split
    · exact hk
    · exact ha

theorem ladder_exchange (s s2 : State α) (j k : Nat) (hj : j < s.num_chains)
    (hk : k < s.num_chains) (h1 : s2.num_chains = s.num_chains)
    (h2 : s2.heat_ranks = exchange s.heat_ranks j k 0)
    (h3 : s2.chain_heats = exchange s.chain_heats j k 0) (hL : Ladder s) : Ladder s2 := by
  have hlen : s.heat_ranks.length = s.num_chains := by simpa using hL.perm.length_eq
  have er := fun a => exchange_getD_swapIdx s.heat_ranks j k a 0 (hlen ▸ hj) (hlen ▸ hk)
  have eh := fun a => exchange_getD_swapIdx s.chain_heats j k a 0 (hL.len ▸ hj) (hL.len ▸ hk)
  have lt := fun a ha => swapIdx_lt j k a s.num_chains hj hk ha
  constructor
  · rw [h1, h2]
    exact (exchange_perm _ _ _ (hlen ▸ hj) (hlen ▸ hk)).trans hL.perm
  · rw [h1, h3, exchange_length]; exact hL.len
  · rw [h1, h2, h3]
    intro a ha
    rw [er a, eh a]
    exact hL.cold _ (lt a ha)
  · rw [h1, h2, h3]
    intro a ha
    rw [er a, eh a]
    exact hL.hot _ (lt a ha)
  · rw [h1, h2, h3]
    intro a b ha hb
    rw [er a, eh a, er b, eh b]
    exact hL.mono _ _ (lt a ha) (lt b hb)

theorem synchronizeHeats_of_synced (s : State α) (hS : Synced s)
    (hlen : s.chain_heats.length = s.num_chains) : synchronizeHeats s = s := by
  unfold synchronizeHeats
  dsimp only
  split
  · have e : (List.range s.num_chains).foldl
        (fun v i => v.set i
          (((List.range s.num_chains).map fun j =>
            match s.chains.getD j none with
            | some c => c.chain_posterior_heat
            | none => 0).getD i 0)) s.chain_heats = s.chain_heats := by
      obtain ⟨l1, l2⟩ := foldl_set_range
        (fun i => ((List.range s.num_chains).map fun j =>
            match s.chains.getD j none with
            | some c => c.chain_posterior_heat
            | none => 0).getD i 0) s.chain_heats s.num_chains 0
      apply ext_getD _ _ 0 l1
      intro i hi
      rw [l1, hlen] at hi
      rw [l2 i, if_pos ⟨hi, hlen ▸ hi⟩, getD_map_range _ _ _ _ hi]
      obtain ⟨c, hc1, hc2⟩ := hS.owned i hi
      rw [hc1]
      exact hc2
    rw [e]
  · rfl

theorem applyDecision_true_chains (s : State α) (j k : Nat) :
    ∃ cs, applyDecision s j k true =
      { s with
        numAcceptedSwaps :=
          matIncr s.numAcceptedSwaps (s.heat_ranks.getD j 0) (s.heat_ranks.getD k 0)
        active_chain_index :=
          if s.active_chain_index = j then k
          else if s.active_chain_index = k then j else s.active_chain_index
        chain_heats := exchange s.chain_heats j k 0
        heat_ranks := exchange s.heat_ranks j k 0
        chain_moves_tuningInfo := exchange s.chain_moves_tuningInfo j k []
        chains := cs } ∧
      cs.length = s.chains.length ∧
      ∀ i c, i < s.num_chains → s.chains.getD i none = some c →
        ∃ c2, cs.getD i none = some c2 ∧
          c2.chain_posterior_heat = (exchange s.chain_heats j k 0).getD i 0 ∧
          c2.chain_active = decide ((exchange s.chain_heats j k 0).getD i 0 = 1) ∧
          c2.moves_tuningInfo = (exchange s.chain_moves_tuningInfo j k []).getD i [] ∧
          c2.lnPosterior = c.lnPosterior ∧ c2.lnLikelihood = c.lnLikelihood ∧
          c2.chain_idx = c.chain_idx := by
  unfold applyDecision
  simp only [if_true]
  obtain ⟨cs, h, hlen, hcs⟩ := pushSwapState_chains
    { s with
      numAcceptedSwaps :=
        matIncr s.numAcceptedSwaps (s.heat_ranks.getD j 0) (s.heat_ranks.getD k 0)
      active_chain_index :=
        if s.active_chain_index = j then k
        else if s.active_chain_index = k then j else s.active_chain_index
      chain_heats := exchange s.chain_heats j k 0
      heat_ranks := exchange s.heat_ranks j k 0
      chain_moves_tuningInfo := exchange s.chain_moves_tuningInfo j k [] }
  refine ⟨cs, h, hlen, fun i c hi hc => ?_⟩
  have := hcs i
  dsimp only at this
  rw [if_pos hi, hc] at this
  exact ⟨_, this, rfl, rfl, rfl, rfl, rfl, rfl⟩

theorem swapAttempt_inv (ex : α → α) (s : State α) (j k : Nat) (u : α)
    (hj : j < s.num_chains) (hk : k < s.num_chains) (hL : Ladder s) (hS : Synced s) :
    Ladder (swapAttempt ex s j k u) ∧ Synced (swapAttempt ex s j k u) ∧
    (swapAttempt ex s j k u).num_chains = s.num_chains := by
  rcases swapAttempt_cases ex s j k u with h1 | h1
  · rw [h1]
    exact ⟨ladder_congr s _ rfl rfl rfl hL, synced_congr s _ rfl rfl rfl hS, rfl⟩
  · obtain ⟨cs, h2, hlen, hcs⟩ := applyDecision_true_chains (countAttempt s j k) j k
    rw [h1, h2]
    refine ⟨ladder_exchange s _ j k hj hk rfl rfl rfl hL, ⟨hlen.trans hS.chains_len, ?_⟩, rfl⟩
    intro i hi
    obtain ⟨c, hc, -⟩ := hS.owned i hi
    obtain ⟨c2, e1, e2, -⟩ := hcs i c hi hc
    exact ⟨c2, e1, e2⟩

theorem ownsChain_single (s : State α) (i : Nat) (hP : s.num_processes = 1)
    (hpid : s.pid = s.active_PID) (hi : i < s.num_chains) : ownsChain s i = true := by
  have hN : (0 : α) < (s.num_chains : α) := by
    have : 0 < s.num_chains := by omega
    exact_mod_cast this
  have h0 : active_pid_for_chain s i = s.active_PID := by
    unfold active_pid_for_chain processors_per_chain
    rw [hP]
    have : ⌊(i : α) * (((1 : Nat) : α) / (s.num_chains : α))⌋₊ = 0 := by
      rw [Nat.floor_eq_zero]
      rw [Nat.cast_one, mul_one_div, div_lt_one hN]
      exact_mod_cast hi
    rw [this, Nat.zero_add]
  have h1 : 1 ≤ num_processer_for_chain s i := by
    unfold num_processer_for_chain
    dsimp only
    split <;> omega
  unfold ownsChain
  rw [h0, hpid]
  simp only [decide_eq_true_eq]
  omega

theorem initializeChains_inv (s0 : State α)
    (hd : 0 < s0.delta) (hno : s0.heat_temps.getD 0 0 = 0)
    (hP : s0.num_processes = 1) (hpid : s0.pid = s0.active_PID)
    (h1 : s0.heat_ranks.length = s0.num_chains) (h2 : s0.chain_heats.length = s0.num_chains)
    (h3 : s0.chain_moves_tuningInfo.length = s0.num_chains)
    (h4 : s0.pid_per_chain.length = s0.num_chains) (h5 : s0.chains.length = s0.num_chains) :
    Ladder (initializeChains s0) ∧ Synced (initializeChains s0) ∧
    (initializeChains s0).num_chains = s0.num_chains := by
  rw [initializeChains_spec s0 h1 h2 h3 h4 h5]
  have eh : ∀ a, a < s0.num_chains →
      ((List.range s0.num_chains).map (initialHeat s0)).getD a 0
        = 1 / (1 + s0.delta * (a : α)) := by
    intro a ha
    rw [getD_map_range _ _ _ _ ha, initialHeat_geometric s0 a hno]
  have er : ∀ a, a < s0.num_chains → (List.range s0.num_chains).getD a 0 = a := by
    intro a ha
    rw [List.getD_eq_getElem _ _ (by simpa using ha)]
    simp
  refine ⟨⟨List.Perm.refl _, by simp, ?_, ?_, ?_⟩, ⟨by simp, ?_⟩, rfl⟩
  · intro a ha h0
    dsimp only at ha h0 ⊢
    rw [er a ha] at h0
    rw [eh a ha, h0]
    simp
  · intro a ha h0
    dsimp only at ha h0 ⊢
    rw [er a ha] at h0
    rw [eh a ha, div_lt_one (geometric_pos _ hd a)]
    have : (0 : α) < (a : α) := by exact_mod_cast h0
    have := mul_pos hd this
    linarith
  · intro a b ha hb hab
    dsimp only at ha hb hab ⊢
    rw [er a ha, er b hb] at hab
    rw [eh a ha, eh b hb]
    exact (geometric_strict _ hd a b hab).le
  · intro i hi
    dsimp only at hi ⊢
    rw [getD_map_range _ _ _ _ hi, getD_map_range _ _ _ _ hi]
    unfold initialSlot
    rw [if_pos (ownsChain_single s0 i hP hpid hi)]
    exact ⟨_, rfl, rfl⟩


theorem powSpec_powStub : PowSpec powStub := by
  refine ⟨?_, ?_, ?_⟩
  · intro b e hb he
    unfold powStub
    have := mul_nonneg (sub_nonneg.mpr hb) he
    linarith
  · intro b e hb he
    unfold powStub
    have := mul_pos (sub_pos.mpr hb) he
    linarith
  · intro b e1 e2 hb _ he
    unfold powStub
    have := mul_le_mul_of_nonneg_left he (sub_nonneg.mpr hb)
    linarith

theorem synchronizeValues_flat (s : State α) (p : α) (hpid : s.active_PID = s.pid)
    (hv : s.chain_values.length = s.num_chains) (hF : Flat p s) :
    (synchronizeValues s false).chain_values.length = s.num_chains ∧
    ∀ i, i < s.num_chains → (synchronizeValues s false).chain_values.getD i 0 = p := by
  unfold synchronizeValues
  dsimp only
  rw [if_pos hpid]
  dsimp only
  obtain ⟨l1, l2⟩ := foldl_set_range
    (fun i => ((List.range s.num_chains).map fun j =>
        match s.chains.getD j none with
        | some c => if false = true then c.lnLikelihood else c.lnPosterior
        | none => 0).getD i 0) s.chain_values s.num_chains 0
  refine ⟨l1.trans hv, fun i hi => ?_⟩
  rw [l2 i, if_pos ⟨hi, hv ▸ hi⟩, getD_map_range _ _ _ _ hi]
  obtain ⟨c, hc1, hc2⟩ := hF i hi
  rw [hc1]
  simpa using hc2

theorem sync_of_synced_values (s : State α) (hS : Synced s)
    (hlen : s.chain_heats.length = s.num_chains) :
    ∃ v3, synchronizeTuningInfo (synchronizeHeats (synchronizeValues s false)) =
      { s with chain_values := (synchronizeValues s false).chain_values,
               chain_moves_tuningInfo := v3 } := by
  obtain ⟨v1, e1⟩ := synchronizeValues_frame s false
  have hS1 : Synced (synchronizeValues s false) :=
    synced_congr s _ (by rw [e1]) (by rw [e1]) (by rw [e1]) hS
  have hl1 : (synchronizeValues s false).chain_heats.length
      = (synchronizeValues s false).num_chains := by rw [e1]; exact hlen
  rw [synchronizeHeats_of_synced _ hS1 hl1]
  obtain ⟨v3, e3⟩ := synchronizeTuningInfo_frame (synchronizeValues s false)
  refine ⟨v3, ?_⟩
  rw [e3]
  conv_lhs => rw [e1]
  rw [e1]

/-- A neighbor swap between chains that report the same log-probability is accepted. -/
theorem swapChains_neighbor_flat (ex : α → α) (s : State α) (p u1 u2 : α)
    (hN : 2 ≤ s.num_chains) (hpid : s.active_PID = s.pid)
    (hv : s.chain_values.length = s.num_chains) (hL : Ladder s) (hS : Synced s)
    (hF : Flat p s) (h0 : 0 ≤ u1) (h1 : u1 < 1) :
    ∃ s2, swapChains ex s "neighbor" [u1, u2] = some (s2, []) ∧
      s2.num_chains = s.num_chains ∧ s2.active_PID = s2.pid ∧
      s2.chain_values.length = s2.num_chains ∧
      s2.chain_heats = exchange s.chain_heats (neighborIndex s u1) (neighborIndex s u1 + 1) 0 ∧
      s2.heat_ranks = exchange s.heat_ranks (neighborIndex s u1) (neighborIndex s u1 + 1) 0 ∧
      Ladder s2 ∧ Synced s2 ∧ Flat p s2 := by
  obtain ⟨v3, e⟩ := sync_of_synced_values s hS hL.len
  obtain ⟨w1, w2⟩ := synchronizeValues_flat s p hpid hv hF
  have hsc : swapChains ex s "neighbor" [u1, u2] = some (swapNeighborChains ex
      (synchronizeTuningInfo (synchronizeHeats (synchronizeValues s false))) u1 u2, []) := by
    unfold swapChains
    rw [if_neg (by omega)]
    simp
  refine ⟨_, hsc, ?_⟩
  have f1 : (synchronizeTuningInfo (synchronizeHeats (synchronizeValues s false))).num_chains
      = s.num_chains := by rw [e]
  have f2 : (synchronizeTuningInfo (synchronizeHeats (synchronizeValues s false))).chain_heats
      = s.chain_heats := by rw [e]
  have f3 : (synchronizeTuningInfo (synchronizeHeats (synchronizeValues s false))).heat_ranks
      = s.heat_ranks := by rw [e]
  have f4 : (synchronizeTuningInfo (synchronizeHeats (synchronizeValues s false))).chains
      = s.chains := by rw [e]
  have f5 : (synchronizeTuningInfo (synchronizeHeats (synchronizeValues s false))).chain_values
      = (synchronizeValues s false).chain_values := by rw [e]
  have f6 : (synchronizeTuningInfo (synchronizeHeats (synchronizeValues s false))).active_PID
      = s.active_PID := by rw [e]
  have f7 : (synchronizeTuningInfo (synchronizeHeats (synchronizeValues s false))).pid
      = s.pid := by rw [e]
  generalize synchronizeTuningInfo (synchronizeHeats (synchronizeValues s false)) = s3
    at f1 f2 f3 f4 f5 f6 f7
  have hj := neighborIndex_lt s u1 hN h0 h1
  have hnI : neighborIndex s3 u1 = neighborIndex s u1 := by
    unfold neighborIndex; rw [f1]
  unfold swapNeighborChains
  dsimp only
  rw [hnI]
  generalize neighborIndex s u1 = j at hj
  have hR : lnR (countAttempt s3 j (j + 1)) j (j + 1) = 0 := by
    unfold lnR countAttempt
    dsimp only
    rw [f5, w2 j (by omega), w2 (j + 1) hj]
    ring
  have hacc : swapAttempt ex s3 j (j + 1) u2 =
      applyDecision (countAttempt s3 j (j + 1)) j (j + 1) true := by
    unfold swapAttempt
    dsimp only
    rw [hR]
    simp [acceptTest]
  have hinv := swapAttempt_inv ex s3 j (j + 1) u2 (by omega) (f1 ▸ hj)
    (ladder_congr s _ f1 f3 f2 hL) (synced_congr s _ f1 f2 f4 hS)
  obtain ⟨cs, h2, hlen, hcs⟩ := applyDecision_true_chains (countAttempt s3 j (j + 1)) j (j + 1)
  rw [hacc] at hinv ⊢
  refine ⟨hinv.2.2.trans f1, ?_, ?_, ?_, ?_, hinv.1, hinv.2.1, ?_⟩
  · rw [h2]; exact (f6.trans hpid).trans f7.symm
  · rw [h2]; exact (congrArg List.length f5).trans (w1.trans f1.symm)
  · rw [h2]; exact congrArg (fun l => exchange l j (j + 1) 0) f2
  · rw [h2]; exact congrArg (fun l => exchange l j (j + 1) 0) f3
  · intro i hi
    rw [h2] at hi ⊢
    have hi2 : i < s.num_chains := f1 ▸ hi
    obtain ⟨c, hc1, hc2⟩ := hF i hi2
    obtain ⟨c2, d1, -, -, -, d2, -⟩ := hcs i c hi (by
      show s3.chains.getD i none = some c
      rw [f4]; exact hc1)
    exact ⟨c2, d1, d2.trans hc2⟩

theorem blankState_no_heats (base : Chain α) (nc si : Nat) (dt : α) (th un ur : Bool)
    (P pid apid : Nat) :
    (blankState base nc si dt th un ur P pid apid).heat_temps.getD 0 0 = 0 := by
  cases nc <;> simp [blankState, List.replicate]

/-- The state built by the constructor on one process. -/
theorem construct_inv (base : Chain α) (nc si : Nat) (dt : α) (th : Bool) (sm : String)
    (pid : Nat) (hd : 0 < dt) :
    Ladder (construct base nc si dt th sm 1 pid pid) ∧
    Synced (construct base nc si dt th sm 1 pid pid) ∧
    Flat base.lnPosterior (construct base nc si dt th sm 1 pid pid) ∧
    (construct base nc si dt th sm 1 pid pid).num_chains = nc ∧
    (construct base nc si dt th sm 1 pid pid).active_PID
      = (construct base nc si dt th sm 1 pid pid).pid ∧
    (construct base nc si dt th sm 1 pid pid).chain_values.length = nc ∧
    (construct base nc si dt th sm 1 pid pid).heat_ranks = List.range nc ∧
    (construct base nc si dt th sm 1 pid pid).chain_heats =
      (List.range nc).map (fun (i : Nat) => 1 / (1 + dt * (i : α))) := by
  have hi := initializeChains_inv (blankState base nc si dt th
    (decide (sm ≠ "random")) (decide (sm = "random" ∨ sm = "both")) 1 pid pid)
    hd (blankState_no_heats _ _ _ _ _ _ _ _ _ _) rfl rfl (by simp [blankState])
    (by simp [blankState]) (by simp [blankState]) (by simp [blankState]) (by simp [blankState])
  rw [← construct_eq_initializeChains] at hi
  refine ⟨hi.1, hi.2.1, ?_, hi.2.2, ?_, ?_, ?_, ?_⟩
  · intro i hi2
    rw [construct_spec] at hi2 ⊢
    dsimp only [blankState] at hi2 ⊢
    rw [getD_map_range _ _ _ _ hi2]
    unfold initialSlot
    rw [if_pos (ownsChain_single _ i rfl rfl hi2)]
    exact ⟨_, rfl, rfl⟩
  · rw [construct_spec]; rfl
  · rw [construct_spec]; simp [blankState]
  · rw [construct_spec]
  · rw [construct_spec]

/-- Two accepted neighbor swaps from the initial state of three chains: first the chains
`0` and `1`, then the chains `1` and `2`. -/
theorem two_swaps_reachable :
    ∃ s1 s2 : State ℚ,
      Reachable expStub powStub (construct base0 3 1 (1 / 5) true "neighbor" 1 0 0) s1 ∧
      Step expStub powStub s1 s2 ∧
      s1.num_chains = 3 ∧ s1.heat_ranks = [1, 0, 2] ∧ s1.chain_heats = [5 / 6, 1, 5 / 7] ∧
      s2.num_chains = 3 ∧ s2.heat_ranks = [1, 2, 0] ∧ s2.chain_heats = [5 / 6, 5 / 7, 1] := by
  obtain ⟨a1, a2, a3, a4, a5, a6, a7, a8⟩ :=
    construct_inv base0 3 1 (1 / 5 : ℚ) true "neighbor" 0 (by norm_num)
  obtain ⟨s1, b0, b1, b2, b3, b4, b5, b6, b7, b8⟩ := swapChains_neighbor_flat expStub
    (construct base0 3 1 (1 / 5 : ℚ) true "neighbor" 1 0 0) base0.lnPosterior 0 0
    (by rw [a4]; decide) a5 (by rw [a6, a4]) a1 a2 a3 (le_refl _) (by norm_num)
  have j1 : neighborIndex (construct base0 3 1 (1 / 5 : ℚ) true "neighbor" 1 0 0) 0 = 0 := by
    unfold neighborIndex; simp
  rw [j1, a8] at b4
  rw [j1, a7] at b5
  rw [a4] at b1
  obtain ⟨s2, c0, c1, c2, c3, c4, c5, c6, c7, c8⟩ := swapChains_neighbor_flat expStub
    s1 base0.lnPosterior (1 / 2) 0 (by rw [b1]; decide) b2 b3 b6 b7 b8 (by norm_num) (by norm_num)
  have j2 : neighborIndex s1 (1 / 2) = 1 := by
    unfold neighborIndex; rw [b1]; norm_num
  rw [j2, b4] at c4
  rw [j2, b5] at c5
  rw [b1] at c1
  have st1 : Step expStub powStub (construct base0 3 1 (1 / 5 : ℚ) true "neighbor" 1 0 0) s1 :=
    Step.swap _ "neighbor" [0, 0] s1 [] (by intro u hu; simp at hu; subst hu; norm_num) b0
  have st2 : Step expStub powStub s1 s2 :=
    Step.swap _ "neighbor" [1 / 2, 0] s2 []
      (by intro u hu; simp at hu; rcases hu with rfl | rfl <;> norm_num) c0
  refine ⟨s1, s2, Relation.ReflTransGen.single st1, st2, b1, ?_, ?_, c1, ?_, ?_⟩
  · rw [b5]; simp [exchange, List.range_succ]
  · rw [b4]; simp [exchange, List.range_succ]; norm_num
  · rw [c5]; simp [exchange, List.range_succ]
  · rw [c4]; simp [exchange, List.range_succ]; norm_num

theorem initialHeat_explicit (s : State α) (i : Nat) (h : s.heat_temps.getD 0 0 ≠ 0) :
    initialHeat s i = s.heat_temps.getD i 0 := by
  unfold initialHeat
  rw [if_pos h]

theorem resize_length {β : Type} (v : List β) (n : Nat) (d : β) : (resize v n d).length = n := by
  unfold resize
  simp
  omega

theorem map_getD_range {β : Type} (l : List β) (d : β) :
    (List.range l.length).map (fun i => l.getD i d) = l := by
  apply ext_getD _ _ d (by simp)
  intro i hi
  have hi2 : i < l.length := by simpa using hi
  rw [getD_map_range _ _ _ _ hi2]

/-- Initialization with an explicit heat vector whose first entry is not zero. -/
theorem initializeChains_explicit (s : State α) (ht : List α)
    (hlen : ht.length = s.num_chains) (h0 : 1 ≤ s.num_chains → ht.getD 0 0 ≠ 0)
    (h1 : s.heat_ranks.length = s.num_chains) (h2 : s.chain_heats.length = s.num_chains)
    (h3 : s.chain_moves_tuningInfo.length = s.num_chains)
    (h4 : s.pid_per_chain.length = s.num_chains) (h5 : s.chains.length = s.num_chains) :
    (initializeChains (setHeatsInitial s ht)).chain_heats = ht ∧
    (initializeChains (setHeatsInitial s ht)).heat_ranks = List.range s.num_chains := by
  rw [initializeChains_spec (setHeatsInitial s ht) h1 h2 h3 h4 h5]
  refine ⟨?_, rfl⟩
  show (List.range s.num_chains).map (initialHeat (setHeatsInitial s ht)) = ht
  have e : (List.range s.num_chains).map (initialHeat (setHeatsInitial s ht)) =
      (List.range s.num_chains).map (fun i => ht.getD i 0) := by
    apply List.map_congr_left
    intro i hi
    have hi2 : i < s.num_chains := List.mem_range.mp hi
    exact initialHeat_explicit _ i (h0 (by omega))
  rw [e, ← hlen]
  exact map_getD_range ht 0

theorem matGet_matSet_zero (m : List (List Nat)) (r c r1 c1 : Nat) :
    matGet (matSet m r c 0) r1 c1 = if r = r1 ∧ c = c1 then 0 else matGet m r1 c1 := by
  rw [matGet_matSet]
  by_cases h : r = r1 ∧ c = c1
  · rw [if_pos h]
    obtain ⟨rfl, rfl⟩ := h
    by_cases h2 : r < m.length ∧ c < (m.getD r []).length
    · rw [if_pos ⟨rfl, rfl, h2.1, h2.2⟩]
    · rw [if_neg (fun hh => h2 ⟨hh.2.2.1, hh.2.2.2⟩)]
      unfold matGet
      by_cases h3 : r < m.length
      · exact List.getD_eq_default _ _ (not_lt.mp (fun hc => h2 ⟨h3, hc⟩))
      · rw [List.getD_eq_default m [] (not_lt.mp h3)]
        rfl
  · rw [if_neg h, if_neg (fun hh => h ⟨hh.1, hh.2.1⟩)]

theorem matSet_dims (m : List (List Nat)) (r c v : Nat) :
    (matSet m r c v).length = m.length ∧
    ∀ i, ((matSet m r c v).getD i []).length = (m.getD i []).length := by
  unfold matSet
  refine ⟨by simp, fun i => ?_⟩
  rw [getD_set]
  split
  · rename_i h
    rw [← h.1]
    simp
  · rfl

/-- One row of a counter matrix set to zero, as the inner loop of `resetCounters` does. -/
theorem zeroRow_spec (m : List (List Nat)) (i n : Nat) :
    (∀ r c, matGet ((List.range n).foldl (fun m j => matSet m i j 0) m) r c =
      if r = i ∧ c < n then 0 else matGet m r c) ∧
    ((List.range n).foldl (fun m j => matSet m i j 0) m).length = m.length ∧
    ∀ x, (((List.range n).foldl (fun m j => matSet m i j 0) m).getD x []).length
      = (m.getD x []).length := by
  refine foldl_range_induct
    (fun k (m2 : List (List Nat)) =>
      (∀ r c, matGet m2 r c = if r = i ∧ c < k then 0 else matGet m r c) ∧
      m2.length = m.length ∧ ∀ x, (m2.getD x []).length = (m.getD x []).length)
    _ m n ⟨fun r c => by simp, rfl, fun _ => rfl⟩ ?_
  rintro k m2 _ ⟨h1, h2, h3⟩
  refine ⟨fun r c => ?_, (matSet_dims _ _ _ _).1.trans h2,
    fun x => ((matSet_dims _ _ _ _).2 x).trans (h3 x)⟩
  rw [matGet_matSet_zero, h1 r c]
  by_cases e1 : i = r ∧ k = c
  · obtain ⟨rfl, rfl⟩ := e1
    rw [if_pos ⟨rfl, rfl⟩, if_pos ⟨rfl, Nat.lt_succ_self _⟩]
  · rw [if_neg e1]
    have : (r = i ∧ c < k + 1) ↔ (r = i ∧ c < k) := by
      constructor
      · rintro ⟨h4, h5⟩
        refine ⟨h4, ?_⟩
        by_contra hc
        exact e1 ⟨h4.symm, by omega⟩
      · rintro ⟨h4, h5⟩
        exact ⟨h4, by omega⟩
    simp only [this]

/-- All rows of a counter matrix set to zero. -/
theorem zeroAll_spec (m : List (List Nat)) (n k : Nat) :
    (∀ r c, matGet ((List.range k).foldl
        (fun m i => (List.range n).foldl (fun m j => matSet m i j 0) m) m) r c =
      if r < k ∧ c < n then 0 else matGet m r c) ∧
    ((List.range k).foldl
        (fun m i => (List.range n).foldl (fun m j => matSet m i j 0) m) m).length = m.length ∧
    ∀ x, (((List.range k).foldl
        (fun m i => (List.range n).foldl (fun m j => matSet m i j 0) m) m).getD x []).length
      = (m.getD x []).length := by
  refine foldl_range_induct
    (fun k (m2 : List (List Nat)) =>
      (∀ r c, matGet m2 r c = if r < k ∧ c < n then 0 else matGet m r c) ∧
      m2.length = m.length ∧ ∀ x, (m2.getD x []).length = (m.getD x []).length)
    _ m k ⟨fun r c => by simp, rfl, fun _ => rfl⟩ ?_
  rintro i m2 _ ⟨h1, h2, h3⟩
  obtain ⟨z1, z2, z3⟩ := zeroRow_spec m2 i n
  refine ⟨fun r c => ?_, z2.trans h2, fun x => (z3 x).trans (h3 x)⟩
  rw [z1 r c, h1 r c]
  by_cases e1 : r = i ∧ c < n
  · rw [if_pos e1, if_pos ⟨by omega, e1.2⟩]
  · rw [if_neg e1]
    have : (r < i + 1 ∧ c < n) ↔ (r < i ∧ c < n) := by
      constructor
      · rintro ⟨h4, h5⟩
        refine ⟨?_, h5⟩
        by_contra hc
        exact e1 ⟨by omega, h5⟩
      · rintro ⟨h4, h5⟩
        exact ⟨by omega, h5⟩
    simp only [this]

theorem resetCounters_eq (s : State α) :
    resetCounters s =
      { s with
        numAttemptedSwaps := (List.range s.num_chains).foldl
          (fun m i => (List.range s.num_chains).foldl (fun m j => matSet m i j 0) m)
          s.numAttemptedSwaps
        numAcceptedSwaps := (List.range s.num_chains).foldl
          (fun m i => (List.range s.num_chains).foldl (fun m j => matSet m i j 0) m)
          s.numAcceptedSwaps } := by
  unfold resetCounters
  have inner : ∀ (n i : Nat) (a b : List (List Nat)),
      (List.range n).foldl
        (fun (t : State α) (j : Nat) =>
          { t with numAttemptedSwaps := matSet t.numAttemptedSwaps i j 0
                   numAcceptedSwaps := matSet t.numAcceptedSwaps i j 0 })
        { s with numAttemptedSwaps := a, numAcceptedSwaps := b } =
      { s with
        numAttemptedSwaps := (List.range n).foldl (fun m j => matSet m i j 0) a
        numAcceptedSwaps := (List.range n).foldl (fun m j => matSet m i j 0) b } := by
    intro n i a b
    induction n with
    | zero => rfl
    | succ n ih =>
      rw [List.range_succ, List.foldl_append, List.foldl_append, List.foldl_append, ih]
      rfl
  have outer : ∀ (k : Nat),
      (List.range k).foldl
        (fun (t : State α) (i : Nat) =>
          (List.range t.num_chains).foldl
            (fun (t : State α) (j : Nat) =>
              { t with numAttemptedSwaps := matSet t.numAttemptedSwaps i j 0
                       numAcceptedSwaps := matSet t.numAcceptedSwaps i j 0 })
            t) s =
      { s with
        numAttemptedSwaps := (List.range k).foldl
          (fun m i => (List.range s.num_chains).foldl (fun m j => matSet m i j 0) m)
          s.numAttemptedSwaps
        numAcceptedSwaps := (List.range k).foldl
          (fun m i => (List.range s.num_chains).foldl (fun m j => matSet m i j 0) m)
          s.numAcceptedSwaps } := by
    intro k
    induction k with
    | zero => rfl
    | succ k ih =>
      rw [List.range_succ, List.foldl_append, List.foldl_append, List.foldl_append, ih]
      simp only [List.foldl_cons, List.foldl_nil]
      exact inner _ _ _ _
  exact outer s.num_chains

/-- The cells of both counter matrices after `resetCounters`. -/
theorem resetCounters_spec (s : State α) :
    (∀ r c, matGet (resetCounters s).numAttemptedSwaps r c =
      if r < s.num_chains ∧ c < s.num_chains then 0 else matGet s.numAttemptedSwaps r c) ∧
    (∀ r c, matGet (resetCounters s).numAcceptedSwaps r c =
      if r < s.num_chains ∧ c < s.num_chains then 0 else matGet s.numAcceptedSwaps r c) ∧
    ((resetCounters s).numAttemptedSwaps.length = s.numAttemptedSwaps.length ∧
      ∀ x, ((resetCounters s).numAttemptedSwaps.getD x []).length
        = (s.numAttemptedSwaps.getD x []).length) ∧
    ((resetCounters s).numAcceptedSwaps.length = s.numAcceptedSwaps.length ∧
      ∀ x, ((resetCounters s).numAcceptedSwaps.getD x []).length
        = (s.numAcceptedSwaps.getD x []).length) := by
  rw [resetCounters_eq]
  obtain ⟨a1, a2, a3⟩ := zeroAll_spec s.numAttemptedSwaps s.num_chains s.num_chains
  obtain ⟨b1, b2, b3⟩ := zeroAll_spec s.numAcceptedSwaps s.num_chains s.num_chains
  exact ⟨a1, b1, ⟨a2, a3⟩, ⟨b2, b3⟩⟩

/-- What `tune` leaves in the members other than the chains when the heats are tuned. -/
theorem tune_fields (pw : α → α → α) (f : List (TuningInfo α) → List (TuningInfo α))
    (s : State α) (hT : s.tune_heat = true) (hN : 2 ≤ s.num_chains) :
    (tune pw f s).numAttemptedSwaps
      = (resetCounters { s with chain_heats := tunedHeats pw s }).numAttemptedSwaps ∧
    (tune pw f s).numAcceptedSwaps
      = (resetCounters { s with chain_heats := tunedHeats pw s }).numAcceptedSwaps ∧
    (tune pw f s).heat_ranks = s.heat_ranks ∧
    (tune pw f s).chain_heats = tunedHeats pw s ∧
    (tune pw f s).num_chains = s.num_chains := by
  unfold tune
  dsimp only
  rw [if_pos ⟨hT, by omega⟩]
  obtain ⟨cs, h2⟩ := pushTuneState_frame f
    (resetCounters { s with chain_heats := tunedHeats pw s })
  rw [h2]
  obtain ⟨a, b, h1⟩ := resetCounters_frame { s with chain_heats := tunedHeats pw s }
  rw [h1]
  exact ⟨rfl, rfl, rfl, rfl, rfl⟩

/-- A matrix of `n` rows of `n` cells that reads zero in every cell is the zero matrix. -/
theorem mat_eq_zero (m : List (List Nat)) (n : Nat) (hr : m.length = n)
    (hc : ∀ r, r < n → (m.getD r []).length = n)
    (hz : ∀ r c, r < n → c < n → matGet m r c = 0) :
    m = List.replicate n (List.replicate n 0) := by
  apply ext_getD _ _ [] (by simp [hr])
  intro r hr2
  have hr3 : r < n := by omega
  have e : (List.replicate n (List.replicate n 0)).getD r [] = List.replicate n 0 := by
    rw [List.getD_eq_getElem _ _ (by simpa using hr3)]
    simp
  rw [e]
  apply ext_getD _ _ 0 (by rw [hc r hr3]; simp)
  intro c hc2
  have hc3 : c < n := by rw [hc r hr3] at hc2; exact hc2
  have e2 : (List.replicate n (0 : Nat)).getD c 0 = 0 := by
    rw [List.getD_eq_getElem _ _ (by simpa using hc3)]
    simp
  rw [e2]
  exact hz r c hr3 hc3

/-- The gaps after the loop of lines 1478-1500, entry by entry. -/
theorem tuneGaps_getD (s : State α) (d : List α) (hd : d.length = s.num_chains - 1) :
    (tuneGaps s d).length = d.length ∧
    ∀ m, m < s.num_chains - 1 →
      (tuneGaps s d).getD m 0 =
        if matGet s.numAttemptedSwaps m (m + 1) + matGet s.numAttemptedSwaps (m + 1) m > 2 then
          retuneGap (d.getD m 0)
            (((matGet s.numAcceptedSwaps m (m + 1) + matGet s.numAcceptedSwaps (m + 1) m
                : Nat) : α) /
             ((matGet s.numAttemptedSwaps m (m + 1) + matGet s.numAttemptedSwaps (m + 1) m
                : Nat) : α))
        else d.getD m 0 := by
  unfold tuneGaps
  have key := foldl_range'_induct
    (fun i (t : List α) => t.length = d.length ∧
      (∀ m, i ≤ m → t.getD m 0 = d.getD m 0) ∧
      ∀ m, m < i →
        t.getD m 0 =
          if matGet s.numAttemptedSwaps m (m + 1) + matGet s.numAttemptedSwaps (m + 1) m > 2
          then
            retuneGap (d.getD m 0)
              (((matGet s.numAcceptedSwaps m (m + 1) + matGet s.numAcceptedSwaps (m + 1) m
                  : Nat) : α) /
               ((matGet s.numAttemptedSwaps m (m + 1) + matGet s.numAttemptedSwaps (m + 1) m
                  : Nat) : α))
          else d.getD m 0)
    (tuneGap s) d 1 (s.num_chains - 1) ⟨rfl, fun _ _ => rfl, fun m hm => absurd hm (by omega)⟩ ?_
  · exact ⟨key.1, key.2.2⟩
  · rintro i t hi ⟨h1, h2, h3⟩
    have e1 : 1 + i - 1 = i := by omega
    have e2 : 1 + i = i + 1 := by omega
    unfold tuneGap
    dsimp only
    rw [e1, e2]
    by_cases hc : matGet s.numAttemptedSwaps i (i + 1) + matGet s.numAttemptedSwaps (i + 1) i > 2
    · rw [if_pos hc]
      refine ⟨by simpa using h1, ?_, ?_⟩
      · intro m hm
        rw [getD_set_ne _ _ _ _ _ (by omega)]
        exact h2 m (by omega)
      · intro m hm
        by_cases hmi : m = i
        · subst hmi
          rw [getD_set_self _ _ _ _ (by omega), if_pos hc, h2 m (le_refl _)]
        · rw [getD_set_ne _ _ _ _ _ (fun h => hmi h.symm)]
          exact h3 m (by omega)
    · rw [if_neg hc]
      refine ⟨h1, fun m hm => h2 m (by omega), ?_⟩
      intro m hm
      by_cases hmi : m = i
      · subst hmi
        rw [if_neg hc]
        exact h2 m (le_refl _)
      · exact h3 m (by omega)

theorem sum_set_add (l : List Nat) (i v : Nat) (hi : i < l.length) :
    (l.set i v).sum + l.getD i 0 = l.sum + v := by
  induction l generalizing i with
  | nil => simp at hi
  | cons a l ih =>
    cases i with
    | zero =>
      simp only [List.set_cons_zero, List.sum_cons, List.getD_cons_zero]
      omega
    | succ i =>
      have hi2 : i < l.length := by simpa using hi
      have := ih i hi2
      simp only [List.set_cons_succ, List.sum_cons, List.getD_cons_succ]
      omega

theorem getD_map_sum (m : List (List Nat)) (r : Nat) :
    (m.map List.sum).getD r 0 = (m.getD r []).sum := by
  by_cases h : r < m.length
  · rw [List.getD_eq_getElem _ _ (by simpa using h), List.getD_eq_getElem _ _ h]
    simp
  · rw [List.getD_eq_default _ _ (by simpa using h), List.getD_eq_default _ _ (by omega)]
    rfl

/-- An increment of a cell inside the matrix adds one to the sum of all cells. -/
theorem matSum_matIncr (m : List (List Nat)) (r c : Nat) (hr : r < m.length)
    (hc : c < (m.getD r []).length) : matSum (matIncr m r c) = matSum m + 1 := by
  unfold matSum matIncr matSet matGet
  rw [List.map_set]
  have h1 := sum_set_add (m.map List.sum) r
    (((m.getD r []).set c ((m.getD r []).getD c 0 + 1)).sum) (by simpa using hr)
  have h2 := sum_set_add (m.getD r []) c ((m.getD r []).getD c 0 + 1) hc
  rw [getD_map_sum] at h1
  omega

theorem matIncr_dims (m : List (List Nat)) (r c : Nat) :
    (matIncr m r c).length = m.length ∧
    ∀ x, ((matIncr m r c).getD x []).length = (m.getD x []).length := by
  unfold matIncr
  exact matSet_dims m r c _

theorem sameSchedule_refl (s : State α) : SameSchedule s s :=
  ⟨rfl, rfl, rfl, rfl, rfl, rfl, rfl⟩

theorem sameSchedule_trans (s t u : State α) (h1 : SameSchedule s t)
    (h2 : SameSchedule t u) : SameSchedule s u := by
  obtain ⟨a1, a2, a3, a4, a5, a6, a7⟩ := h1
  obtain ⟨b1, b2, b3, b4, b5, b6, b7⟩ := h2
  exact ⟨b1.trans a1, b2.trans a2, b3.trans a3, b4.trans a4, b5.trans a5, b6.trans a6,
    b7.trans a7⟩

/-- A swap attempt writes neither the schedule nor, beyond the counted cell, the matrix of
attempts; the rank map is left or has the entries `j` and `k` exchanged. -/
theorem swapAttempt_fields (ex : α → α) (s : State α) (j k : Nat) (u : α) :
    SameSchedule s (swapAttempt ex s j k u) ∧
    (swapAttempt ex s j k u).numAttemptedSwaps
      = matIncr s.numAttemptedSwaps (s.heat_ranks.getD j 0) (s.heat_ranks.getD k 0) := by
  rcases swapAttempt_cases ex s j k u with h1 | h1
  · rw [h1]
    exact ⟨sameSchedule_refl s, rfl⟩
  · obtain ⟨cs, h2⟩ := applyDecision_true (countAttempt s j k) j k
    rw [h1, h2]
    exact ⟨sameSchedule_refl s, rfl⟩

theorem sync_fields (s : State α) :
    SameSchedule s (synchronizeTuningInfo (synchronizeHeats (synchronizeValues s false))) ∧
    (synchronizeTuningInfo (synchronizeHeats (synchronizeValues s false))).numAttemptedSwaps
      = s.numAttemptedSwaps ∧
    (synchronizeTuningInfo (synchronizeHeats (synchronizeValues s false))).heat_ranks
      = s.heat_ranks := by
  obtain ⟨v1, v2, v3, e⟩ := sync_frame s
  rw [e]
  exact ⟨sameSchedule_refl s, rfl, rfl⟩

/-- A swap attempt on two chain indices below `num_chains` keeps the matrices in shape
and adds one to the sum of the attempted counters. -/
theorem swapAttempt_count (ex : α → α) (s : State α) (j k : Nat) (u : α)
    (hj : j < s.num_chains) (hk : k < s.num_chains) (hC : CountersOK s) :
    CountersOK (swapAttempt ex s j k u) ∧
    matSum (swapAttempt ex s j k u).numAttemptedSwaps = matSum s.numAttemptedSwaps + 1 := by
  obtain ⟨hS, hA⟩ := swapAttempt_fields ex s j k u
  obtain ⟨hn, hr⟩ := swapAttempt_ranks ex s j k u
  have hlen : s.heat_ranks.length = s.num_chains := by simpa using hC.perm.length_eq
  have rj := getD_rank_lt s.heat_ranks s.num_chains j hC.perm hj
  have rk := getD_rank_lt s.heat_ranks s.num_chains k hC.perm hk
  obtain ⟨d1, d2⟩ := matIncr_dims s.numAttemptedSwaps (s.heat_ranks.getD j 0)
    (s.heat_ranks.getD k 0)
  refine ⟨⟨?_, ?_, ?_⟩, ?_⟩
  · rw [hn]
    rcases hr with h | h
    · rw [h]; exact hC.perm
    · rw [h]
      exact (exchange_perm _ _ _ (hlen ▸ hj) (hlen ▸ hk)).trans hC.perm
  · rw [hA, hn, d1]
    exact hC.rows
  · intro r hr2
    rw [hA, hn, d2 r]
    exact hC.cols r (hn ▸ hr2)
  · rw [hA]
    apply matSum_matIncr
    · rw [hC.rows]; exact rj
    · rw [hC.cols _ rj]; exact rk

theorem countersOK_congr (s t : State α) (h1 : t.num_chains = s.num_chains)
    (h2 : t.heat_ranks = s.heat_ranks) (h3 : t.numAttemptedSwaps = s.numAttemptedSwaps)
    (hC : CountersOK s) : CountersOK t := by
  refine ⟨?_, ?_, ?_⟩
  · rw [h1, h2]; exact hC.perm
  · rw [h1, h3]; exact hC.rows
  · intro r hr
    rw [h1, h3]
    exact hC.cols r (h1 ▸ hr)

/-- A neighbor swap with at least two chains uses two draws. -/
theorem swapChains_neighbor_eq (ex : α → α) (s : State α) (u1 u2 : α) (rest : List α)
    (hN : 2 ≤ s.num_chains) :
    swapChains ex s "neighbor" (u1 :: u2 :: rest) =
      some (swapNeighborChains ex
        (synchronizeTuningInfo (synchronizeHeats (synchronizeValues s false))) u1 u2, rest) := by
  unfold swapChains
  rw [if_neg (by omega)]
  simp

/-- A random swap with at least two chains whose draw of `k` does not repeat `j` uses
three draws. -/
theorem swapChains_random_eq (ex : α → α) (s : State α) (u1 u2 u3 : α) (rest : List α)
    (hN : 2 ≤ s.num_chains) (hne : randomIndex s u1 ≠ randomIndex s u2) :
    swapChains ex s "random" (u1 :: u2 :: u3 :: rest) =
      some (swapAttempt ex
        (synchronizeTuningInfo (synchronizeHeats (synchronizeValues s false)))
        (randomIndex s u1) (randomIndex s u2) u3, rest) := by
  have hn := (sync_fields s).1.1
  have e : ∀ u, randomIndex
      (synchronizeTuningInfo (synchronizeHeats (synchronizeValues s false))) u
      = randomIndex s u := by
    intro u
    unfold randomIndex
    rw [hn]
  unfold swapChains
  rw [if_neg (by omega)]
  dsimp only
  rw [if_neg (by decide), if_pos rfl]
  unfold swapRandomChains randomPair
  dsimp only
  rw [if_pos (by omega)]
  unfold pickOther
  dsimp only
  rw [e u1, e u2, if_neg hne]

/-- Every result of `swapChains` has the schedule of the state it was called on. -/
theorem swapChains_schedule (ex : α → α) (s : State α) (swap_method : String)
    (draws : List α) (s2 : State α) (rest : List α)
    (h : swapChains ex s swap_method draws = some (s2, rest)) : SameSchedule s s2 := by
  unfold swapChains at h
  split at h
  · simp only [Option.some.injEq, Prod.mk.injEq] at h
    rw [← h.1]
    exact sameSchedule_refl s
  · dsimp only at h
    have hs := (sync_fields s).1
    split at h
    · split at h
      · simp only [Option.some.injEq, Prod.mk.injEq] at h
        rw [← h.1]
        exact sameSchedule_trans _ _ _ hs (swapAttempt_fields ex _ _ _ _).1
      · exact absurd h (by simp)
    · split at h
      · unfold swapRandomChains at h
        split at h
        · simp only [Option.some.injEq, Prod.mk.injEq] at h
          rw [← h.1]
          exact sameSchedule_trans _ _ _ hs (swapAttempt_fields ex _ _ _ _).1
        · exact absurd h (by simp)
      · simp only [Option.some.injEq, Prod.mk.injEq] at h
        rw [← h.1]
        exact hs

/-- A call of `swapChains` with the method "neighbor" or "random", at least two chains and
draws in `[0,1)`: when it returns, one attempt has been counted and the unused draws are
in `[0,1)`. -/
theorem swapChains_count (ex : α → α) (s : State α) (swap_method : String)
    (draws : List α) (s2 : State α) (rest : List α)
    (hm : swap_method = "neighbor" ∨ swap_method = "random") (hN : 2 ≤ s.num_chains)
    (hC : CountersOK s) (hd : ∀ u ∈ draws, 0 ≤ u ∧ u < 1)
    (h : swapChains ex s swap_method draws = some (s2, rest)) :
    CountersOK s2 ∧ (∀ u ∈ rest, 0 ≤ u ∧ u < 1) ∧
    matSum s2.numAttemptedSwaps = matSum s.numAttemptedSwaps + 1 := by
  obtain ⟨hS, hA, hR⟩ := sync_fields s
  have hC2 : CountersOK (synchronizeTuningInfo (synchronizeHeats (synchronizeValues s false))) :=
    countersOK_congr s _ hS.1 hR hA hC
  have hN2 : 2 ≤ (synchronizeTuningInfo
      (synchronizeHeats (synchronizeValues s false))).num_chains := by rw [hS.1]; exact hN
  rcases hm with rfl | rfl
  · match draws, hd, h with
    | [], _, h => simp [swapChains] at h; omega
    | [_], _, h => simp [swapChains] at h; omega
    | u1 :: u2 :: r, hd, h =>
      rw [swapChains_neighbor_eq ex s u1 u2 r hN] at h
      simp only [Option.some.injEq, Prod.mk.injEq] at h
      obtain ⟨rfl, rfl⟩ := h
      have hu := hd u1 (List.mem_cons_self _ _)
      have hj := neighborIndex_lt
        (synchronizeTuningInfo (synchronizeHeats (synchronizeValues s false))) u1 hN2 hu.1 hu.2
      have := swapAttempt_count ex
        (synchronizeTuningInfo (synchronizeHeats (synchronizeValues s false)))
        (neighborIndex
          (synchronizeTuningInfo (synchronizeHeats (synchronizeValues s false))) u1)
        (neighborIndex
          (synchronizeTuningInfo (synchronizeHeats (synchronizeValues s false))) u1 + 1) u2
        (by omega) hj hC2
      refine ⟨this.1, ?_, ?_⟩
      · intro u hu2
        exact hd u (List.mem_cons_of_mem _ (List.mem_cons_of_mem _ hu2))
      · rw [← hA]
        exact this.2
  · unfold swapChains at h
    rw [if_neg (by omega)] at h
    dsimp only at h
    rw [if_neg (by decide), if_pos rfl] at h
    unfold swapRandomChains at h
    split at h
    · rename_i j k u r hp
      simp only [Option.some.injEq, Prod.mk.injEq] at h
      obtain ⟨rfl, rfl⟩ := h
      obtain ⟨hj, hk, -, hr⟩ := randomPair_spec _ hN2 draws hd j k _ hp
      have := swapAttempt_count ex _ j k u hj hk hC2
      refine ⟨this.1, fun v hv => hr v (List.mem_cons_of_mem _ hv), ?_⟩
      rw [← hA]
      exact this.2
    · exact absurd h (by simp)

theorem repeatSwaps_succ_some (body : State α → List α → Option (State α × List α))
    (n : Nat) (s : State α) (d : List α) (s2 : State α) (r : List α)
    (h : body s d = some (s2, r)) :
    repeatSwaps body (n + 1) s d = repeatSwaps body n s2 r := by
  rw [repeatSwaps, h]

theorem repeatSwaps_succ_none (body : State α → List α → Option (State α × List α))
    (n : Nat) (s : State α) (d : List α) (h : body s d = none) :
    repeatSwaps body (n + 1) s d = none := by
  rw [repeatSwaps, h]

theorem repeatSwaps_schedule (body : State α → List α → Option (State α × List α))
    (hb : ∀ s d t r, body s d = some (t, r) → SameSchedule s t) :
    ∀ (n : Nat) (s : State α) (d : List α) (t : State α) (r : List α),
      repeatSwaps body n s d = some (t, r) → SameSchedule s t := by
  intro n
  induction n with
  | zero =>
    intro s d t r h
    simp only [repeatSwaps, Option.some.injEq, Prod.mk.injEq] at h
    rw [← h.1]
    exact sameSchedule_refl s
  | succ n ih =>
    intro s d t r h
    cases hb2 : body s d with
    | none =>
      rw [repeatSwaps_succ_none body n s d hb2] at h
      exact absurd h (by simp)
    | some p =>
      obtain ⟨s2, r2⟩ := p
      rw [repeatSwaps_succ_some body n s d s2 r2 hb2] at h
      exact sameSchedule_trans _ _ _ (hb _ _ _ _ hb2) (ih _ _ _ _ h)

/-- The loop of `n` calls of `swapChains`: when it returns, `n` attempts have been
counted. -/
theorem repeatSwaps_count (ex : α → α) (swap_method : String)
    (hm : swap_method = "neighbor" ∨ swap_method = "random") :
    ∀ (n : Nat) (s : State α) (d : List α) (t : State α) (r : List α),
      2 ≤ s.num_chains → CountersOK s → (∀ u ∈ d, 0 ≤ u ∧ u < 1) →
      repeatSwaps (fun t d => swapChains ex t swap_method d) n s d = some (t, r) →
      CountersOK t ∧ (∀ u ∈ r, 0 ≤ u ∧ u < 1) ∧
      matSum t.numAttemptedSwaps = matSum s.numAttemptedSwaps + n := by
  intro n
  induction n with
  | zero =>
    intro s d t r hN hC hd h
    simp only [repeatSwaps, Option.some.injEq, Prod.mk.injEq] at h
    obtain ⟨rfl, rfl⟩ := h
    exact ⟨hC, hd, rfl⟩
  | succ n ih =>
    intro s d t r hN hC hd h
    cases hb2 : swapChains ex s swap_method d with
    | none =>
      rw [repeatSwaps_succ_none _ n s d hb2] at h
      exact absurd h (by simp)
    | some p =>
      obtain ⟨s2, r2⟩ := p
      rw [repeatSwaps_succ_some _ n s d s2 r2 hb2] at h
      obtain ⟨c1, c2, c3⟩ := swapChains_count ex s swap_method d s2 r2 hm hN hC hd hb2
      have hn := (swapChains_schedule ex s swap_method d s2 r2 hb2).1
      obtain ⟨e1, e2, e3⟩ := ih s2 r2 t r (by omega) c1 c2 h
      exact ⟨e1, e2, by omega⟩

theorem repeatSwaps_add (body : State α → List α → Option (State α × List α)) :
    ∀ (m n : Nat) (s : State α) (d : List α),
      repeatSwaps body (m + n) s d =
        match repeatSwaps body m s d with
        | some (s2, r) => repeatSwaps body n s2 r
        | none => none := by
  intro m
  induction m with
  | zero =>
    intro n s d
    simp [repeatSwaps]
  | succ m ih =>
    intro n s d
    rw [show m + 1 + n = (m + n) + 1 by omega]
    cases hb : body s d with
    | none =>
      rw [repeatSwaps_succ_none body _ s d hb, repeatSwaps_succ_none body _ s d hb]
    | some p =>
      obtain ⟨s2, r⟩ := p
      rw [repeatSwaps_succ_some body _ s d s2 r hb, repeatSwaps_succ_some body _ s d s2 r hb]
      exact ih n s2 r

/-- The double loop of the random swaps is a loop of `num_chains * num_chains` calls of
`swapChains("random")`. -/
theorem randomSwaps_flat (ex : α → α) (s : State α) (d : List α) :
    randomSwaps ex s d =
      repeatSwaps (fun t d => swapChains ex t "random" d) (s.num_chains * s.num_chains) s d := by
  unfold randomSwaps
  have key : ∀ (n : Nat) (s : State α) (d : List α),
      repeatSwaps
        (fun t d => repeatSwaps (fun t d => swapChains ex t "random" d) t.num_chains t d)
        n s d =
      repeatSwaps (fun t d => swapChains ex t "random" d) (n * s.num_chains) s d := by
    intro n
    induction n with
    | zero =>
      intro s d
      simp [repeatSwaps]
    | succ n ih =>
      intro s d
      rw [show (n + 1) * s.num_chains = s.num_chains + n * s.num_chains by ring,
        repeatSwaps_add _ s.num_chains (n * s.num_chains)]
      cases hb : repeatSwaps (fun t d => swapChains ex t "random" d) s.num_chains s d with
      | none =>
        exact repeatSwaps_succ_none
          (fun t d => repeatSwaps (fun t d => swapChains ex t "random" d) t.num_chains t d)
          n s d hb
      | some p =>
        obtain ⟨s2, r⟩ := p
        have hn := (repeatSwaps_schedule _
          (fun s d t r h => swapChains_schedule ex s "random" d t r h) _ _ _ _ _ hb).1
        rw [repeatSwaps_succ_some
          (fun t d => repeatSwaps (fun t d => swapChains ex t "random" d) t.num_chains t d)
          n s d s2 r hb, ih s2 r, hn]
  exact key s.num_chains s d

theorem advanceChains_frame (chainCycle : Bool → Chain α → Chain α) (s : State α)
    (advanceCycle : Bool) :
    ∃ cs, advanceChains chainCycle s advanceCycle = { s with chains := cs } := by
  unfold advanceChains
  refine foldl_range_induct (fun _ t => ∃ cs, t = { s with chains := cs }) _ s s.num_chains
    ⟨s.chains, rfl⟩ ?_
  rintro i t _ ⟨cs, rfl⟩
  dsimp only
  split
  · exact ⟨_, rfl⟩
  · exact ⟨_, rfl⟩

/-- The state after the chains have run and the counter of the phase has moved: only the
chains and the two generation counters have changed. -/
theorem counted_frame (chainCycle : Bool → Chain α → Chain α) (s : State α)
    (advanceCycle : Bool) :
    ∃ cs cg bg, countGeneration (advanceChains chainCycle s advanceCycle) advanceCycle =
      { s with chains := cs, current_generation := cg, burnin_generation := bg } := by
  obtain ⟨cs, e⟩ := advanceChains_frame chainCycle s advanceCycle
  rw [e]
  unfold countGeneration
  split
  · exact ⟨_, _, _, rfl⟩
  · exact ⟨_, _, _, rfl⟩

theorem counted_fields (chainCycle : Bool → Chain α → Chain α) (s : State α)
    (advanceCycle : Bool) :
    (countGeneration (advanceChains chainCycle s advanceCycle) advanceCycle).num_chains
      = s.num_chains ∧
    (countGeneration (advanceChains chainCycle s advanceCycle) advanceCycle).heat_ranks
      = s.heat_ranks ∧
    (countGeneration (advanceChains chainCycle s advanceCycle) advanceCycle).numAttemptedSwaps
      = s.numAttemptedSwaps ∧
    (countGeneration (advanceChains chainCycle s advanceCycle) advanceCycle).swap_interval
      = s.swap_interval ∧
    (countGeneration (advanceChains chainCycle s advanceCycle) advanceCycle).swap_interval2
      = s.swap_interval2 ∧
    (countGeneration (advanceChains chainCycle s advanceCycle) advanceCycle).useNeighborSwapping
      = s.useNeighborSwapping ∧
    (countGeneration (advanceChains chainCycle s advanceCycle) advanceCycle).useRandomSwapping
      = s.useRandomSwapping := by
  obtain ⟨cs, cg, bg, e⟩ := counted_frame chainCycle s advanceCycle
  rw [e]
  exact ⟨rfl, rfl, rfl, rfl, rfl, rfl, rfl⟩

/-- With a positive interval the test of the lines 391, 405, 425 and 442 is whether the
tested generation is a multiple of the interval. -/
theorem swapDue_eq (s : State α) (interval : Nat) (h : 1 ≤ interval) :
    swapDue s interval = some (decide (testedGeneration s % interval = 0)) := by
  unfold swapDue testedGeneration
  rw [if_neg (by omega)]
  congr 1
  by_cases h0 : s.current_generation = 0
  · rw [if_pos h0]
    simp [h0]
  · rw [if_neg h0]
    have : s.current_generation > 0 := by omega
    simp [h0, this]

theorem swapDue_congr (s t : State α) (interval : Nat) (h : SameSchedule s t) :
    swapDue t interval = swapDue s interval := by
  unfold swapDue
  rw [h.2.1, h.2.2.1]

/-- The loop of `n` neighbor swaps on at least two chains uses exactly `2 * n` draws and
returns when that many are at hand. -/
theorem repeatSwaps_neighbor_some (ex : α → α) :
    ∀ (n : Nat) (s : State α) (d : List α), 2 ≤ s.num_chains → 2 * n ≤ d.length →
      ∃ t, repeatSwaps (fun t d => swapChains ex t "neighbor" d) n s d
        = some (t, d.drop (2 * n)) := by
  intro n
  induction n with
  | zero =>
    intro s d _ _
    exact ⟨s, by simp [repeatSwaps]⟩
  | succ n ih =>
    intro s d hN hd
    match d, hd with
    | [], hd => simp at hd
    | [_], hd => simp at hd; omega
    | u1 :: u2 :: r, hd =>
      have e := swapChains_neighbor_eq ex s u1 u2 r hN
      have hn := (swapChains_schedule ex s "neighbor" _ _ _ e).1
      obtain ⟨t, ht⟩ := ih _ r (by rw [hn]; exact hN) (by simp at hd; omega)
      refine ⟨t, ?_⟩
      rw [repeatSwaps_succ_some (fun t d => swapChains ex t "neighbor" d) n s _ _ r e, ht]
      rw [show 2 * (n + 1) = 2 * n + 1 + 1 by ring]
      rfl

theorem randomIndex_congr (s t : State α) (h : t.num_chains = s.num_chains) (u : α) :
    randomIndex t u = randomIndex s u := by
  unfold randomIndex
  rw [h]

theorem mem_tripleDraws (ts : List (α × α × α)) (u : α) (h : u ∈ tripleDraws ts) :
    ∃ t ∈ ts, u = t.1 ∨ u = t.2.1 ∨ u = t.2.2 := by
  induction ts with
  | nil => simp [tripleDraws] at h
  | cons t ts ih =>
    simp only [tripleDraws, List.mem_cons] at h
    rcases h with h | h | h | h
    · exact ⟨t, List.mem_cons_self _ _, Or.inl h⟩
    · exact ⟨t, List.mem_cons_self _ _, Or.inr (Or.inl h)⟩
    · exact ⟨t, List.mem_cons_self _ _, Or.inr (Or.inr h)⟩
    · obtain ⟨t2, h1, h2⟩ := ih h
      exact ⟨t2, List.mem_cons_of_mem _ h1, h2⟩

/-- The loop of random swaps on at least two chains returns on draws in which no draw of
`k` repeats the index `j`, having used three draws for each swap. -/
theorem repeatSwaps_random_some (ex : α → α) :
    ∀ (ts : List (α × α × α)) (s : State α) (rest : List α), 2 ≤ s.num_chains →
      distinctDraws s ts →
      ∃ t, repeatSwaps (fun t d => swapChains ex t "random" d) ts.length s
        (tripleDraws ts ++ rest) = some (t, rest) := by
  intro ts
  induction ts with
  | nil =>
    intro s rest _ _
    exact ⟨s, by simp [repeatSwaps, tripleDraws]⟩
  | cons a ts ih =>
    intro s rest hN hd
    have hne := hd a (List.mem_cons_self _ _)
    have e := swapChains_random_eq ex s a.1 a.2.1 a.2.2 (tripleDraws ts ++ rest) hN hne
    have hn := (swapChains_schedule ex s "random" _ _ _ e).1
    have hd2 : distinctDraws
        (swapAttempt ex (synchronizeTuningInfo (synchronizeHeats (synchronizeValues s false)))
          (randomIndex s a.1) (randomIndex s a.2.1) a.2.2) ts := by
      intro t ht
      have := hd t (List.mem_cons_of_mem _ ht)
      rw [randomIndex_congr _ _ hn, randomIndex_congr _ _ hn]
      exact this
    obtain ⟨t, ht⟩ := ih _ rest (by rw [hn]; exact hN) hd2
    refine ⟨t, ?_⟩
    rw [List.length_cons,
      repeatSwaps_succ_some (fun t d => swapChains ex t "random" d) ts.length s
        (tripleDraws (a :: ts) ++ rest) _ (tripleDraws ts ++ rest) e, ht]

theorem neighborSwaps_schedule (ex : α → α) (s : State α) (d : List α) (t : State α)
    (r : List α) (h : neighborSwaps ex s d = some (t, r)) : SameSchedule s t :=
  repeatSwaps_schedule _ (fun s d t r h => swapChains_schedule ex s "neighbor" d t r h)
    _ _ _ _ _ h

/-- With positive intervals `nextCycle` is the schedule of `scheduledCycle`. -/
theorem nextCycle_scheduled (ex : α → α) (chainCycle : Bool → Chain α → Chain α)
    (s : State α) (advanceCycle : Bool) (draws : List α) (h1 : 1 ≤ s.swap_interval)
    (h2 : s.useNeighborSwapping = true → s.useRandomSwapping = true → 1 ≤ s.swap_interval2) :
    nextCycle ex chainCycle s advanceCycle draws
      = scheduledCycle ex chainCycle s advanceCycle draws := by
  obtain ⟨-, -, -, f1, f2, f3, f4⟩ := counted_fields chainCycle s advanceCycle
  unfold nextCycle scheduledCycle
  dsimp only
  generalize countGeneration (advanceChains chainCycle s advanceCycle) advanceCycle = t
    at f1 f2 f3 f4 ⊢
  have g1 : 1 ≤ t.swap_interval := by rw [f1]; exact h1
  rw [swapDue_eq t t.swap_interval g1]
  cases hn : t.useNeighborSwapping <;> cases hr : t.useRandomSwapping
  · simp
  · simp
  · simp
    by_cases hd : testedGeneration t % t.swap_interval = 0
    · simp only [hd, if_true]
      cases hs : neighborSwaps ex t draws with
      | none => rfl
      | some p => rfl
    · simp only [hd, if_false]
  · have g2 : 1 ≤ t.swap_interval2 := by
      rw [f2]
      exact h2 (by rw [← f3]; exact hn) (by rw [← f4]; exact hr)
    simp only [true_and, and_self, if_true, Option.some.injEq, decide_eq_true_eq]
    have key : ∀ (s3 : State α) (rest : List α), SameSchedule t s3 →
        (match swapDue s3 s3.swap_interval2 with
          | none => none
          | some due2 => if due2 = true then randomSwaps ex s3 rest else some (s3, rest)) =
        if testedGeneration t % t.swap_interval2 = 0 then randomSwaps ex s3 rest
        else some (s3, rest) := by
      intro s3 rest hS
      rw [hS.2.2.2.2.1, swapDue_congr t s3 _ hS, swapDue_eq t _ g2]
      simp
    by_cases hd : testedGeneration t % t.swap_interval = 0
    · simp only [hd, if_true]
      cases hs : neighborSwaps ex t draws with
      | none => rfl
      | some p =>
        obtain ⟨s3, rest⟩ := p
        exact key s3 rest (neighborSwaps_schedule ex t draws s3 rest hs)
    · simp only [hd, if_false]
      exact key t draws (sameSchedule_refl t)

theorem counted_counters (chainCycle : Bool → Chain α → Chain α) (s : State α)
    (advanceCycle : Bool) :
    (countGeneration (advanceChains chainCycle s advanceCycle) advanceCycle).current_generation
      = s.current_generation + (if advanceCycle = true then 1 else 0) ∧
    (countGeneration (advanceChains chainCycle s advanceCycle) advanceCycle).burnin_generation
      = s.burnin_generation + (if advanceCycle = true then 0 else 1) := by
  obtain ⟨cs, e⟩ := advanceChains_frame chainCycle s advanceCycle
  rw [e]
  unfold countGeneration
  cases advanceCycle
  · exact ⟨rfl, rfl⟩
  · exact ⟨rfl, rfl⟩

/-- With neighbor swapping selected, `nextCycle` is the neighbor swaps when they are due,
followed by the random swaps when random swapping is selected too and they are due. -/
theorem nextCycle_neighbor_first (ex : α → α) (chainCycle : Bool → Chain α → Chain α)
    (s : State α) (advanceCycle : Bool) (draws : List α)
    (hn : s.useNeighborSwapping = true) (h1 : 1 ≤ s.swap_interval)
    (h2 : s.useRandomSwapping = true → 1 ≤ s.swap_interval2) :
    nextCycle ex chainCycle s advanceCycle draws =
      match (if testedGeneration
            (countGeneration (advanceChains chainCycle s advanceCycle) advanceCycle)
            % s.swap_interval = 0
          then neighborSwaps ex
            (countGeneration (advanceChains chainCycle s advanceCycle) advanceCycle) draws
          else some
            (countGeneration (advanceChains chainCycle s advanceCycle) advanceCycle, draws)) with
      | none => none
      | some (s1, rest) =>
        if s.useRandomSwapping = true ∧ testedGeneration
            (countGeneration (advanceChains chainCycle s advanceCycle) advanceCycle)
            % s.swap_interval2 = 0
        then randomSwaps ex s1 rest else some (s1, rest) := by
  rw [nextCycle_scheduled ex chainCycle s advanceCycle draws h1 (fun _ h => h2 h)]
  obtain ⟨-, -, -, f1, f2, f3, f4⟩ := counted_fields chainCycle s advanceCycle
  unfold scheduledCycle
  dsimp only
  rw [f1, f2, f3, f4, hn]
  simp

/-- With random swapping alone, `nextCycle` is the random swaps when the tested generation
is a multiple of `swap_interval`. -/
theorem nextCycle_random_only (ex : α → α) (chainCycle : Bool → Chain α → Chain α)
    (s : State α) (advanceCycle : Bool) (draws : List α)
    (hn : s.useNeighborSwapping = false) (hr : s.useRandomSwapping = true)
    (h1 : 1 ≤ s.swap_interval) :
    nextCycle ex chainCycle s advanceCycle draws =
      if testedGeneration
            (countGeneration (advanceChains chainCycle s advanceCycle) advanceCycle)
            % s.swap_interval = 0
      then randomSwaps ex
        (countGeneration (advanceChains chainCycle s advanceCycle) advanceCycle) draws
      else some
        (countGeneration (advanceChains chainCycle s advanceCycle) advanceCycle, draws) := by
  rw [nextCycle_scheduled ex chainCycle s advanceCycle draws h1
    (fun h _ => absurd h (by rw [hn]; decide))]
  obtain ⟨-, -, -, f1, f2, f3, f4⟩ := counted_fields chainCycle s advanceCycle
  unfold scheduledCycle
  dsimp only
  rw [f1, f3, f4, hn, hr]
  simp

theorem counted_countersOK (chainCycle : Bool → Chain α → Chain α) (s : State α)
    (advanceCycle : Bool) (hC : CountersOK s) :
    CountersOK (countGeneration (advanceChains chainCycle s advanceCycle) advanceCycle) := by
  obtain ⟨f0, f1, f2, -⟩ := counted_fields chainCycle s advanceCycle
  exact countersOK_congr s _ f0 f1 f2 hC

theorem construct_countersOK (base : Chain α) (nc si : Nat) (dt : α) (th : Bool)
    (sm : String) (P pid apid : Nat) :
    CountersOK (construct base nc si dt th sm P pid apid) := by
  rw [construct_spec]
  refine ⟨List.Perm.refl _, ?_, ?_⟩
  · simp [blankState]
  · intro r hr
    have hr2 : r < nc := hr
    show ((List.replicate nc (List.replicate nc 0)).getD r []).length = nc
    rw [List.getD_eq_getElem _ _ (by simpa using hr2)]
    simp

/-- The neighbor swaps of one cycle, run or not: with at least two chains, draws in
`[0,1)` and two draws at hand for each chain there is a result, and `num_chains` attempts
have been counted if the swaps were run. -/
theorem neighbor_phase_count (ex : α → α) (t : State α) (d : List α) (due : Prop)
    [Decidable due] (hN : 2 ≤ t.num_chains) (hC : CountersOK t)
    (hd : ∀ u ∈ d, 0 ≤ u ∧ u < 1) (hl : 2 * t.num_chains ≤ d.length) :
    ∃ s1, (if due then neighborSwaps ex t d else some (t, d))
        = some (s1, d.drop (if due then 2 * t.num_chains else 0)) ∧
      CountersOK s1 ∧ SameSchedule t s1 ∧
      matSum s1.numAttemptedSwaps
        = matSum t.numAttemptedSwaps + (if due then t.num_chains else 0) := by
  by_cases h : due
  · simp only [h, if_true]
    obtain ⟨s1, e⟩ := repeatSwaps_neighbor_some ex t.num_chains t d hN hl
    have c := repeatSwaps_count ex "neighbor" (Or.inl rfl) t.num_chains t d s1 _ hN hC hd e
    exact ⟨s1, e, c.1, neighborSwaps_schedule ex t d s1 _ e, c.2.2⟩
  · simp only [h, if_false]
    exact ⟨t, by simp, hC, sameSchedule_refl t, rfl⟩

/-- One call of `nextCycle` with neighbor swapping selected. -/
theorem nextCycle_neighbor_count (ex : α → α) (chainCycle : Bool → Chain α → Chain α)
    (s : State α) (advanceCycle : Bool) (draws : List α)
    (hn : s.useNeighborSwapping = true) (h1 : 1 ≤ s.swap_interval)
    (h2 : s.useRandomSwapping = true → 1 ≤ s.swap_interval2)
    (hN : 2 ≤ s.num_chains) (hC : CountersOK s)
    (hd : ∀ u ∈ draws, 0 ≤ u ∧ u < 1) (hl : 2 * s.num_chains ≤ draws.length) :
    ∃ s1,
      (if testedGeneration (countedState chainCycle s advanceCycle) % s.swap_interval = 0
        then neighborSwaps ex (countedState chainCycle s advanceCycle) draws
        else some (countedState chainCycle s advanceCycle, draws))
        = some (s1, draws.drop
            (if testedGeneration (countedState chainCycle s advanceCycle) % s.swap_interval = 0
              then 2 * s.num_chains else 0)) ∧
      matSum s1.numAttemptedSwaps = matSum s.numAttemptedSwaps +
        (if testedGeneration (countedState chainCycle s advanceCycle) % s.swap_interval = 0
          then s.num_chains else 0) ∧
      nextCycle ex chainCycle s advanceCycle draws =
        (if s.useRandomSwapping = true ∧
            testedGeneration (countedState chainCycle s advanceCycle) % s.swap_interval2 = 0
          then randomSwaps ex s1 (draws.drop
            (if testedGeneration (countedState chainCycle s advanceCycle) % s.swap_interval = 0
              then 2 * s.num_chains else 0))
          else some (s1, draws.drop
            (if testedGeneration (countedState chainCycle s advanceCycle) % s.swap_interval = 0
              then 2 * s.num_chains else 0))) := by
  obtain ⟨f0, f1, f2, -⟩ := counted_fields chainCycle s advanceCycle
  have hC2 := counted_countersOK chainCycle s advanceCycle hC
  rw [nextCycle_neighbor_first ex chainCycle s advanceCycle draws hn h1 h2]
  unfold countedState
  obtain ⟨s1, e, -, -, c⟩ := neighbor_phase_count ex
    (countGeneration (advanceChains chainCycle s advanceCycle) advanceCycle) draws
    (testedGeneration (countGeneration (advanceChains chainCycle s advanceCycle) advanceCycle)
      % s.swap_interval = 0)
    (by rw [f0]; exact hN) hC2 hd (by rw [f0]; exact hl)
  rw [f0] at e
  rw [f0, f2] at c
  refine ⟨s1, e, c, ?_⟩
  rw [e]

theorem testedGeneration_first (chainCycle : Bool → Chain α → Chain α) (s : State α)
    (advanceCycle : Bool) (hc : s.current_generation = 0) (hb : s.burnin_generation = 0) :
    testedGeneration (countedState chainCycle s advanceCycle) = 1 := by
  obtain ⟨e1, e2⟩ := counted_counters chainCycle s advanceCycle
  unfold testedGeneration countedState
  rw [e1, e2, hc, hb]
  cases advanceCycle <;> simp

theorem neighborOnlyScenario_fields :
    neighborOnlyScenario.num_chains = 2 ∧ neighborOnlyScenario.useNeighborSwapping = true ∧
    neighborOnlyScenario.useRandomSwapping = false ∧ neighborOnlyScenario.swap_interval = 1 ∧
    neighborOnlyScenario.swap_interval2 = 0 ∧ neighborOnlyScenario.current_generation = 0 ∧
    neighborOnlyScenario.burnin_generation = 0 ∧
    neighborOnlyScenario.numAttemptedSwaps = [[0, 0], [0, 0]] := by
  unfold neighborOnlyScenario
  rw [construct_spec]
  refine ⟨rfl, ?_, ?_, rfl, rfl, rfl, rfl, rfl⟩
  · show decide ("neighbor" ≠ "random") = true
    decide
  · show decide ("neighbor" = "random" ∨ "neighbor" = "both") = false
    decide

theorem randomOnlyScenario_fields :
    randomOnlyScenario.num_chains = 2 ∧ randomOnlyScenario.useNeighborSwapping = false ∧
    randomOnlyScenario.useRandomSwapping = true ∧ randomOnlyScenario.swap_interval = 1 ∧
    randomOnlyScenario.swap_interval2 = 0 ∧ randomOnlyScenario.current_generation = 0 ∧
    randomOnlyScenario.burnin_generation = 0 ∧
    randomOnlyScenario.numAttemptedSwaps = [[0, 0], [0, 0]] := by
  unfold randomOnlyScenario
  rw [construct_spec]
  refine ⟨rfl, ?_, ?_, rfl, rfl, rfl, rfl, rfl⟩
  · show decide ("random" ≠ "random") = false
    decide
  · show decide ("random" = "random" ∨ "random" = "both") = true
    decide

theorem randomOnlyScenario2_fields :
    randomOnlyScenario2.num_chains = 2 ∧ randomOnlyScenario2.useNeighborSwapping = false ∧
    randomOnlyScenario2.useRandomSwapping = true ∧ randomOnlyScenario2.swap_interval = 2 ∧
    randomOnlyScenario2.swap_interval2 = 1 ∧ randomOnlyScenario2.current_generation = 0 ∧
    randomOnlyScenario2.burnin_generation = 0 ∧
    randomOnlyScenario2.numAttemptedSwaps = [[0, 0], [0, 0]] := by
  unfold randomOnlyScenario2 setSwapInterval2
  rw [construct_spec]
  refine ⟨rfl, ?_, ?_, rfl, rfl, rfl, rfl, rfl⟩
  · show decide ("random" ≠ "random") = false
    decide
  · show decide ("random" = "random" ∨ "random" = "both") = true
    decide

/-- The random swaps of one cycle on at least two chains: when the double loop returns,
`num_chains * num_chains` attempts have been counted; and it returns on draws in which no
draw of `k` repeats the index `j`. -/
theorem random_phase_count (ex : α → α) (t : State α) (hN : 2 ≤ t.num_chains)
    (hC : CountersOK t) :
    (∀ d s2 rest, (∀ u ∈ d, 0 ≤ u ∧ u < 1) → randomSwaps ex t d = some (s2, rest) →
      matSum s2.numAttemptedSwaps
        = matSum t.numAttemptedSwaps + t.num_chains * t.num_chains) ∧
    (∀ ts rest, ts.length = t.num_chains * t.num_chains → distinctDraws t ts →
      ∃ s2, randomSwaps ex t (tripleDraws ts ++ rest) = some (s2, rest)) := by
  refine ⟨?_, ?_⟩
  · intro d s2 rest hd h
    rw [randomSwaps_flat] at h
    exact (repeatSwaps_count ex "random" (Or.inr rfl) _ t d s2 rest hN hC hd h).2.2
  · intro ts rest hl hd
    rw [randomSwaps_flat, ← hl]
    exact repeatSwaps_random_some ex ts t rest hN hd

theorem random_phase_some (ex : α → α) (t : State α) (hN : 2 ≤ t.num_chains)
    (ts : List (α × α × α)) (rest : List α)
    (hl : ts.length = t.num_chains * t.num_chains) (hd : distinctDraws t ts) :
    ∃ s2, randomSwaps ex t (tripleDraws ts ++ rest) = some (s2, rest) := by
  rw [randomSwaps_flat, ← hl]
  exact repeatSwaps_random_some ex ts t rest hN hd

theorem distinctDraws_congr (s t : State α) (h : t.num_chains = s.num_chains)
    (ts : List (α × α × α)) (hd : distinctDraws s ts) : distinctDraws t ts := by
  intro x hx
  rw [randomIndex_congr s t h, randomIndex_congr s t h]
  exact hd x hx

/-- One call of `nextCycle` with random swapping selected, on a generation on which the
random swaps are due. -/
theorem nextCycle_random_count (ex : α → α) (chainCycle : Bool → Chain α → Chain α)
    (s : State α) (advanceCycle : Bool)
    (hr : s.useRandomSwapping = true) (h1 : 1 ≤ s.swap_interval)
    (h2 : s.useNeighborSwapping = true → 1 ≤ s.swap_interval2)
    (hN : 2 ≤ s.num_chains) (hC : CountersOK s)
    (hdue : testedGeneration (countedState chainCycle s advanceCycle)
      % (if s.useNeighborSwapping = true then s.swap_interval2 else s.swap_interval) = 0) :
    (∀ draws s2 rest, (∀ u ∈ draws, 0 ≤ u ∧ u < 1) →
      nextCycle ex chainCycle s advanceCycle draws = some (s2, rest) →
      matSum s2.numAttemptedSwaps = matSum s.numAttemptedSwaps +
        (if s.useNeighborSwapping = true ∧
            testedGeneration (countedState chainCycle s advanceCycle) % s.swap_interval = 0
          then s.num_chains else 0) + s.num_chains * s.num_chains) ∧
    (∀ (nd : List α) (ts : List (α × α × α)) (rest : List α),
      nd.length = (if s.useNeighborSwapping = true ∧
          testedGeneration (countedState chainCycle s advanceCycle) % s.swap_interval = 0
        then 2 * s.num_chains else 0) →
      ts.length = s.num_chains * s.num_chains → distinctDraws s ts →
      ∃ s2, nextCycle ex chainCycle s advanceCycle (nd ++ (tripleDraws ts ++ rest))
        = some (s2, rest)) := by
  obtain ⟨f0, f1, f2, -⟩ := counted_fields chainCycle s advanceCycle
  have hC2 := counted_countersOK chainCycle s advanceCycle hC
  unfold countedState at hdue ⊢
  generalize hg : testedGeneration
    (countGeneration (advanceChains chainCycle s advanceCycle) advanceCycle) = g at hdue ⊢
  cases hn : s.useNeighborSwapping
  · -- random swapping alone
    rw [hn] at hdue
    simp only [if_false, Bool.false_eq_true] at hdue
    have e : ∀ draws, nextCycle ex chainCycle s advanceCycle draws = randomSwaps ex
        (countGeneration (advanceChains chainCycle s advanceCycle) advanceCycle) draws := by
      intro draws
      rw [nextCycle_random_only ex chainCycle s advanceCycle draws hn hr h1, hg, if_pos hdue]
    obtain ⟨p1, p2⟩ := random_phase_count ex
      (countGeneration (advanceChains chainCycle s advanceCycle) advanceCycle)
      (by rw [f0]; exact hN) hC2
    rw [f0, f2] at p1
    rw [f0] at p2
    refine ⟨?_, ?_⟩
    · intro draws s2 rest hd h
      rw [e] at h
      simpa using p1 draws s2 rest hd h
    · intro nd ts rest hnd hts hdd
      simp only [Bool.false_eq_true, false_and, if_false, List.length_eq_zero] at hnd
      subst hnd
      rw [e, List.nil_append]
      exact p2 ts rest hts (distinctDraws_congr s _ f0 ts hdd)
  · -- both kinds of swaps
    rw [hn] at hdue
    simp only [if_true] at hdue
    have e : ∀ draws, nextCycle ex chainCycle s advanceCycle draws =
        match (if g % s.swap_interval = 0
          then neighborSwaps ex
            (countGeneration (advanceChains chainCycle s advanceCycle) advanceCycle) draws
          else some
            (countGeneration (advanceChains chainCycle s advanceCycle) advanceCycle, draws)) with
        | none => none
        | some (s1, rest) => randomSwaps ex s1 rest := by
      intro draws
      rw [nextCycle_neighbor_first ex chainCycle s advanceCycle draws hn h1 (fun _ => h2 hn), hg]
      simp only [hr, hdue, and_self, if_true]
    refine ⟨?_, ?_⟩
    · intro draws s2 rest hd h
      rw [e] at h
      by_cases hd1 : g % s.swap_interval = 0
      · simp only [hd1, if_true, true_and] at h ⊢
        cases hs : neighborSwaps ex
            (countGeneration (advanceChains chainCycle s advanceCycle) advanceCycle) draws with
        | none => rw [hs] at h; exact absurd h (by simp)
        | some p =>
          obtain ⟨s1, r1⟩ := p
          rw [hs] at h
          dsimp only at h
          obtain ⟨c1, c2, c3⟩ := repeatSwaps_count ex "neighbor" (Or.inl rfl) _ _ draws s1 r1
            (by rw [f0]; exact hN) hC2 hd hs
          have hS := (neighborSwaps_schedule ex _ draws s1 r1 hs).1
          rw [f0] at hS c3
          rw [f2] at c3
          have p1 := (random_phase_count ex s1 (by rw [hS]; exact hN) c1).1 r1 s2 rest c2 h
          rw [hS] at p1
          omega
      · simp only [hd1, if_false, and_false] at h ⊢
        have p1 := (random_phase_count ex _ (by rw [f0]; exact hN) hC2).1 draws s2 rest hd h
        rw [f0, f2] at p1
        simpa using p1
    · intro nd ts rest hnd hts hdd
      rw [e]
      by_cases hd1 : g % s.swap_interval = 0
      · simp only [hd1, if_true, and_self] at hnd ⊢
        obtain ⟨s1, hs⟩ := repeatSwaps_neighbor_some ex s.num_chains
          (countGeneration (advanceChains chainCycle s advanceCycle) advanceCycle)
          (nd ++ (tripleDraws ts ++ rest)) (by rw [f0]; exact hN)
          (by rw [List.length_append, hnd]; omega)
        have hs2 : neighborSwaps ex
            (countGeneration (advanceChains chainCycle s advanceCycle) advanceCycle)
            (nd ++ (tripleDraws ts ++ rest)) = some (s1, tripleDraws ts ++ rest) := by
          unfold neighborSwaps
          rw [f0, hs, ← hnd, List.drop_left]
        have hS := (neighborSwaps_schedule ex _ _ s1 _ hs2).1
        rw [f0] at hS
        rw [hs2]
        dsimp only
        exact random_phase_some ex s1 (by rw [hS]; exact hN) ts rest
          (by rw [hS]; exact hts) (distinctDraws_congr s s1 hS ts hdd)
      · simp only [hd1, if_false, and_false, List.length_eq_zero] at hnd ⊢
        subst hnd
        rw [List.nil_append]
        exact (random_phase_count ex _ (by rw [f0]; exact hN) hC2).2 ts rest
          (by rw [f0]; exact hts) (distinctDraws_congr s _ f0 ts hdd)

theorem bothScenario_fields :
    bothScenario.num_chains = 2 ∧ bothScenario.useNeighborSwapping = true ∧
    bothScenario.useRandomSwapping = true ∧ bothScenario.swap_interval = 1 ∧
    bothScenario.swap_interval2 = 1 ∧ bothScenario.current_generation = 0 ∧
    bothScenario.burnin_generation = 0 ∧
    bothScenario.numAttemptedSwaps = [[0, 0], [0, 0]] ∧ CountersOK bothScenario := by
  have hC := construct_countersOK base0 2 1 (1 / 5 : ℚ) true "both" 1 0 0
  have hC2 : CountersOK bothScenario :=
    countersOK_congr (construct base0 2 1 (1 / 5 : ℚ) true "both" 1 0 0) bothScenario
      rfl rfl rfl hC
  refine ⟨?_, ?_, ?_, ?_, rfl, ?_, ?_, ?_, hC2⟩
  all_goals unfold bothScenario setSwapInterval2
  all_goals rw [construct_spec]
  · rfl
  · show decide ("both" ≠ "random") = true
    decide
  · show decide ("both" = "random" ∨ "both" = "both") = true
    decide
  · rfl
  · rfl
  · rfl
  · rfl

theorem fourSwapDraws_distinct (s : State ℚ) (h : s.num_chains = 2) :
    distinctDraws s fourSwapDraws := by
  intro t ht
  simp only [fourSwapDraws, List.mem_cons, List.mem_singleton, List.not_mem_nil, or_false,
    or_self] at ht
  subst ht
  unfold randomIndex
  rw [h]
  norm_num

theorem fourSwapDraws_range :
    ∀ u ∈ tripleDraws fourSwapDraws, (0 : ℚ) ≤ u ∧ u < 1 := by
  intro u hu
  obtain ⟨t, ht, h⟩ := mem_tripleDraws _ u hu
  simp only [fourSwapDraws, List.mem_cons, List.mem_singleton, List.not_mem_nil, or_false,
    or_self] at ht
  subst ht
  rcases h with h | h | h <;> subst h <;> norm_num

/-- The loop of lines 1503-1517 is left at a rank between its first rank and `num_chains`,
and does not change the length of the vector of heats. -/
theorem tuneForward_bounds (ranks : List Nat) (d : List α) (N : Nat) :
    ∀ (n : Nat) (heats : List α),
      N - n ≤ (tuneForward ranks d N n heats).1 ∧ (tuneForward ranks d N n heats).1 ≤ N ∧
      (tuneForward ranks d N n heats).2.length = heats.length := by
  intro n
  induction n with
  | zero =>
    intro heats
    exact ⟨by simp [tuneForward], by simp [tuneForward], by simp [tuneForward]⟩
  | succ n ih =>
    intro heats
    simp only [tuneForward]
    split
    · exact ⟨le_refl _, by omega, by simp⟩
    · obtain ⟨a, b, c⟩ := ih (heats.set (chainOfRank ranks (N - (n + 1)))
        (heats.getD (chainOfRank ranks (N - (n + 1) - 1)) 0 - d.getD (N - (n + 1) - 1) 0))
      exact ⟨by omega, b, by rw [c]; simp⟩

theorem forwardPass_bounds (s : State α) (hN : 2 ≤ s.num_chains) :
    1 ≤ (forwardPass s).1 ∧ (forwardPass s).1 ≤ s.num_chains ∧
    (forwardPass s).2.length = s.chain_heats.length := by
  obtain ⟨a, b, c⟩ := tuneForward_bounds s.heat_ranks (tuneGaps s (heatsDiff s)) s.num_chains
    (s.num_chains - 1) s.chain_heats
  exact ⟨by unfold forwardPass; omega, b, c⟩

theorem tunedHeats_interpolated (pw : α → α → α) (s : State α)
    (hj : (forwardPass s).1 < s.num_chains) :
    tunedHeats pw s
      = tuneInterpolate pw s.heat_ranks s.num_chains (forwardPass s).1 (forwardPass s).2 := by
  unfold forwardPass at hj ⊢
  unfold tunedHeats
  dsimp only
  rw [if_pos hj]

theorem floorScenario_fields :
    (floorScenario : State α).num_chains = 2 ∧ (floorScenario : State α).tune_heat = true ∧
    (floorScenario : State α).heat_ranks = [0, 1] ∧
    (floorScenario : State α).chain_heats = [1, 1 / 200] ∧
    (floorScenario : State α).numAttemptedSwaps = [[0, 0], [0, 0]] ∧
    (floorScenario : State α).numAcceptedSwaps = [[0, 0], [0, 0]] := by
  unfold floorScenario
  rw [initializeChains_spec _ rfl rfl rfl rfl rfl]
  refine ⟨rfl, rfl, rfl, ?_, rfl, rfl⟩
  show (List.range 2).map (initialHeat _) = _
  simp [List.range_succ, initialHeat, setHeatsInitial, blankState]

theorem floorScenario_forwardPass :
    forwardPass (floorScenario : State α) = (1, [1, 1 / 200]) := by
  obtain ⟨f1, f2, f3, f4, f5, f6⟩ := floorScenario_fields (α := α)
  have hd : heatsDiff (floorScenario : State α) = [199 / 200] := by
    unfold heatsDiff
    rw [f1, f3, f4]
    show List.foldl _ [0] [1] = _
    simp only [List.foldl_cons, List.foldl_nil, chainOfRank]
    norm_num [List.indexOf_cons]
  have hg : tuneGaps (floorScenario : State α) [199 / 200] = [199 / 200] := by
    unfold tuneGaps
    rw [f1]
    show List.foldl _ _ [1] = _
    simp only [List.foldl_cons, List.foldl_nil, tuneGap, f5, matGet]
    simp
  unfold forwardPass
  rw [hd, hg, f1, f3, f4]
  show tuneForward [0, 1] [199 / 200] 2 (0 + 1) [1, 1 / 200] = _
  rw [tuneForward]
  simp only [chainOfRank]
  norm_num [List.indexOf_cons, heatMinBound]

theorem floorTieScenario_fields :
    (floorTieScenario : State α).num_chains = 4 ∧
    (floorTieScenario : State α).tune_heat = true ∧
    (floorTieScenario : State α).heat_ranks = [0, 1, 2, 3] ∧
    (floorTieScenario : State α).chain_heats = [1, 3 / 256, 1 / 100, 1 / 200] ∧
    (floorTieScenario : State α).numAttemptedSwaps
      = [[0, 0, 0, 0], [0, 0, 0, 0], [0, 0, 0, 0], [0, 0, 0, 0]] ∧
    (floorTieScenario : State α).numAcceptedSwaps
      = [[0, 0, 0, 0], [0, 0, 0, 0], [0, 0, 0, 0], [0, 0, 0, 0]] := by
  unfold floorTieScenario
  rw [initializeChains_spec _ rfl rfl rfl rfl rfl]
  refine ⟨rfl, rfl, rfl, ?_, rfl, rfl⟩
  show (List.range 4).map (initialHeat _) = _
  simp [List.range_succ, initialHeat, setHeatsInitial, blankState]

theorem floorTieScenario_forwardPass :
    forwardPass (floorTieScenario : State α) = (3, [1, 3 / 256, 1 / 100, 1 / 200]) := by
  obtain ⟨f1, f2, f3, f4, f5, f6⟩ := floorTieScenario_fields (α := α)
  have hd : heatsDiff (floorTieScenario : State α) = [253 / 256, 11 / 6400, 1 / 200] := by
    unfold heatsDiff
    rw [f1, f3, f4]
    show List.foldl _ [0, 0, 0] [1, 2, 3] = _
    simp only [List.foldl_cons, List.foldl_nil, chainOfRank]
    norm_num [List.indexOf_cons]
  have hg : tuneGaps (floorTieScenario : State α) [253 / 256, 11 / 6400, 1 / 200]
      = [253 / 256, 11 / 6400, 1 / 200] := by
    unfold tuneGaps
    rw [f1]
    show List.foldl _ _ [1, 2, 3] = _
    simp only [List.foldl_cons, List.foldl_nil, tuneGap, f5, matGet]
    simp
  unfold forwardPass
  rw [hd, hg, f1, f3, f4]
  show tuneForward [0, 1, 2, 3] [253 / 256, 11 / 6400, 1 / 200] 4 (2 + 1)
    [1, 3 / 256, 1 / 100, 1 / 200] = _
  rw [tuneForward]
  simp only [chainOfRank]
  norm_num [List.indexOf_cons, heatMinBound]
  rw [tuneForward]
  simp only [chainOfRank]
  norm_num [List.indexOf_cons, heatMinBound]
  rw [tuneForward]
  simp only [chainOfRank]
  norm_num [List.indexOf_cons, heatMinBound]

/-- With the leader at rank `0`, the first process of chain `i` is `floor(i * P / N)`. -/
theorem active_pid_eq (s : State α) (i : Nat) (hA : s.active_PID = 0) :
    active_pid_for_chain s i = i * s.num_processes / s.num_chains := by
  unfold active_pid_for_chain processors_per_chain
  rw [hA, Nat.add_zero, ← mul_div_assoc, ← Nat.cast_mul, Nat.floor_div_eq_div]

/-- The number of processes of chain `i` before it is forced to at least one. -/
theorem num_processer_eq (s : State α) (i : Nat) (hA : s.active_PID = 0) :
    num_processer_for_chain s i =
      if (i + 1) * s.num_processes / s.num_chains - i * s.num_processes / s.num_chains < 1
      then 1
      else (i + 1) * s.num_processes / s.num_chains - i * s.num_processes / s.num_chains := by
  have h1 := active_pid_eq s i hA
  have h2 := active_pid_eq s (i + 1) hA
  unfold active_pid_for_chain at h2
  unfold num_processer_for_chain
  dsimp only
  rw [h2, h1]

theorem pid_mono (P N i j : Nat) (h : i ≤ j) : i * P / N ≤ j * P / N :=
  Nat.div_le_div_right (Nat.mul_le_mul_right P h)

theorem pid_lt (P N i : Nat) (hP : 1 ≤ P) (hN : 1 ≤ N) (hi : i < N) : i * P / N < P := by
  rw [Nat.div_lt_iff_lt_mul (by omega)]
  have h1 : i * P < N * P := Nat.mul_lt_mul_of_pos_right hi (by omega)
  rw [Nat.mul_comm P N]
  exact h1

theorem pid_last (P N : Nat) (hN : 1 ≤ N) : N * P / N = P :=
  Nat.mul_div_cancel_left P (by omega)

/-- With at least as many processes as chains the first processes of consecutive chains
differ. -/
theorem pid_step (P N i : Nat) (hN : 1 ≤ N) (hPN : N ≤ P) :
    i * P / N + 1 ≤ (i + 1) * P / N := by
  have e : (i + 1) * P = i * P + P := by ring
  rw [e]
  calc i * P / N + 1 = (i * P + N) / N := by
        rw [Nat.add_div_right _ (by omega)]
    _ ≤ (i * P + P) / N := Nat.div_le_div_right (by omega)

/-- Consecutive ranges that start at `0` and end at `P` cover every process below `P`. -/
theorem pid_cover (P N : Nat) (hN : 1 ≤ N) (q : Nat) (hq : q < P) :
    ∃ i, i < N ∧ i * P / N ≤ q ∧ q < (i + 1) * P / N := by
  have key : ∀ n, n ≤ N → q < n * P / N → ∃ i, i < n ∧ i * P / N ≤ q ∧ q < (i + 1) * P / N := by
    intro n
    induction n with
    | zero =>
      intro _ h
      simp at h
    | succ n ih =>
      intro hn h
      by_cases hc : q < n * P / N
      · obtain ⟨i, h1, h2, h3⟩ := ih (by omega) hc
        exact ⟨i, by omega, h2, h3⟩
      · exact ⟨n, by omega, by omega, h⟩
  obtain ⟨i, h1, h2, h3⟩ := key N (le_refl _) (by rw [pid_last P N hN]; exact hq)
  exact ⟨i, h1, h2, h3⟩

/-- With the leader at rank `0` and at least as many processes as chains, the range of
chain `i` ends where the range of chain `i + 1` begins. -/
theorem range_end (s : State α) (i : Nat) (hA : s.active_PID = 0) (hN : 1 ≤ s.num_chains)
    (hPN : s.num_chains ≤ s.num_processes) :
    active_pid_for_chain s i + num_processer_for_chain s i
      = (i + 1) * s.num_processes / s.num_chains := by
  have h := pid_step s.num_processes s.num_chains i hN hPN
  rw [active_pid_eq s i hA, num_processer_eq s i hA, if_neg (by omega)]
  omega

/-- The range of chain `i` with the leader at rank `0`, whatever the numbers of processes
and chains: it ends at `floor((i+1) * P / N)` or one past its beginning, whichever is the
larger. -/
theorem range_end_le (s : State α) (i : Nat) (hA : s.active_PID = 0) :
    active_pid_for_chain s i + num_processer_for_chain s i
      = max ((i + 1) * s.num_processes / s.num_chains)
          (i * s.num_processes / s.num_chains + 1) := by
  have h := pid_mono s.num_processes s.num_chains i (i + 1) (by omega)
  rw [active_pid_eq s i hA, num_processer_eq s i hA]
  split <;> omega

theorem randomSwaps_schedule (ex : α → α) (s : State α) (d : List α) (t : State α)
    (r : List α) (h : randomSwaps ex s d = some (t, r)) : SameSchedule s t := by
  rw [randomSwaps_flat] at h
  exact repeatSwaps_schedule _ (fun s d t r h => swapChains_schedule ex s "random" d t r h)
    _ _ _ _ _ h

/-- Whatever the swaps of a cycle do, what `nextCycle` returns has the schedule, the
generation counters included, of the state in which the counter of the phase has moved. -/
theorem nextCycle_schedule (ex : α → α) (chainCycle : Bool → Chain α → Chain α)
    (s : State α) (advanceCycle : Bool) (draws : List α) (s2 : State α) (rest : List α)
    (h : nextCycle ex chainCycle s advanceCycle draws = some (s2, rest)) :
    SameSchedule (countedState chainCycle s advanceCycle) s2 := by
  unfold nextCycle at h
  unfold countedState
  dsimp only at h
  generalize countGeneration (advanceChains chainCycle s advanceCycle) advanceCycle = t at h ⊢
  have idc : ∀ (t2 : State α) (r2 : List α), some (t, draws) = some (t2, r2) →
      SameSchedule t t2 := by
    intro t2 r2 e
    simp only [Option.some.injEq, Prod.mk.injEq] at e
    rw [← e.1]
    exact sameSchedule_refl t
  split at h
  · split at h
    · exact absurd h (by simp)
    · rename_i due1 _
      split at h
      · exact absurd h (by simp)
      · rename_i s3 r3 hs3
        have hS : SameSchedule t s3 := by
          by_cases hd : due1 = true
          · rw [if_pos hd] at hs3
            exact neighborSwaps_schedule ex t draws s3 r3 hs3
          · rw [if_neg hd] at hs3
            exact idc s3 r3 hs3
        split at h
        · exact absurd h (by simp)
        · rename_i due2 _
          by_cases hd : due2 = true
          · rw [if_pos hd] at h
            exact sameSchedule_trans _ _ _ hS (randomSwaps_schedule ex s3 r3 s2 rest h)
          · rw [if_neg hd] at h
            simp only [Option.some.injEq, Prod.mk.injEq] at h
            rw [← h.1]
            exact hS
  · split at h
    · split at h
      · exact absurd h (by simp)
      · rename_i due1 _
        by_cases hd : due1 = true
        · rw [if_pos hd] at h
          exact neighborSwaps_schedule ex t draws s2 rest h
        · rw [if_neg hd] at h
          exact idc s2 rest h
    · split at h
      · split at h
        · exact absurd h (by simp)
        · rename_i due1 _
          by_cases hd : due1 = true
          · rw [if_pos hd] at h
            exact randomSwaps_schedule ex t draws s2 rest h
          · rw [if_neg hd] at h
            exact idc s2 rest h
      · exact idc s2 rest h

/-- With both kinds of swaps selected and `swap_interval2` zero, the second interval test
of `nextCycle` has no value. -/
theorem nextCycle_both_undefined (ex : α → α) (chainCycle : Bool → Chain α → Chain α)
    (s : State α) (advanceCycle : Bool) (draws : List α)
    (hn : s.useNeighborSwapping = true) (hr : s.useRandomSwapping = true)
    (h2 : s.swap_interval2 = 0) :
    nextCycle ex chainCycle s advanceCycle draws = none := by
  obtain ⟨-, -, -, -, f2, f3, f4⟩ := counted_fields chainCycle s advanceCycle
  unfold nextCycle
  dsimp only
  generalize countGeneration (advanceChains chainCycle s advanceCycle) advanceCycle = t
    at f2 f3 f4 ⊢
  rw [if_pos ⟨by rw [f3]; exact hn, by rw [f4]; exact hr⟩]
  split
  · rfl
  · rename_i due1 _
    split
    · rfl
    · rename_i s3 r3 hs3
      have hS : SameSchedule t s3 := by
        by_cases hd : due1 = true
        · rw [if_pos hd] at hs3
          exact neighborSwaps_schedule ex t draws s3 r3 hs3
        · rw [if_neg hd] at hs3
          simp only [Option.some.injEq, Prod.mk.injEq] at hs3
          rw [← hs3.1]
          exact sameSchedule_refl t
      have e : s3.swap_interval2 = 0 := by rw [hS.2.2.2.2.1, f2, h2]
      rw [e]
      rfl

/-- The generation that the interval tests compare after a call has moved its counter. -/
theorem testedGeneration_counted (chainCycle : Bool → Chain α → Chain α) (s : State α)
    (advanceCycle : Bool) :
    testedGeneration (countedState chainCycle s advanceCycle) =
      if advanceCycle = true then s.current_generation + 1
      else if s.current_generation = 0 then s.burnin_generation + 1
      else s.current_generation := by
  obtain ⟨e1, e2⟩ := counted_counters chainCycle s advanceCycle
  unfold testedGeneration countedState
  rw [e1, e2]
  cases advanceCycle
  · simp
  · simp

/-- With neighbor swapping alone, a call of `nextCycle` on a generation that is not a
multiple of `swap_interval` returns the state in which the counter has moved, and all the
draws. -/
theorem nextCycle_not_due (ex : α → α) (chainCycle : Bool → Chain α → Chain α)
    (s : State α) (advanceCycle : Bool) (draws : List α)
    (hn : s.useNeighborSwapping = true) (hr : s.useRandomSwapping = false)
    (h1 : 1 ≤ s.swap_interval)
    (hnd : testedGeneration (countedState chainCycle s advanceCycle) % s.swap_interval ≠ 0) :
    nextCycle ex chainCycle s advanceCycle draws
      = some (countedState chainCycle s advanceCycle, draws) := by
  rw [nextCycle_neighbor_first ex chainCycle s advanceCycle draws hn h1
    (fun h => absurd h (by rw [hr]; decide))]
  unfold countedState at hnd ⊢
  rw [if_neg hnd]
  simp [hr]

theorem countedState_fields (chainCycle : Bool → Chain α → Chain α) (s : State α)
    (advanceCycle : Bool) :
    (countedState chainCycle s advanceCycle).num_chains = s.num_chains ∧
    (countedState chainCycle s advanceCycle).numAttemptedSwaps = s.numAttemptedSwaps ∧
    (countedState chainCycle s advanceCycle).swap_interval = s.swap_interval ∧
    (countedState chainCycle s advanceCycle).useNeighborSwapping = s.useNeighborSwapping ∧
    (countedState chainCycle s advanceCycle).useRandomSwapping = s.useRandomSwapping ∧
    (countedState chainCycle s advanceCycle).current_generation
      = s.current_generation + (if advanceCycle = true then 1 else 0) ∧
    (countedState chainCycle s advanceCycle).burnin_generation
      = s.burnin_generation + (if advanceCycle = true then 0 else 1) := by
  obtain ⟨f0, -, f2, f3, -, f5, f6⟩ := counted_fields chainCycle s advanceCycle
  obtain ⟨e1, e2⟩ := counted_counters chainCycle s advanceCycle
  exact ⟨f0, f2, f3, f5, f6, e1, e2⟩

theorem intervalTwoScenario_fields :
    intervalTwoScenario.num_chains = 2 ∧ intervalTwoScenario.useNeighborSwapping = true ∧
    intervalTwoScenario.useRandomSwapping = false ∧ intervalTwoScenario.swap_interval = 2 ∧
    intervalTwoScenario.current_generation = 0 ∧
    intervalTwoScenario.burnin_generation = 0 := by
  unfold intervalTwoScenario
  rw [construct_spec]
  refine ⟨rfl, ?_, ?_, rfl, rfl, rfl⟩
  · show decide ("neighbor" ≠ "random") = true
    decide
  · show decide ("neighbor" = "random" ∨ "neighbor" = "both") = false
    decide

/-- One sampling cycle and two burn-in cycles after it on two chains with
`swap_interval = 2`: every call returns the state in which its counter has moved, with
all the draws. -/
theorem intervalTwo_cycles (d : List ℚ) :
    nextCycle expStub (fun _ c => c) intervalTwoScenario true d
      = some (countedState (fun _ c => c) intervalTwoScenario true, d) ∧
    nextCycle expStub (fun _ c => c) (countedState (fun _ c => c) intervalTwoScenario true)
        false d
      = some (countedState (fun _ c => c)
          (countedState (fun _ c => c) intervalTwoScenario true) false, d) ∧
    nextCycle expStub (fun _ c => c)
        (countedState (fun _ c => c)
          (countedState (fun _ c => c) intervalTwoScenario true) false) false d
      = some (countedState (fun _ c => c)
          (countedState (fun _ c => c)
            (countedState (fun _ c => c) intervalTwoScenario true) false) false, d) ∧
    (countedState (fun _ c => c) (countedState (fun _ c => c)
      (countedState (fun _ c => c) intervalTwoScenario true) false) false).burnin_generation
      = 2 ∧
    (countedState (fun _ c => c) (countedState (fun _ c => c)
      (countedState (fun _ c => c) intervalTwoScenario true) false) false).current_generation
      = 1 ∧
    (countedState (fun _ c => c) (countedState (fun _ c => c)
      (countedState (fun _ c => c) intervalTwoScenario true) false) false).swap_interval
      = 2 ∧
    (countedState (fun _ c => c) (countedState (fun _ c => c)
      (countedState (fun _ c => c) intervalTwoScenario true) false) false).numAttemptedSwaps
      = intervalTwoScenario.numAttemptedSwaps := by
  obtain ⟨f1, f2, f3, f4, f5, f6⟩ := intervalTwoScenario_fields
  have first := nextCycle_not_due expStub (fun _ c => c) intervalTwoScenario true d f2 f3
    (by rw [f4]; decide)
    (by rw [testedGeneration_counted, f5, f4]; decide)
  obtain ⟨a0, a1, a2, a3, a4, a5, a6⟩ :=
    countedState_fields (fun _ c => c) intervalTwoScenario true
  rw [f4] at a2
  rw [f2] at a3
  rw [f3] at a4
  rw [f5] at a5
  rw [f6] at a6
  simp only [if_true] at a5 a6
  generalize countedState (fun _ c => c) intervalTwoScenario true = s1 at *
  obtain ⟨b0, b1, b2, b3, b4, b5, b6⟩ := countedState_fields (fun _ c => c) s1 false
  rw [a2] at b2
  rw [a3] at b3
  rw [a4] at b4
  rw [a5] at b5
  rw [a6] at b6
  simp only [Bool.false_eq_true, if_false] at b5 b6
  have t2 := testedGeneration_counted (fun _ c => c) s1 false
  rw [a5] at t2
  simp only [Bool.false_eq_true, if_false] at t2
  generalize hs2 : countedState (fun _ c => c) s1 false = s2 at *
  obtain ⟨c0, c1, c2, c3, c4, c5, c6⟩ := countedState_fields (fun _ c => c) s2 false
  rw [b2] at c2
  rw [b5] at c5
  rw [b6] at c6
  simp only [Bool.false_eq_true, if_false] at c5 c6
  have t3 := testedGeneration_counted (fun _ c => c) s2 false
  rw [b5] at t3
  simp only [Bool.false_eq_true, if_false] at t3
  refine ⟨?_, ?_, ?_, by rw [c6], by rw [c5], c2, by rw [c1, b1, a1]⟩
  · exact first
  · rw [← hs2]
    exact nextCycle_not_due expStub (fun _ c => c) s1 false d a3 a4 (by rw [a2]; decide)
      (by rw [hs2, t2, a2]; norm_num)
  · exact nextCycle_not_due expStub (fun _ c => c) s2 false d b3 b4 (by rw [b2]; decide)
      (by rw [t3, b2]; norm_num)

theorem swapAttempt_accepted (ex : α → α) (s : State α) (j k : Nat) (u : α) :
    (swapAttempt ex s j k u).numAcceptedSwaps = s.numAcceptedSwaps ∨
    (swapAttempt ex s j k u).numAcceptedSwaps
      = matIncr s.numAcceptedSwaps (s.heat_ranks.getD j 0) (s.heat_ranks.getD k 0) := by
  rcases swapAttempt_cases ex s j k u with h1 | h1
  · rw [h1]
    exact Or.inl rfl
  · obtain ⟨cs, h2⟩ := applyDecision_true (countAttempt s j k) j k
    rw [h1, h2]
    exact Or.inr rfl

theorem rank_injective (ranks : List Nat) (n j k : Nat) (hp : ranks.Perm (List.range n))
    (hj : j < n) (hk : k < n) (hjk : j ≠ k) : ranks.getD j 0 ≠ ranks.getD k 0 := by
  intro h
  apply hjk
  rw [← chainOfRank_getD ranks n j hp hj, ← chainOfRank_getD ranks n k hp hk, h]

theorem countsInv_congr (s t : State α) (h1 : t.num_chains = s.num_chains)
    (h2 : t.heat_ranks = s.heat_ranks) (h3 : t.numAttemptedSwaps = s.numAttemptedSwaps)
    (h4 : t.numAcceptedSwaps = s.numAcceptedSwaps) (hI : CountsInv s) : CountsInv t := by
  refine ⟨countersOK_congr s t h1 h2 h3 hI.ok, ?_, ?_, ?_, ?_⟩
  · rw [h1, h4]; exact hI.rowsA
  · intro r hr
    rw [h1, h4]
    exact hI.colsA r (h1 ▸ hr)
  · intro r c
    rw [h3, h4]
    exact hI.le r c
  · intro i
    rw [h3]
    exact hI.diag i

/-- A swap attempt on two distinct chain indices below `num_chains` keeps the accepted
counts below the attempted counts and the diagonal empty. -/
theorem swapAttempt_countsInv (ex : α → α) (s : State α) (j k : Nat) (u : α)
    (hj : j < s.num_chains) (hk : k < s.num_chains) (hjk : j ≠ k) (hI : CountsInv s) :
    CountsInv (swapAttempt ex s j k u) := by
  obtain ⟨hS, hA⟩ := swapAttempt_fields ex s j k u
  obtain ⟨hC2, -⟩ := swapAttempt_count ex s j k u hj hk hI.ok
  have hn := hS.1
  have rj := getD_rank_lt s.heat_ranks s.num_chains j hI.ok.perm hj
  have rk := getD_rank_lt s.heat_ranks s.num_chains k hI.ok.perm hk
  have rne := rank_injective s.heat_ranks s.num_chains j k hI.ok.perm hj hk hjk
  have gA : ∀ r c, matGet (swapAttempt ex s j k u).numAttemptedSwaps r c
      = matGet s.numAttemptedSwaps r c
        + if s.heat_ranks.getD j 0 = r ∧ s.heat_ranks.getD k 0 = c then 1 else 0 := by
    intro r c
    rw [hA]
    exact matGet_matIncr _ _ _ _ _ (by rw [hI.ok.rows]; exact rj)
      (by rw [hI.ok.cols _ rj]; exact rk)
  have gB : ∀ r c, matGet
      (matIncr s.numAcceptedSwaps (s.heat_ranks.getD j 0) (s.heat_ranks.getD k 0)) r c
      = matGet s.numAcceptedSwaps r c
        + if s.heat_ranks.getD j 0 = r ∧ s.heat_ranks.getD k 0 = c then 1 else 0 := by
    intro r c
    exact matGet_matIncr _ _ _ _ _ (by rw [hI.rowsA]; exact rj)
      (by rw [hI.colsA _ rj]; exact rk)
  obtain ⟨d1, d2⟩ := matIncr_dims s.numAcceptedSwaps (s.heat_ranks.getD j 0)
    (s.heat_ranks.getD k 0)
  refine ⟨hC2, ?_, ?_, ?_, ?_⟩
  · rcases swapAttempt_accepted ex s j k u with h | h
    · rw [h, hn]; exact hI.rowsA
    · rw [h, hn, d1]; exact hI.rowsA
  · intro r hr
    rw [hn] at hr ⊢
    rcases swapAttempt_accepted ex s j k u with h | h
    · rw [h]; exact hI.colsA r hr
    · rw [h, d2 r]; exact hI.colsA r hr
  · intro r c
    have := hI.le r c
    rcases swapAttempt_accepted ex s j k u with h | h
    · rw [h, gA r c]
      omega
    · rw [h, gA r c, gB r c]
      omega
  · intro i
    rw [gA i i, hI.diag i, if_neg]
    rintro ⟨e1, e2⟩
    exact rne (e1.trans e2.symm)

theorem resetCounters_countsInv (s : State α) (hI : CountsInv s) :
    CountsInv (resetCounters s) := by
  obtain ⟨a, b, e⟩ := resetCounters_frame s
  obtain ⟨z1, z2, ⟨d1, d2⟩, ⟨d3, d4⟩⟩ := resetCounters_spec s
  have hn : (resetCounters s).num_chains = s.num_chains := by rw [e]
  have hr : (resetCounters s).heat_ranks = s.heat_ranks := by rw [e]
  refine ⟨⟨?_, ?_, ?_⟩, ?_, ?_, ?_, ?_⟩
  · rw [hn, hr]; exact hI.ok.perm
  · rw [hn, d1]; exact hI.ok.rows
  · intro r hr2
    rw [hn] at hr2 ⊢
    rw [d2 r]
    exact hI.ok.cols r hr2
  · rw [hn, d3]; exact hI.rowsA
  · intro r hr2
    rw [hn] at hr2 ⊢
    rw [d4 r]
    exact hI.colsA r hr2
  · intro r c
    rw [z1 r c, z2 r c]
    split
    · exact le_refl _
    · exact hI.le r c
  · intro i
    rw [z1 i i]
    split
    · rfl
    · exact hI.diag i

theorem tune_countsInv (pw : α → α → α) (f : List (TuningInfo α) → List (TuningInfo α))
    (s : State α) (hI : CountsInv s) : CountsInv (tune pw f s) := by
  unfold tune
  dsimp only
  split
  · have h1 : CountsInv { s with chain_heats := tunedHeats pw s } :=
      countsInv_congr s _ rfl rfl rfl rfl hI
    have h2 := resetCounters_countsInv _ h1
    generalize resetCounters { s with chain_heats := tunedHeats pw s } = t at h2 ⊢
    obtain ⟨cs, e⟩ := pushTuneState_frame f t
    rw [e]
    exact countsInv_congr t _ rfl rfl rfl rfl h2
  · obtain ⟨cs, e⟩ := pushTuneState_frame f s
    rw [e]
    exact countsInv_congr s _ rfl rfl rfl rfl hI

theorem step_countsInv (ex : α → α) (pw : α → α → α) (s s2 : State α)
    (h : Step ex pw s s2) (hI : CountsInv s) : CountsInv s2 := by
  cases h with
  | swap swap_method draws _ rest hd hs =>
    obtain ⟨hS, hA, hR⟩ := sync_fields s
    obtain ⟨v1, v2, v3, e⟩ := sync_frame s
    have hI2 : CountsInv (synchronizeTuningInfo (synchronizeHeats (synchronizeValues s false))) := by
      rw [e]
      exact countsInv_congr s _ rfl rfl rfl rfl hI
    rcases swapChains_cases ex s swap_method draws s2 rest hd hs with
      ⟨_, rfl⟩ | ⟨hN, rfl | ⟨j, k, u, hj, hk, hjk, rfl⟩⟩
    · exact hI
    · exact hI2
    · exact swapAttempt_countsInv ex _ j k u (by rw [hS.1]; exact hj) (by rw [hS.1]; exact hk)
        hjk hI2
  | tune f => exact tune_countsInv pw f s hI
  | resetCounters => exact resetCounters_countsInv s hI
  | advance cs2 cg bg hc => exact countsInv_congr s _ rfl rfl rfl rfl hI

theorem reachable_countsInv (ex : α → α) (pw : α → α → α) (s0 s : State α)
    (h : Reachable ex pw s0 s) (hI : CountsInv s0) : CountsInv s := by
  induction h with
  | refl => exact hI
  | tail _ hstep ih => exact step_countsInv ex pw _ _ hstep ih

theorem construct_countsInv (base : Chain α) (nc si : Nat) (dt : α) (th : Bool)
    (sm : String) (P pid apid : Nat) :
    CountsInv (construct base nc si dt th sm P pid apid) := by
  have hC := construct_countersOK base nc si dt th sm P pid apid
  have hz : ∀ r c, matGet (List.replicate nc (List.replicate nc 0)) r c = 0 := by
    intro r c
    have e : (List.replicate nc (List.replicate nc 0)).getD r []
        = if r < nc then List.replicate nc 0 else [] := by
      by_cases hr : r < nc
      · rw [if_pos hr, List.getD_eq_getElem _ _ (by simpa using hr)]
        simp
      · rw [if_neg hr, List.getD_eq_default _ _ (by simpa using hr)]
    unfold matGet
    rw [e]
    split
    · by_cases hc : c < nc
      · rw [List.getD_eq_getElem _ _ (by simpa using hc)]
        simp
      · rw [List.getD_eq_default _ _ (by simpa using hc)]
    · rfl
  refine ⟨hC, ?_, ?_, ?_, ?_⟩
  all_goals rw [construct_spec]
  · simp [blankState]
  · intro r hr
    have hr2 : r < nc := hr
    show ((List.replicate nc (List.replicate nc 0)).getD r []).length = nc
    rw [List.getD_eq_getElem _ _ (by simpa using hr2)]
    simp
  · intro r c
    show matGet (List.replicate nc (List.replicate nc 0)) r c
      ≤ matGet (List.replicate nc (List.replicate nc 0)) r c
    exact le_refl _
  · intro i
    exact hz i i

/-- On the coordinator the swap of the build with `RB_MPI` is the swap of the build
without it, and the tuple sent is the pair drawn and the decision computed there. -/
theorem swapNeighborChainsMPI_coordinator (ex : α → α) (s : State α) (u1 u2 : α)
    (r : Nat × Nat × Bool) (h : s.active_PID = s.pid) :
    swapNeighborChainsMPI ex s u1 u2 r =
      (swapNeighborChains ex s u1 u2,
        (neighborIndex s u1, neighborIndex s u1 + 1,
          acceptTest ex (lnR s (neighborIndex s u1) (neighborIndex s u1 + 1)) u2)) := by
  unfold swapNeighborChainsMPI
  dsimp only
  rw [if_pos h]
  rfl

/-- On another process the attempt is counted on the pair drawn there and the decision
applied is the one received. -/
theorem swapNeighborChainsMPI_worker (ex : α → α) (s : State α) (u1 u2 : α)
    (r : Nat × Nat × Bool) (h : s.active_PID ≠ s.pid) :
    swapNeighborChainsMPI ex s u1 u2 r =
      (applyDecision (countAttempt s (neighborIndex s u1) (neighborIndex s u1 + 1))
        r.1 r.2.1 r.2.2, r) := by
  unfold swapNeighborChainsMPI
  dsimp only
  rw [if_neg h]

theorem mpiCoordinator_fields :
    mpiCoordinator.num_chains = 3 ∧ mpiCoordinator.active_PID = 0 ∧ mpiCoordinator.pid = 0 ∧
    mpiCoordinator.heat_ranks = [0, 1, 2] ∧ mpiCoordinator.chain_heats = [1, 5 / 6, 5 / 7] ∧
    mpiCoordinator.chain_values = [-12, -10, -11] ∧
    mpiCoordinator.numAttemptedSwaps = [[0, 0, 0], [0, 0, 0], [0, 0, 0]] ∧
    mpiCoordinator.numAcceptedSwaps = [[0, 0, 0], [0, 0, 0], [0, 0, 0]] := by
  unfold mpiCoordinator
  rw [construct_spec]
  simp only [blankState, List.range_succ, List.range_zero, List.map_append, List.map_cons,
    List.map_nil, List.nil_append, List.cons_append, List.replicate, true_and]
  norm_num

theorem mpiWorker_fields :
    mpiWorker.num_chains = 3 ∧ mpiWorker.active_PID = 0 ∧ mpiWorker.pid = 1 ∧
    mpiWorker.heat_ranks = [0, 1, 2] ∧ mpiWorker.chain_heats = [1, 5 / 6, 5 / 7] ∧
    mpiWorker.chain_values = [-12, -10, -11] ∧
    mpiWorker.numAttemptedSwaps = [[0, 0, 0], [0, 0, 0], [0, 0, 0]] ∧
    mpiWorker.numAcceptedSwaps = [[0, 0, 0], [0, 0, 0], [0, 0, 0]] := by
  unfold mpiWorker
  rw [construct_spec]
  simp only [blankState, List.range_succ, List.range_zero, List.map_append, List.map_cons,
    List.map_nil, List.nil_append, List.cons_append, List.replicate, true_and]
  norm_num

theorem set_getD_self {β : Type} (l : List β) (i : Nat) (d : β) :
    l.set i (l.getD i d) = l := by
  apply ext_getD _ _ d (by simp)
  intro m _
  rw [getD_set]
  split
  · rename_i h
    rw [h.1]
  · rfl

/-- The loop of lines 1503-1517 on gaps that are the differences of the heats it finds,
none of which is below the floor: it runs to the end and leaves the heats as they are. -/
theorem tuneForward_fixed (ranks : List Nat) (d : List α) (N : Nat) :
    ∀ (n : Nat) (heats : List α), n ≤ N →
      (∀ j, N - n ≤ j → j < N →
        heats.getD (chainOfRank ranks (j - 1)) 0 - d.getD (j - 1) 0
          = heats.getD (chainOfRank ranks j) 0 ∧
        ¬ heats.getD (chainOfRank ranks j) 0 < heatMinBound) →
      tuneForward ranks d N n heats = (N, heats) := by
  intro n
  induction n with
  | zero =>
    intro heats _ _
    simp [tuneForward]
  | succ n ih =>
    intro heats hn h
    obtain ⟨h1, h2⟩ := h (N - (n + 1)) (le_refl _) (by omega)
    rw [tuneForward]
    rw [h1, set_getD_self, if_neg h2]
    exact ih heats (by omega) (fun j hj1 hj2 => h j (by omega) hj2)

/-- The heats computed by `tune` from counters with at most two attempts for each pair
of adjacent ranks and heats that are not below the floor are the heats it found. -/
theorem tunedHeats_fixed (pw : α → α → α) (s : State α)
    (hcnt : ∀ m, m < s.num_chains - 1 →
      matGet s.numAttemptedSwaps m (m + 1) + matGet s.numAttemptedSwaps (m + 1) m ≤ 2)
    (hge : ∀ r, 1 ≤ r → r < s.num_chains →
      heatMinBound ≤ heatAtRank s.heat_ranks s.chain_heats r) :
    tunedHeats pw s = s.chain_heats := by
  obtain ⟨hl, hg⟩ := heatsDiff_spec s
  obtain ⟨-, ht⟩ := tuneGaps_getD s (heatsDiff s) hl
  have hd : ∀ m, m < s.num_chains - 1 → (tuneGaps s (heatsDiff s)).getD m 0
      = heatAtRank s.heat_ranks s.chain_heats m
        - heatAtRank s.heat_ranks s.chain_heats (m + 1) := by
    intro m hm
    rw [ht m hm, if_neg (by have := hcnt m hm; omega), hg m hm]
  have hf := tuneForward_fixed s.heat_ranks (tuneGaps s (heatsDiff s)) s.num_chains
    (s.num_chains - 1) s.chain_heats (by omega) (by
      intro j hj1 hj2
      have hj : 1 ≤ j := by omega
      refine ⟨?_, not_lt.mpr (hge j hj hj2)⟩
      rw [hd (j - 1) (by omega)]
      have e : j - 1 + 1 = j := by omega
      rw [e]
      unfold heatAtRank
      ring)
  unfold tunedHeats
  dsimp only
  rw [hf, if_neg (lt_irrefl _)]

/-- After the loop of lines 1503-1517 the heats of the ranks from `1` up to the rank at
which the loop was left are not below the floor, and the heat of rank `0` is untouched. -/
theorem tuneForward_ge (ranks : List Nat) (d : List α) (N : Nat)
    (hp : ranks.Perm (List.range N)) :
    ∀ (n : Nat) (heats : List α), n + 1 ≤ N → heats.length = N →
      (∀ r, 1 ≤ r → r < N - n → heatMinBound ≤ heatAtRank ranks heats r) →
      (∀ r, 1 ≤ r → r < (tuneForward ranks d N n heats).1 →
        heatMinBound ≤ heatAtRank ranks (tuneForward ranks d N n heats).2 r) ∧
      heatAtRank ranks (tuneForward ranks d N n heats).2 0 = heatAtRank ranks heats 0 := by
  intro n
  induction n with
  | zero =>
    intro heats _ _ h
    simp only [tuneForward]
    exact ⟨fun r h1 h2 => h r h1 (by omega), trivial⟩
  | succ n ih =>
    intro heats hn hlen h
    have hj1 : 1 ≤ N - (n + 1) := by omega
    have hjN : N - (n + 1) < N := by omega
    have hself := heatAtRank_set_self ranks heats N (N - (n + 1))
      (heats.getD (chainOfRank ranks (N - (n + 1) - 1)) 0 - d.getD (N - (n + 1) - 1) 0)
      hp hjN hlen
    have hne : ∀ r, r < N → r ≠ N - (n + 1) →
        heatAtRank ranks (heats.set (chainOfRank ranks (N - (n + 1)))
          (heats.getD (chainOfRank ranks (N - (n + 1) - 1)) 0 - d.getD (N - (n + 1) - 1) 0)) r
        = heatAtRank ranks heats r := by
      intro r hr hrj
      exact heatAtRank_set_ne ranks heats N (N - (n + 1)) r _ hp hjN hr (fun e => hrj e.symm)
    rw [tuneForward]
    split
    · refine ⟨?_, hne 0 (by omega) (by omega)⟩
      intro r h1 h2
      rw [hne r (by omega) (by omega)]
      exact h r h1 h2
    · rename_i hnot
      have hnot2 : heatMinBound ≤ heatAtRank ranks (heats.set (chainOfRank ranks (N - (n + 1)))
          (heats.getD (chainOfRank ranks (N - (n + 1) - 1)) 0 - d.getD (N - (n + 1) - 1) 0))
          (N - (n + 1)) := not_lt.mp hnot
      obtain ⟨a, b⟩ := ih (heats.set (chainOfRank ranks (N - (n + 1)))
          (heats.getD (chainOfRank ranks (N - (n + 1) - 1)) 0 - d.getD (N - (n + 1) - 1) 0))
        (by omega) (by simpa using hlen) (by
        intro r h1 h2
        by_cases hr : r = N - (n + 1)
        · rw [hr]
          exact hnot2
        · rw [hne r (by omega) hr]
          exact h r h1 (by omega))
      exact ⟨a, b.trans (hne 0 (by omega) (by omega))⟩

theorem matGet_zero (n r c : Nat) :
    matGet (List.replicate n (List.replicate n 0)) r c = 0 := by
  have e : (List.replicate n (List.replicate n 0)).getD r []
      = if r < n then List.replicate n 0 else [] := by
    by_cases hr : r < n
    · rw [if_pos hr, List.getD_eq_getElem _ _ (by simpa using hr)]
      simp
    · rw [if_neg hr, List.getD_eq_default _ _ (by simpa using hr)]
  unfold matGet
  rw [e]
  split
  · by_cases hc : c < n
    · rw [List.getD_eq_getElem _ _ (by simpa using hc)]
      simp
    · rw [List.getD_eq_default _ _ (by simpa using hc)]
  · rfl

/-- Over the real numbers the heats computed by `tune` from a ladder whose cold heat is
`1` are not below the floor at any rank from `1` on; the heat of rank `0` is untouched. -/
theorem tunedHeats_floor_real (s : State ℝ) (hN : 2 ≤ s.num_chains)
    (hp : s.heat_ranks.Perm (List.range s.num_chains))
    (hlen : s.chain_heats.length = s.num_chains)
    (hcold : heatAtRank s.heat_ranks s.chain_heats 0 = 1) :
    (∀ r, 1 ≤ r → r < s.num_chains →
      heatMinBound ≤ heatAtRank s.heat_ranks (tunedHeats Real.rpow s) r) ∧
    heatAtRank s.heat_ranks (tunedHeats Real.rpow s) 0 = 1 ∧
    (tunedHeats Real.rpow s).length = s.num_chains := by
  obtain ⟨j1, j2, j3⟩ := forwardPass_bounds s hN
  have hge := tuneForward_ge s.heat_ranks (tuneGaps s (heatsDiff s)) s.num_chains hp
    (s.num_chains - 1) s.chain_heats (by omega) hlen
    (fun r h1 h2 => absurd h2 (by omega))
  change (∀ r, 1 ≤ r → r < (forwardPass s).1 →
      heatMinBound ≤ heatAtRank s.heat_ranks (forwardPass s).2 r) ∧
    heatAtRank s.heat_ranks (forwardPass s).2 0 = heatAtRank s.heat_ranks s.chain_heats 0
    at hge
  obtain ⟨g1, g0⟩ := hge
  rw [hcold] at g0
  have hmb : (heatMinBound : ℝ) = 1 / 100 := rfl
  by_cases hj : (forwardPass s).1 < s.num_chains
  · obtain ⟨i1, i2, i3⟩ := tuneInterpolate_spec Real.rpow s.heat_ranks s.num_chains
      (forwardPass s).1 (forwardPass s).2 hp j1 hj (j3.trans hlen)
    rw [tunedHeats_interpolated Real.rpow s hj]
    have hL : heatMinBound ≤ heatAtRank s.heat_ranks (forwardPass s).2 ((forwardPass s).1 - 1) := by
      by_cases h1 : (forwardPass s).1 = 1
      · rw [h1, g0, hmb]
        norm_num
      · exact g1 _ (by omega) (by omega)
    refine ⟨?_, by rw [i2 0 (by omega)]; exact g0, i1⟩
    intro r hr1 hr2
    by_cases hrj : r < (forwardPass s).1
    · rw [i2 r hrj]
      exact g1 r hr1 hrj
    · rw [i3 r (by omega) hr2]
      generalize heatAtRank s.heat_ranks (forwardPass s).2 ((forwardPass s).1 - 1) = L at hL
      generalize forwardPass s = fw at j1 hj hrj
      rw [hmb] at hL ⊢
      have hLpos : 0 < L := lt_of_lt_of_le (by norm_num) hL
      have hb : 1 ≤ L / (1 / 100) := by
        rw [le_div_iff₀ (by norm_num)]
        linarith
      have hMpos : (0 : ℝ) < ((s.num_chains - fw.1 : Nat) : ℝ) := by
        have : 0 < s.num_chains - fw.1 := by omega
        exact_mod_cast this
      have hrho : 1 ≤ Real.rpow (L / (1 / 100)) (1 / ((s.num_chains - fw.1 : Nat) : ℝ)) :=
        Real.one_le_rpow hb (by positivity)
      have hfull : Real.rpow (Real.rpow (L / (1 / 100))
          (1 / ((s.num_chains - fw.1 : Nat) : ℝ))) ((s.num_chains - fw.1 : Nat) : ℝ)
          = L / (1 / 100) := by
        show ((L / (1 / 100)) ^ (1 / ((s.num_chains - fw.1 : Nat) : ℝ)))
          ^ (((s.num_chains - fw.1 : Nat) : ℝ)) = _
        rw [← Real.rpow_mul (le_trans zero_le_one hb),
          one_div_mul_cancel (ne_of_gt hMpos), Real.rpow_one]
      generalize Real.rpow (L / (1 / 100)) (1 / ((s.num_chains - fw.1 : Nat) : ℝ)) = ρ
        at hrho hfull ⊢
      have hρpos : 0 < ρ := lt_of_lt_of_le zero_lt_one hrho
      have hle : Real.rpow ρ ((r + 1 - fw.1 : Nat) : ℝ) ≤ L / (1 / 100) := by
        rw [← hfull]
        show ρ ^ (((r + 1 - fw.1 : Nat) : ℝ)) ≤ ρ ^ (((s.num_chains - fw.1 : Nat) : ℝ))
        apply Real.rpow_le_rpow_of_exponent_le hrho
        have : r + 1 - fw.1 ≤ s.num_chains - fw.1 := by omega
        exact_mod_cast this
      have hpos : 0 < Real.rpow ρ ((r + 1 - fw.1 : Nat) : ℝ) := Real.rpow_pos_of_pos hρpos _
      calc (1 / 100 : ℝ) = L / (L / (1 / 100)) := by field_simp
        _ ≤ L / Real.rpow ρ ((r + 1 - fw.1 : Nat) : ℝ) :=
          div_le_div_of_nonneg_left hLpos.le hpos hle
  · have e : tunedHeats Real.rpow s = (forwardPass s).2 := by
      unfold forwardPass at hj ⊢
      unfold tunedHeats
      dsimp only
      rw [if_neg hj]
    rw [e]
    refine ⟨fun r h1 h2 => g1 r h1 (by omega), g0, j3.trans hlen⟩

/-- Over the real numbers a second call of `tune` changes neither the heats, nor the rank
map, nor the counters that the first call left. -/
theorem tune_twice_real (f1 f2 : List (TuningInfo ℝ) → List (TuningInfo ℝ)) (s : State ℝ)
    (hT : s.tune_heat = true) (hN : 2 ≤ s.num_chains)
    (hp : s.heat_ranks.Perm (List.range s.num_chains))
    (hlen : s.chain_heats.length = s.num_chains)
    (hcold : heatAtRank s.heat_ranks s.chain_heats 0 = 1)
    (hA : s.numAttemptedSwaps.length = s.num_chains ∧
      ∀ r, r < s.num_chains → (s.numAttemptedSwaps.getD r []).length = s.num_chains)
    (hB : s.numAcceptedSwaps.length = s.num_chains ∧
      ∀ r, r < s.num_chains → (s.numAcceptedSwaps.getD r []).length = s.num_chains) :
    (tune Real.rpow f2 (tune Real.rpow f1 s)).chain_heats = (tune Real.rpow f1 s).chain_heats ∧
    (tune Real.rpow f2 (tune Real.rpow f1 s)).heat_ranks = (tune Real.rpow f1 s).heat_ranks ∧
    (tune Real.rpow f2 (tune Real.rpow f1 s)).numAttemptedSwaps
      = (tune Real.rpow f1 s).numAttemptedSwaps ∧
    (tune Real.rpow f2 (tune Real.rpow f1 s)).numAcceptedSwaps
      = (tune Real.rpow f1 s).numAcceptedSwaps := by
  obtain ⟨a1, a2, a3, a4, a5⟩ := tune_fields Real.rpow f1 s hT hN
  obtain ⟨z1, z2, ⟨d1, d2⟩, ⟨d3, d4⟩⟩ :=
    resetCounters_spec { s with chain_heats := tunedHeats Real.rpow s }
  obtain ⟨q1, q2, q3⟩ := tunedHeats_floor_real s hN hp hlen hcold
  have hT2 : (tune Real.rpow f1 s).tune_heat = true := by
    obtain ⟨h, a, b, cs, e⟩ := tune_frame Real.rpow f1 s
    rw [e]
    exact hT
  -- the counters after the first call
  have zA : (tune Real.rpow f1 s).numAttemptedSwaps
      = List.replicate s.num_chains (List.replicate s.num_chains 0) := by
    apply mat_eq_zero _ _ (by rw [a1, d1]; exact hA.1)
    · intro r hr
      rw [a1, d2 r]
      exact hA.2 r hr
    · intro r c hr hc
      rw [a1, z1 r c]
      exact if_pos ⟨hr, hc⟩
  have zB : (tune Real.rpow f1 s).numAcceptedSwaps
      = List.replicate s.num_chains (List.replicate s.num_chains 0) := by
    apply mat_eq_zero _ _ (by rw [a2, d3]; exact hB.1)
    · intro r hr
      rw [a2, d4 r]
      exact hB.2 r hr
    · intro r c hr hc
      rw [a2, z2 r c]
      exact if_pos ⟨hr, hc⟩
  have zcell : ∀ r c, matGet (tune Real.rpow f1 s).numAttemptedSwaps r c = 0 := by
    intro r c
    rw [zA]
    exact matGet_zero _ r c
  -- the second call
  obtain ⟨b1, b2, b3, b4, b5⟩ := tune_fields Real.rpow f2 (tune Real.rpow f1 s) hT2
    (by rw [a5]; exact hN)
  obtain ⟨y1, y2, ⟨e1, e2⟩, ⟨e3, e4⟩⟩ := resetCounters_spec
    { tune Real.rpow f1 s with chain_heats := tunedHeats Real.rpow (tune Real.rpow f1 s) }
  have fixed : tunedHeats Real.rpow (tune Real.rpow f1 s) = (tune Real.rpow f1 s).chain_heats := by
    apply tunedHeats_fixed
    · intro m _
      rw [zcell, zcell]
      omega
    · intro r hr1 hr2
      rw [a3, a4]
      exact q1 r hr1 (by rw [← a5]; exact hr2)
  refine ⟨by rw [b4, fixed], b3, ?_, ?_⟩
  · rw [zA]
    apply mat_eq_zero _ _ (by rw [b1, e1, zA]; simp)
    · intro r hr
      rw [b1, e2 r]
      show ((tune Real.rpow f1 s).numAttemptedSwaps.getD r []).length = s.num_chains
      rw [a1, d2 r]
      exact hA.2 r hr
    · intro r c hr hc
      rw [b1, y1 r c]
      exact if_pos ⟨by show r < (tune Real.rpow f1 s).num_chains; rw [a5]; exact hr,
        by show c < (tune Real.rpow f1 s).num_chains; rw [a5]; exact hc⟩
  · rw [zB]
    apply mat_eq_zero _ _ (by rw [b2, e3, zB]; simp)
    · intro r hr
      rw [b2, e4 r]
      show ((tune Real.rpow f1 s).numAcceptedSwaps.getD r []).length = s.num_chains
      rw [a2, d4 r]
      exact hB.2 r hr
    · intro r c hr hc
      rw [b2, y2 r c]
      exact if_pos ⟨by show r < (tune Real.rpow f1 s).num_chains; rw [a5]; exact hr,
        by show c < (tune Real.rpow f1 s).num_chains; rw [a5]; exact hc⟩

/-- The interpolation of lines 1524-1534 over the real numbers, from any positive last
valid heat: the formula, the floor at the hottest rank, and when the heats from the rank
below the break on are strictly decreasing. -/
theorem tune_interpolation_floor (f : List (TuningInfo ℝ) → List (TuningInfo ℝ))
    (s : State ℝ) (hT : s.tune_heat = true) (hN : 2 ≤ s.num_chains)
    (hp : s.heat_ranks.Perm (List.range s.num_chains))
    (hlen : s.chain_heats.length = s.num_chains)
    (hj : (forwardPass s).1 < s.num_chains) :
    1 ≤ (forwardPass s).1 ∧
    (tune Real.rpow f s).heat_ranks = s.heat_ranks ∧
    heatAtRank s.heat_ranks (tune Real.rpow f s).chain_heats ((forwardPass s).1 - 1)
      = lastValidHeat s ∧
    (∀ k, (forwardPass s).1 ≤ k → k < s.num_chains →
      heatAtRank s.heat_ranks (tune Real.rpow f s).chain_heats k =
        lastValidHeat s /
          Real.rpow
            (Real.rpow (lastValidHeat s / (1 / 100))
              (1 / ((s.num_chains - (forwardPass s).1 : Nat) : ℝ)))
            ((k + 1 - (forwardPass s).1 : Nat) : ℝ)) ∧
    (0 < lastValidHeat s →
      heatAtRank s.heat_ranks (tune Real.rpow f s).chain_heats (s.num_chains - 1) = 1 / 100) ∧
    (0 < lastValidHeat s →
      ((∀ k, (forwardPass s).1 - 1 ≤ k → k + 1 < s.num_chains →
        heatAtRank s.heat_ranks (tune Real.rpow f s).chain_heats (k + 1)
          < heatAtRank s.heat_ranks (tune Real.rpow f s).chain_heats k) ↔
        1 / 100 < lastValidHeat s)) ∧
    (1 / 100 ≤ lastValidHeat s →
      ∀ k, (forwardPass s).1 - 1 ≤ k → k + 1 < s.num_chains →
        heatAtRank s.heat_ranks (tune Real.rpow f s).chain_heats (k + 1)
          ≤ heatAtRank s.heat_ranks (tune Real.rpow f s).chain_heats k) ∧
    (lastValidHeat s = 1 / 100 →
      ∀ k, (forwardPass s).1 - 1 ≤ k → k < s.num_chains →
        heatAtRank s.heat_ranks (tune Real.rpow f s).chain_heats k = 1 / 100) ∧
    (heatAtRank s.heat_ranks s.chain_heats 0 = 1 → 1 / 100 ≤ lastValidHeat s) := by
  obtain ⟨-, -, e3, e4, -⟩ := tune_fields Real.rpow f s hT hN
  obtain ⟨j1, j2, j3⟩ := forwardPass_bounds s hN
  obtain ⟨i1, i2, i3⟩ := tuneInterpolate_spec Real.rpow s.heat_ranks s.num_chains
    (forwardPass s).1 (forwardPass s).2 hp j1 hj (j3.trans hlen)
  have hmb : (heatMinBound : ℝ) = 1 / 100 := rfl
  -- the last valid heat is not below the floor when the cold heat is one
  have hcold : heatAtRank s.heat_ranks s.chain_heats 0 = 1 → 1 / 100 ≤ lastValidHeat s := by
    intro hc
    have hge := tuneForward_ge s.heat_ranks (tuneGaps s (heatsDiff s)) s.num_chains hp
      (s.num_chains - 1) s.chain_heats (by omega) hlen
      (fun r h1 h2 => absurd h2 (by omega))
    change (∀ r, 1 ≤ r → r < (forwardPass s).1 →
        heatMinBound ≤ heatAtRank s.heat_ranks (forwardPass s).2 r) ∧
      heatAtRank s.heat_ranks (forwardPass s).2 0 = heatAtRank s.heat_ranks s.chain_heats 0
      at hge
    obtain ⟨g1, g0⟩ := hge
    rw [hc] at g0
    unfold lastValidHeat
    by_cases h1 : (forwardPass s).1 = 1
    · rw [h1, g0]
      norm_num
    · rw [← hmb]
      exact g1 _ (by omega) (by omega)
  rw [e4, tunedHeats_interpolated Real.rpow s hj]
  rw [hmb] at i3
  change ∀ k, (forwardPass s).1 ≤ k → k < s.num_chains →
    heatAtRank s.heat_ranks
      (tuneInterpolate Real.rpow s.heat_ranks s.num_chains (forwardPass s).1 (forwardPass s).2) k
      = lastValidHeat s /
        Real.rpow (Real.rpow (lastValidHeat s / (1 / 100))
          (1 / ((s.num_chains - (forwardPass s).1 : Nat) : ℝ)))
          ((k + 1 - (forwardPass s).1 : Nat) : ℝ) at i3
  have i2b : heatAtRank s.heat_ranks
      (tuneInterpolate Real.rpow s.heat_ranks s.num_chains (forwardPass s).1 (forwardPass s).2)
      ((forwardPass s).1 - 1) = lastValidHeat s := i2 _ (by omega)
  generalize lastValidHeat s = L at hcold i3 i2b
  generalize forwardPass s = fw at j1 hj i3 i2b
  have hMpos : (0 : ℝ) < ((s.num_chains - fw.1 : Nat) : ℝ) := by
    have : 0 < s.num_chains - fw.1 := by omega
    exact_mod_cast this
  have hmul : 0 < L →
      Real.rpow (Real.rpow (L / (1 / 100)) (1 / ((s.num_chains - fw.1 : Nat) : ℝ)))
        ((s.num_chains - fw.1 : Nat) : ℝ) = L / (1 / 100) := by
    intro hL
    show ((L / (1 / 100)) ^ (1 / ((s.num_chains - fw.1 : Nat) : ℝ)))
      ^ (((s.num_chains - fw.1 : Nat) : ℝ)) = _
    rw [← Real.rpow_mul (le_of_lt (div_pos hL (by norm_num))),
      one_div_mul_cancel (ne_of_gt hMpos), Real.rpow_one]
  have hρpos0 : 0 < L →
      0 < Real.rpow (L / (1 / 100)) (1 / ((s.num_chains - fw.1 : Nat) : ℝ)) :=
    fun hL => Real.rpow_pos_of_pos (div_pos hL (by norm_num)) _
  have hρlt : 1 / 100 < L →
      1 < Real.rpow (L / (1 / 100)) (1 / ((s.num_chains - fw.1 : Nat) : ℝ)) := by
    intro hL
    apply Real.one_lt_rpow _ (by positivity)
    rw [lt_div_iff₀ (by norm_num)]
    linarith
  have hρle : 0 < L → L ≤ 1 / 100 →
      Real.rpow (L / (1 / 100)) (1 / ((s.num_chains - fw.1 : Nat) : ℝ)) ≤ 1 := by
    intro hL0 hL
    apply Real.rpow_le_one (le_of_lt (div_pos hL0 (by norm_num))) _ (by positivity)
    rw [div_le_iff₀ (by norm_num)]
    linarith
  have hρge : 1 / 100 ≤ L →
      1 ≤ Real.rpow (L / (1 / 100)) (1 / ((s.num_chains - fw.1 : Nat) : ℝ)) := by
    intro hL
    apply Real.one_le_rpow _ (by positivity)
    rw [le_div_iff₀ (by norm_num)]
    linarith
  have hρeq : L = 1 / 100 →
      Real.rpow (L / (1 / 100)) (1 / ((s.num_chains - fw.1 : Nat) : ℝ)) = 1 := by
    intro hL
    rw [hL]
    show ((1 / 100 : ℝ) / (1 / 100)) ^ (1 / ((s.num_chains - fw.1 : Nat) : ℝ)) = 1
    rw [div_self (by norm_num), Real.one_rpow]
  generalize hρ : Real.rpow (L / (1 / 100)) (1 / ((s.num_chains - fw.1 : Nat) : ℝ)) = ρ
    at i3 hmul hρpos0 hρlt hρle hρge hρeq
  have hpow : ∀ m : Nat, Real.rpow ρ (m : ℝ) = ρ ^ m := fun m => Real.rpow_natCast ρ m
  refine ⟨j1, e3, i2b, i3, ?_, ?_, ?_, ?_, hcold⟩
  · intro hL
    rw [i3 (s.num_chains - 1) (by omega) (by omega)]
    have : s.num_chains - 1 + 1 - fw.1 = s.num_chains - fw.1 := by omega
    rw [this, hmul hL]
    field_simp
  · intro hL0
    have hρpos := hρpos0 hL0
    constructor
    · intro hs
      have h := hs (fw.1 - 1) (le_refl _) (by omega)
      have hk3 : fw.1 - 1 + 1 = fw.1 := by omega
      rw [hk3, i3 fw.1 (le_refl _) hj, i2b, hpow] at h
      have : fw.1 + 1 - fw.1 = 1 := by omega
      rw [this, pow_one] at h
      by_contra hcon
      have hle := hρle hL0 (not_lt.mp hcon)
      have : L ≤ L / ρ := by
        rw [le_div_iff₀ hρpos]
        nlinarith
      linarith
    · intro hL k hk1 hk2
      have hrho := hρlt hL
      by_cases hk : k = fw.1 - 1
      · subst hk
        have hk3 : fw.1 - 1 + 1 = fw.1 := by omega
        rw [hk3, i3 fw.1 (le_refl _) hj, i2b, hpow]
        have : fw.1 + 1 - fw.1 = 1 := by omega
        rw [this, pow_one]
        exact div_lt_self hL0 hrho
      · rw [i3 (k + 1) (by omega) hk2, i3 k (by omega) (by omega), hpow, hpow]
        have : k + 1 + 1 - fw.1 = (k + 1 - fw.1) + 1 := by omega
        rw [this]
        apply div_lt_div_of_pos_left hL0 (pow_pos hρpos _)
        exact pow_lt_pow_right₀ hrho (Nat.lt_succ_self _)
  · intro hL k hk1 hk2
    have hL0 : 0 < L := lt_of_lt_of_le (by norm_num) hL
    have hρpos := hρpos0 hL0
    have hrho := hρge hL
    by_cases hk : k = fw.1 - 1
    · subst hk
      have hk3 : fw.1 - 1 + 1 = fw.1 := by omega
      rw [hk3, i3 fw.1 (le_refl _) hj, i2b, hpow]
      have : fw.1 + 1 - fw.1 = 1 := by omega
      rw [this, pow_one]
      exact div_le_self hL0.le hrho
    · rw [i3 (k + 1) (by omega) hk2, i3 k (by omega) (by omega), hpow, hpow]
      have : k + 1 + 1 - fw.1 = (k + 1 - fw.1) + 1 := by omega
      rw [this]
      apply div_le_div_of_nonneg_left hL0.le (pow_pos hρpos _)
      exact pow_le_pow_right₀ hrho (Nat.le_succ _)
  · intro hL k hk1 hk2
    have hone := hρeq hL
    by_cases hk : k = fw.1 - 1
    · subst hk
      rw [i2b, hL]
    · rw [i3 k (by omega) hk2, hpow, hone, one_pow, div_one, hL]

theorem roundHalfEven_near (z : ℤ) (x : ℚ) (h0 : 0 ≤ x) (h1 : x < 1 / 2) :
    roundHalfEven ((z : ℚ) + x) = z := by
  have hf : ⌊(z : ℚ) + x⌋ = z := by
    rw [Int.floor_eq_iff]
    constructor <;> linarith
  unfold roundHalfEven
  rw [hf, if_pos (by linarith)]

theorem roundHalfEven_floor (q : ℚ) : ⌊q⌋ ≤ roundHalfEven q ∧ roundHalfEven q ≤ ⌊q⌋ + 1 := by
  unfold roundHalfEven
  split_ifs <;> omega

/-- Rounding to the nearest integer keeps the integer bounds of a number. -/
theorem roundHalfEven_bounds (q : ℚ) (a b : ℤ) (ha : (a : ℚ) ≤ q) (hb : q ≤ (b : ℚ)) :
    a ≤ roundHalfEven q ∧ roundHalfEven q ≤ b := by
  obtain ⟨l, u⟩ := roundHalfEven_floor q
  have hfa : a ≤ ⌊q⌋ := Int.le_floor.mpr ha
  refine ⟨le_trans hfa l, ?_⟩
  by_cases hq : ⌊q⌋ + 1 ≤ b
  · exact le_trans u hq
  · have hfb : ⌊q⌋ ≤ b := by
      have := Int.floor_le q
      have h2 : ((⌊q⌋ : ℤ) : ℚ) ≤ (b : ℚ) := le_trans this hb
      exact_mod_cast h2
    have he : ⌊q⌋ = b := by omega
    have hqb : q = (b : ℚ) := by
      apply le_antisymm hb
      rw [← he]
      exact Int.floor_le q
    have := roundHalfEven_near b 0 (le_refl _) (by norm_num)
    rw [add_zero, ← hqb] at this
    rw [this]

/-- Rounding to the nearest integer is monotone. -/
theorem roundHalfEven_mono (a b : ℚ) (h : a ≤ b) : roundHalfEven a ≤ roundHalfEven b := by
  have hf : ⌊a⌋ ≤ ⌊b⌋ := Int.floor_mono h
  rcases lt_or_eq_of_le hf with hlt | heq
  · have := (roundHalfEven_floor a).2
    have := (roundHalfEven_floor b).1
    omega
  · unfold roundHalfEven
    rw [heq]
    have hab : a - (⌊b⌋ : ℚ) ≤ b - (⌊b⌋ : ℚ) := by linarith
    split_ifs <;> first | omega | (exfalso; linarith)

theorem roundDouble_zero : roundDouble 0 = 0 := by
  simp [roundDouble]

/-- A positive number is rounded inside its binade: between the powers of two that
enclose it. -/
theorem roundDouble_bounds (x : ℚ) (hx : 0 < x) :
    (2 : ℚ) ^ (Int.log 2 x) ≤ roundDouble x ∧ roundDouble x ≤ (2 : ℚ) ^ (Int.log 2 x + 1) := by
  have hlo : (2 : ℚ) ^ (Int.log 2 x) ≤ x := by
    have := Int.zpow_log_le_self (R := ℚ) (b := 2) (by norm_num) hx
    simpa using this
  have hhi : x < (2 : ℚ) ^ (Int.log 2 x + 1) := by
    have := Int.lt_zpow_succ_log_self (R := ℚ) (b := 2) (by norm_num) x
    simpa using this
  unfold roundDouble
  rw [if_neg (ne_of_gt hx), abs_of_pos hx]
  generalize Int.log 2 x = e at hlo hhi
  have hu : (0 : ℚ) < (2 : ℚ) ^ (e - 52) := zpow_pos (by norm_num) _
  have e1 : (2 : ℚ) ^ e = (((2 : ℤ) ^ 52 : ℤ) : ℚ) * (2 : ℚ) ^ (e - 52) := by
    have : (((2 : ℤ) ^ 52 : ℤ) : ℚ) = (2 : ℚ) ^ (52 : ℤ) := by norm_num
    rw [this, ← zpow_add₀ (by norm_num)]
    congr 1
    ring
  have e2 : (2 : ℚ) ^ (e + 1) = (((2 : ℤ) ^ 53 : ℤ) : ℚ) * (2 : ℚ) ^ (e - 52) := by
    have : (((2 : ℤ) ^ 53 : ℤ) : ℚ) = (2 : ℚ) ^ (53 : ℤ) := by norm_num
    rw [this, ← zpow_add₀ (by norm_num)]
    congr 1
    ring
  obtain ⟨b1, b2⟩ := roundHalfEven_bounds (x / (2 : ℚ) ^ (e - 52)) ((2 : ℤ) ^ 52) ((2 : ℤ) ^ 53)
    (by rw [le_div_iff₀ hu, ← e1]; exact hlo)
    (by rw [div_le_iff₀ hu, ← e2]; exact hhi.le)
  rw [e1, e2]
  constructor
  · apply mul_le_mul_of_nonneg_right _ hu.le
    exact_mod_cast b1
  · apply mul_le_mul_of_nonneg_right _ hu.le
    exact_mod_cast b2

/-- The rounding of `double` is monotone on the non-negative numbers. -/
theorem roundDouble_mono (x y : ℚ) (hx : 0 ≤ x) (h : x ≤ y) : roundDouble x ≤ roundDouble y := by
  rcases eq_or_lt_of_le hx with h0 | hpos
  · rw [← h0, roundDouble_zero]
    rcases eq_or_lt_of_le (le_trans hx h) with hy0 | hypos
    · rw [← hy0, roundDouble_zero]
    · exact le_trans (zpow_pos (by norm_num) _).le (roundDouble_bounds y hypos).1
  · have hypos : 0 < y := lt_of_lt_of_le hpos h
    have hlog : Int.log 2 x ≤ Int.log 2 y := Int.log_mono_right hpos h
    rcases lt_or_eq_of_le hlog with hlt | heq
    · refine le_trans (roundDouble_bounds x hpos).2 (le_trans ?_ (roundDouble_bounds y hypos).1)
      exact zpow_le_zpow_right₀ (by norm_num) (by omega)
    · unfold roundDouble
      rw [if_neg (ne_of_gt hpos), if_neg (ne_of_gt hypos), abs_of_pos hpos, abs_of_pos hypos,
        heq]
      have hu : (0 : ℚ) < (2 : ℚ) ^ (Int.log 2 y - 52) := zpow_pos (by norm_num) _
      apply mul_le_mul_of_nonneg_right _ hu.le
      have := roundHalfEven_mono (x / (2 : ℚ) ^ (Int.log 2 y - 52))
        (y / (2 : ℚ) ^ (Int.log 2 y - 52)) (div_le_div_of_nonneg_right h hu.le)
      exact_mod_cast this

/-- A power of two is a `double`. -/
theorem roundDouble_two_zpow (z : ℤ) : roundDouble ((2 : ℚ) ^ z) = (2 : ℚ) ^ z := by
  have hpos : (0 : ℚ) < (2 : ℚ) ^ z := zpow_pos (by norm_num) z
  have hlog : Int.log 2 |(2 : ℚ) ^ z| = z := by
    rw [abs_of_pos hpos]
    have := Int.log_zpow (R := ℚ) (b := 2) (by norm_num) z
    simpa using this
  unfold roundDouble
  rw [if_neg (ne_of_gt hpos), hlog]
  have hq : (2 : ℚ) ^ z / (2 : ℚ) ^ (z - 52) = (((2 : ℤ) ^ 52 : ℤ) : ℚ) + 0 := by
    rw [← zpow_sub₀ (by norm_num)]
    have : z - (z - 52) = 52 := by ring
    rw [this]
    norm_num
  rw [hq, roundHalfEven_near _ 0 (le_refl _) (by norm_num)]
  have : (((2 : ℤ) ^ 52 : ℤ) : ℚ) = (2 : ℚ) ^ (52 : ℤ) := by norm_num
  rw [this, ← zpow_add₀ (by norm_num)]
  congr 1
  ring

/-- A sum `1 + x` with `0 <= x <= 2^-54` is rounded to `1`. -/
theorem roundDouble_one_add (x : ℚ) (h0 : 0 ≤ x) (h1 : x ≤ 1 / 2 ^ 54) :
    roundDouble (1 + x) = 1 := by
  have hx : x < 1 := lt_of_le_of_lt h1 (by norm_num)
  have hpos : (0 : ℚ) < 1 + x := by linarith
  have hfl : ⌊1 + x⌋₊ = 1 := by
    rw [Nat.floor_eq_iff hpos.le]
    constructor
    · simpa using h0
    · norm_num
      linarith
  have hlog : Int.log 2 |1 + x| = 0 := by
    rw [abs_of_pos hpos, Int.log_of_one_le_right _ (by linarith), hfl]
    simp
  unfold roundDouble
  rw [if_neg (ne_of_gt hpos), hlog]
  have hq : (1 + x) / (2 : ℚ) ^ ((0 : ℤ) - 52) = (((2 : ℤ) ^ 52 : ℤ) : ℚ) + x * 2 ^ 52 := by
    rw [zero_sub, zpow_neg, div_inv_eq_mul]
    norm_num
    ring
  rw [hq, roundHalfEven_near _ _ (by positivity) (by
    have : x * 2 ^ 52 ≤ 1 / 2 ^ 54 * 2 ^ 52 := by
      apply mul_le_mul_of_nonneg_right h1 (by positivity)
    have e : (1 : ℚ) / 2 ^ 54 * 2 ^ 52 = 1 / 4 := by norm_num
    rw [e] at this
    linarith)]
  rw [zero_sub, zpow_neg]
  norm_num

theorem roundDouble_one : roundDouble 1 = 1 := by
  have := roundDouble_one_add 0 (le_refl _) (by norm_num)
  simpa using this

/-- With no rounding the rounded computation is `computeBeta`. -/
theorem initializeChainsRounded_id (s : State α) :
    initializeChainsRounded id s = initializeChains s := rfl

/-- Chain `0` is given the heat `1` by any rounding that is exact on `0` and on `1`. -/
theorem computeBetaRounded_zero (rn : α → α) (s : State α) (d : α) (r0 : rn 0 = 0)
    (r1 : rn 1 = 1) : computeBetaRounded rn s d 0 = 1 := by
  unfold computeBetaRounded
  rw [Nat.cast_zero, mul_zero, r0, add_zero, r1, div_one, r1]

/-- Under a rounding that is exact on `0` and `1` and monotone on the non-negative
numbers, the heats of `computeBeta` do not increase with the index. -/
theorem computeBetaRounded_antitone (rn : α → α) (s : State α) (d : α) (i j : Nat)
    (hd : 0 ≤ s.delta) (r0 : rn 0 = 0) (r1 : rn 1 = 1)
    (rm : ∀ x y, 0 ≤ x → x ≤ y → rn x ≤ rn y) (hij : i ≤ j) :
    computeBetaRounded rn s d j ≤ computeBetaRounded rn s d i := by
  unfold computeBetaRounded
  have hi : 0 ≤ s.delta * (i : α) := mul_nonneg hd (Nat.cast_nonneg i)
  have hle : s.delta * (i : α) ≤ s.delta * (j : α) :=
    mul_le_mul_of_nonneg_left (by exact_mod_cast hij) hd
  have p1 : rn (s.delta * (i : α)) ≤ rn (s.delta * (j : α)) := rm _ _ hi hle
  have p0 : 0 ≤ rn (s.delta * (i : α)) := by
    have := rm 0 _ (le_refl _) hi
    rwa [r0] at this
  have q1 : rn (1 + rn (s.delta * (i : α))) ≤ rn (1 + rn (s.delta * (j : α))) :=
    rm _ _ (by linarith) (by linarith)
  have q0 : 1 ≤ rn (1 + rn (s.delta * (i : α))) := by
    have := rm 1 (1 + rn (s.delta * (i : α))) zero_le_one (by linarith)
    rwa [r1] at this
  have hpos : 0 < rn (1 + rn (s.delta * (i : α))) := lt_of_lt_of_le zero_lt_one q0
  apply rm
  · exact div_nonneg zero_le_one (le_trans hpos.le q1)
  · exact div_le_div_of_nonneg_left zero_le_one hpos q1

/-- In `double` arithmetic `computeBeta` gives `1` for the chains `0` and `1` when the
spacing is `2^-60`: the sum `1 + 2^-60` is rounded to `1`. -/
theorem computeBetaRounded_tiny (s : State ℚ) (d : ℚ) (idx : Nat) (hd : s.delta = 1 / 2 ^ 60)
    (hi : idx ≤ 1) : computeBetaRounded roundDouble s d idx = 1 := by
  unfold computeBetaRounded
  rw [hd]
  have h0 : roundDouble ((1 : ℚ) / 2 ^ 60 * (idx : ℚ)) = (1 : ℚ) / 2 ^ 60 * (idx : ℚ) := by
    interval_cases idx
    · simp [roundDouble]
    · have := roundDouble_two_zpow (-60)
      have e : (2 : ℚ) ^ (-60 : ℤ) = (1 : ℚ) / 2 ^ 60 * ((1 : ℕ) : ℚ) := by
        rw [zpow_neg]
        norm_num
      rw [e] at this
      exact this
  rw [h0, roundDouble_one_add _ (by positivity) (by
    have : ((idx : ℕ) : ℚ) ≤ 1 := by exact_mod_cast hi
    have h2 : (1 : ℚ) / 2 ^ 60 * (idx : ℚ) ≤ 1 / 2 ^ 60 * 1 :=
      mul_le_mul_of_nonneg_left this (by positivity)
    refine le_trans h2 ?_
    norm_num)]
  rw [div_one, roundDouble_one]

theorem initializeChainRounded_eq (rn : α → α) (s : State α) (hr : List Nat) (ch : List α)
    (ti : List (List (TuningInfo α))) (pp : List Nat) (cs : List (Option (Chain α))) (i : Nat) :
    initializeChainRounded rn
        { s with heat_ranks := hr, chain_heats := ch, chain_moves_tuningInfo := ti,
                 pid_per_chain := pp, chains := cs } i =
      { s with
        heat_ranks := hr.set i i
        chain_heats := ch.set i (initialHeatRounded rn s i)
        chain_moves_tuningInfo := ti.set i s.base_chain.moves_tuningInfo
        pid_per_chain := pp.set i (active_pid_for_chain s i)
        chains := cs.set i
          (if ownsChain s i = true then
            some { s.base_chain with
                   chain_active := decide (i = 0)
                   chain_posterior_heat := (ch.set i (initialHeatRounded rn s i)).getD i 0
                   chain_idx := i }
          else none) } := by
  unfold initializeChainRounded
  dsimp only
  split
  · rename_i h
    rw [if_pos (show ownsChain s i = true from h)]
    rfl
  · rename_i h
    rw [if_neg (show ¬ ownsChain s i = true from h)]
    rfl

/-- The heats and the rank map after `initializeChains` in the arithmetic that rounds by
`rn`. -/
theorem initializeChainsRounded_spec (rn : α → α) (s : State α)
    (h1 : s.heat_ranks.length = s.num_chains) (h2 : s.chain_heats.length = s.num_chains) :
    (initializeChainsRounded rn s).num_chains = s.num_chains ∧
    (initializeChainsRounded rn s).delta = s.delta ∧
    (initializeChainsRounded rn s).heat_ranks = List.range s.num_chains ∧
    (initializeChainsRounded rn s).chain_heats
      = (List.range s.num_chains).map (initialHeatRounded rn s) := by
  have key := foldl_range_induct
    (fun i (t : State α) => ∃ hr ch ti pp cs,
      t = { s with heat_ranks := hr, chain_heats := ch, chain_moves_tuningInfo := ti,
                   pid_per_chain := pp, chains := cs } ∧
      hr.length = s.num_chains ∧ ch.length = s.num_chains ∧
      ∀ m, m < i → hr.getD m 0 = m ∧ ch.getD m 0 = initialHeatRounded rn s m)
    (initializeChainRounded rn) s s.num_chains
    ⟨_, _, _, _, _, rfl, h1, h2, fun m hm => absurd hm (Nat.not_lt_zero m)⟩
    (by
      rintro i t hi ⟨hr, ch, ti, pp, cs, rfl, l1, l2, hm⟩
      rw [initializeChainRounded_eq]
      refine ⟨_, _, _, _, _, rfl, by simp [l1], by simp [l2], ?_⟩
      intro m hm2
      rcases Nat.lt_succ_iff_lt_or_eq.mp hm2 with hlt | rfl
      · have hne : i ≠ m := by omega
        simp only [getD_set_ne _ _ _ _ _ hne]
        exact hm m hlt
      · exact ⟨getD_set_self _ _ _ _ (l1 ▸ hi), getD_set_self _ _ _ _ (l2 ▸ hi)⟩)
  obtain ⟨hr, ch, ti, pp, cs, heq, l1, l2, hm⟩ := key
  unfold initializeChainsRounded
  rw [heq]
  have r1 : hr = List.range s.num_chains := by
    apply ext_getD _ _ 0 (by simp [l1])
    intro i hi
    rw [l1] at hi
    rw [(hm i hi).1, List.getD_eq_getElem _ _ (by simpa using hi)]
    simp
  have r2 : ch = (List.range s.num_chains).map (initialHeatRounded rn s) := by
    apply ext_getD _ _ 0 (by simp [l2])
    intro i hi
    rw [l2] at hi
    rw [(hm i hi).2, List.getD_eq_getElem _ _ (by simpa using hi)]
    simp
  exact ⟨rfl, rfl, r1, r2⟩

/-- Initialization with the geometric schedule in an arithmetic that rounds by `rn`, a
rounding exact on `0` and `1` and monotone on the non-negative numbers: the rank map is
the identity, chain `i` has the rounded value of `1 / (1 + delta * i)`, chain `0` has the
heat `1` and the heats do not increase with the index. -/
theorem geometric_rounded (rn : α → α) (s : State α)
    (hN : 1 ≤ s.num_chains) (hd : 0 < s.delta) (hno : s.heat_temps.getD 0 0 = 0)
    (h1 : s.heat_ranks.length = s.num_chains) (h2 : s.chain_heats.length = s.num_chains)
    (r0 : rn 0 = 0) (r1 : rn 1 = 1) (rm : ∀ x y, 0 ≤ x → x ≤ y → rn x ≤ rn y) :
    (initializeChainsRounded rn s).heat_ranks = List.range s.num_chains ∧
    (initializeChainsRounded rn s).chain_heats =
      (List.range s.num_chains).map
        (fun (i : Nat) => rn (1 / rn (1 + rn (s.delta * (i : α))))) ∧
    (initializeChainsRounded rn s).chain_heats.getD 0 0 = 1 ∧
    (∀ i j, i < j → j < s.num_chains →
      (initializeChainsRounded rn s).chain_heats.getD j 0
        ≤ (initializeChainsRounded rn s).chain_heats.getD i 0) := by
  obtain ⟨-, -, c, d⟩ := initializeChainsRounded_spec rn s h1 h2
  have e : (List.range s.num_chains).map (initialHeatRounded rn s) =
      (List.range s.num_chains).map
        (fun (i : Nat) => rn (1 / rn (1 + rn (s.delta * (i : α))))) := by
    apply List.map_congr_left
    intro i _
    unfold initialHeatRounded computeBetaRounded
    rw [if_neg (not_not.mpr hno)]
  rw [d, e]
  refine ⟨c, rfl, ?_, ?_⟩
  · rw [getD_map_range _ _ _ _ hN]
    exact computeBetaRounded_zero rn s s.delta r0 r1
  · intro i j hij hj
    rw [getD_map_range _ _ _ _ hj, getD_map_range _ _ _ _ (lt_trans hij hj)]
    exact computeBetaRounded_antitone rn s s.delta i j hd.le r0 r1 rm hij.le

/-- Two chains with the spacing `2^-60`: the spacing is positive and is a `double`, and
in `double` arithmetic `initializeChains` gives both chains the heat `1`. -/
theorem tinyDeltaScenario_heats :
    tinyDeltaScenario.num_chains = 2 ∧ 0 < tinyDeltaScenario.delta ∧
    roundDouble tinyDeltaScenario.delta = tinyDeltaScenario.delta ∧
    tinyDeltaScenario.heat_temps.getD 0 0 = 0 ∧
    (initializeChainsRounded roundDouble tinyDeltaScenario).num_chains = 2 ∧
    (initializeChainsRounded roundDouble tinyDeltaScenario).heat_ranks = [0, 1] ∧
    (initializeChainsRounded roundDouble tinyDeltaScenario).chain_heats = [1, 1] := by
  have hd : tinyDeltaScenario.delta = 1 / 2 ^ 60 := rfl
  have hz : (1 : ℚ) / 2 ^ 60 = (2 : ℚ) ^ (-60 : ℤ) := by
    rw [zpow_neg]
    norm_num
  have ht : tinyDeltaScenario.heat_temps.getD 0 0 = 0 := by
    simp [tinyDeltaScenario, blankState]
  obtain ⟨a, -, c, d⟩ := initializeChainsRounded_spec roundDouble tinyDeltaScenario rfl rfl
  refine ⟨rfl, by rw [hd]; norm_num, ?_, ht, a, c, ?_⟩
  · rw [hd, hz]
    exact roundDouble_two_zpow _
  · rw [d]
    show (List.range 2).map _ = _
    have e : ∀ i, i ≤ 1 → initialHeatRounded roundDouble tinyDeltaScenario i = 1 := by
      intro i hi
      unfold initialHeatRounded
      rw [if_neg (not_not.mpr ht)]
      exact computeBetaRounded_tiny _ _ i hd hi
    simp [List.range_succ, e]

/-- Initialization with the geometric schedule in exact arithmetic: chain `i` has the heat
`1 / (1 + delta * i)`, chain `0` has the heat `1`, the heats are strictly decreasing in the
index and the rank map is the identity. -/
theorem geometric_exact (s : State α)
    (hN : 1 ≤ s.num_chains) (hd : 0 < s.delta) (hno : s.heat_temps.getD 0 0 = 0)
    (h1 : s.heat_ranks.length = s.num_chains) (h2 : s.chain_heats.length = s.num_chains)
    (h3 : s.chain_moves_tuningInfo.length = s.num_chains)
    (h4 : s.pid_per_chain.length = s.num_chains) (h5 : s.chains.length = s.num_chains) :
    (initializeChains s).chain_heats =
      (List.range s.num_chains).map (fun (i : Nat) => 1 / (1 + s.delta * (i : α))) ∧
    (initializeChains s).chain_heats.getD 0 0 = 1 ∧
    (∀ i j, i < j → j < s.num_chains →
      (initializeChains s).chain_heats.getD j 0 < (initializeChains s).chain_heats.getD i 0) ∧
    (initializeChains s).heat_ranks = List.range s.num_chains := by
  rw [initializeChains_spec s h1 h2 h3 h4 h5]
  dsimp only
  have e : (List.range s.num_chains).map (initialHeat s) =
      (List.range s.num_chains).map (fun (i : Nat) => 1 / (1 + s.delta * (i : α))) := by
    apply List.map_congr_left
    intro i _
    exact initialHeat_geometric s i hno
  rw [e]
  refine ⟨rfl, ?_, ?_, rfl⟩
  · rw [getD_map_range _ _ _ _ hN]
    simp
  · intro i j hij hj
    rw [getD_map_range _ _ _ _ hj, getD_map_range _ _ _ _ (lt_trans hij hj)]
    exact geometric_strict _ hd i j hij

/-- One neighbor swap of the build with `RB_MPI` on the process of rank `1`, which is not
the coordinator: it draws `1/2` and picks the chains `(1, 2)`, the coordinator draws `0`,
picks `(0, 1)`, accepts and sends `(0, 1, true)`.  The counters of the process were all
zero; after the swap its attempt is counted in the cell `(1, 2)`, the acceptance in the
cell `(0, 1)`, and the ranks of the chains `0` and `1` are exchanged. -/
theorem mpiWorker_swap :
    mpiWorker.active_PID ≠ mpiWorker.pid ∧
    mpiWorker.heat_ranks = [0, 1, 2] ∧
    mpiWorker.numAttemptedSwaps = [[0, 0, 0], [0, 0, 0], [0, 0, 0]] ∧
    mpiWorker.numAcceptedSwaps = [[0, 0, 0], [0, 0, 0], [0, 0, 0]] ∧
    neighborIndex mpiWorker (1 / 2) = 1 ∧
    (swapNeighborChainsMPI expStub mpiCoordinator 0 0 (0, 0, false)).2 = (0, 1, true) ∧
    (neighborSwapOnTwoProcesses expStub mpiCoordinator mpiWorker 0 0 (1 / 2) 0).2.numAttemptedSwaps
      = [[0, 0, 0], [0, 0, 1], [0, 0, 0]] ∧
    (neighborSwapOnTwoProcesses expStub mpiCoordinator mpiWorker 0 0 (1 / 2) 0).2.numAcceptedSwaps
      = [[0, 1, 0], [0, 0, 0], [0, 0, 0]] ∧
    (neighborSwapOnTwoProcesses expStub mpiCoordinator mpiWorker 0 0 (1 / 2) 0).2.heat_ranks
      = [1, 0, 2] := by
  obtain ⟨c1, c2, c3, c4, c5, c6, c7, c8⟩ := mpiCoordinator_fields
  obtain ⟨w1, w2, w3, w4, w5, w6, w7, w8⟩ := mpiWorker_fields
  have jc : neighborIndex mpiCoordinator 0 = 0 := by
    unfold neighborIndex; simp
  have jw : neighborIndex mpiWorker (1 / 2) = 1 := by
    unfold neighborIndex
    rw [w1]
    norm_num
  have acc : acceptTest expStub (lnR mpiCoordinator 0 1) 0 = true := by
    unfold lnR acceptTest
    rw [c5, c6]
    norm_num
  have ec := swapNeighborChainsMPI_coordinator expStub mpiCoordinator 0 0 (0, 0, false)
    (by rw [c2, c3])
  rw [jc, acc] at ec
  have ew := swapNeighborChainsMPI_worker expStub mpiWorker (1 / 2) 0 (0, 0 + 1, true)
    (by rw [w2, w3]; decide)
  rw [jw] at ew
  have e2 : (neighborSwapOnTwoProcesses expStub mpiCoordinator mpiWorker 0 0 (1 / 2) 0).2
      = applyDecision (countAttempt mpiWorker 1 (1 + 1)) 0 (0 + 1) true := by
    unfold neighborSwapOnTwoProcesses
    dsimp only
    rw [ec, ew]
  obtain ⟨cs2, d2⟩ := applyDecision_true (countAttempt mpiWorker 1 (1 + 1)) 0 (0 + 1)
  rw [e2, d2]
  refine ⟨by rw [w2, w3]; decide, w4, w7, w8, jw, by rw [ec], ?_, ?_, ?_⟩
  · show matIncr mpiWorker.numAttemptedSwaps _ _ = _
    rw [w7, w4]
    rfl
  · show matIncr mpiWorker.numAcceptedSwaps _ _ = _
    rw [w8]
    show matIncr _ (mpiWorker.heat_ranks.getD 0 0) (mpiWorker.heat_ranks.getD (0 + 1) 0) = _
    rw [w4]
    rfl
  · show exchange mpiWorker.heat_ranks 0 (0 + 1) 0 = _
    rw [w4]
    rfl

/-- With no rounding `tuneRounded` is `tune`. -/
theorem tuneRounded_id (pw : α → α → α) (f : List (TuningInfo α) → List (TuningInfo α))
    (s : State α) : tuneRounded id pw f s = tune pw f s := by
  have hf : ∀ (ranks : List Nat) (d : List α) (N n : Nat) (heats : List α),
      tuneForwardRounded id ranks d N n heats = tuneForward ranks d N n heats := by
    intro ranks d N n
    induction n with
    | zero => intro heats; rfl
    | succ n ih =>
      intro heats
      rw [tuneForwardRounded, tuneForward]
      simp only [id, ih]
      rfl
  have hh : tunedHeatsRounded id pw s = tunedHeats pw s := by
    unfold tunedHeatsRounded tunedHeats
    dsimp only
    rw [hf]
    rfl
  unfold tuneRounded tune
  rw [hh]

/-- Every operation of the exact model is an operation, or no operation, of the model
with rounding when nothing is rounded. -/
theorem reachableRounded_of_step (ex : α → α) (pw : α → α → α) (s s2 : State α)
    (h : Step ex pw s s2) : ReachableRounded id pw s s2 := by
  cases h with
  | swap swap_method draws _ rest hd hs =>
    rcases swapChains_cases ex s swap_method draws s2 rest hd hs with
      ⟨_, rfl⟩ | ⟨hN, rfl | ⟨j, k, u, hj, hk, hjk, rfl⟩⟩
    · exact Relation.ReflTransGen.refl
    · exact Relation.ReflTransGen.single (StepRounded.noswap s)
    · exact Relation.ReflTransGen.single (StepRounded.swap s j k _ hj hk hjk)
  | tune f =>
    rw [← tuneRounded_id]
    exact Relation.ReflTransGen.single (StepRounded.tune s f)
  | resetCounters => exact Relation.ReflTransGen.single (StepRounded.resetCounters s)
  | advance cs2 cg bg hc =>
    exact Relation.ReflTransGen.single (StepRounded.advance s cs2 cg bg hc)

/-- The states of the exact model are states of the model with rounding when nothing is
rounded. -/
theorem reachableRounded_of_reachable (ex : α → α) (pw : α → α → α) (s0 s : State α)
    (h : Reachable ex pw s0 s) : ReachableRounded id pw s0 s := by
  induction h with
  | refl => exact Relation.ReflTransGen.refl
  | tail _ hstep ih => exact ih.trans (reachableRounded_of_step ex pw _ _ hstep)

end Lemmas

/-! ## Initialization -/

section InitClaims

variable {α : Type} [LinearOrderedField α] [FloorRing α]

/-- C10 fails as stated, the arithmetic of the program being `double`: two chains and the
spacing `delta = 2^-60 > 0`, which is a `double`.  For chain `1` the product `delta * 1`
is exact, the sum `1.0 + 2^-60` is rounded to `1.0` and the quotient is `1.0`:
`initializeChains` gives chain `1` the heat `1`, which is not `1 / (1 + delta)`, and the
heats are not strictly decreasing. -/
theorem geometric_heats_tie_in_double :
    tinyDeltaScenario.num_chains = 2 ∧ 0 < tinyDeltaScenario.delta ∧
    roundDouble tinyDeltaScenario.delta = tinyDeltaScenario.delta ∧
    tinyDeltaScenario.heat_temps.getD 0 0 = 0 ∧
    (initializeChainsRounded roundDouble tinyDeltaScenario).chain_heats = [1, 1] ∧
    (initializeChainsRounded roundDouble tinyDeltaScenario).chain_heats.getD 1 0
      ≠ 1 / (1 + tinyDeltaScenario.delta * ((1 : Nat) : ℚ)) ∧
    ¬ ((initializeChainsRounded roundDouble tinyDeltaScenario).chain_heats.getD 1 0
      < (initializeChainsRounded roundDouble tinyDeltaScenario).chain_heats.getD 0 0) := by
  obtain ⟨a, b, c, d, -, -, e⟩ := tinyDeltaScenario_heats
  refine ⟨a, b, c, d, e, ?_, ?_⟩
  · rw [e]
    have hd : tinyDeltaScenario.delta = 1 / 2 ^ 60 := rfl
    rw [hd]
    norm_num
  · rw [e]
    norm_num

/-- C10, amended: initialization without an explicit heat vector, for at least one chain
and a spacing `delta > 0`.  In an arithmetic that rounds the result of every operation by
`rn`, where `rn` is exact on `0` and on `1` and monotone on the non-negative numbers (the
rounding of `double` is such a rounding, and so is no rounding at all), `heat_ranks` is the
identity, `chain_heats[i]` is `1 / (1 + delta * i)` as that arithmetic computes it, the
heat of chain `0` is exactly `1` and the heats do not increase with the chain index.  In
exact arithmetic `chain_heats[i] = 1 / (1 + delta * i)`, the heat of chain `0` is `1`, the
heats are strictly decreasing in the chain index and `heat_ranks` is the identity. -/
theorem geometric_initialization (rn : α → α) (s : State α)
    (hN : 1 ≤ s.num_chains) (hd : 0 < s.delta) (hno : s.heat_temps.getD 0 0 = 0)
    (h1 : s.heat_ranks.length = s.num_chains) (h2 : s.chain_heats.length = s.num_chains)
    (h3 : s.chain_moves_tuningInfo.length = s.num_chains)
    (h4 : s.pid_per_chain.length = s.num_chains) (h5 : s.chains.length = s.num_chains)
    (r0 : rn 0 = 0) (r1 : rn 1 = 1) (rm : ∀ x y, 0 ≤ x → x ≤ y → rn x ≤ rn y) :
    ((initializeChainsRounded rn s).heat_ranks = List.range s.num_chains ∧
     (initializeChainsRounded rn s).chain_heats =
       (List.range s.num_chains).map
         (fun (i : Nat) => rn (1 / rn (1 + rn (s.delta * (i : α))))) ∧
     (initializeChainsRounded rn s).chain_heats.getD 0 0 = 1 ∧
     (∀ i j, i < j → j < s.num_chains →
       (initializeChainsRounded rn s).chain_heats.getD j 0
         ≤ (initializeChainsRounded rn s).chain_heats.getD i 0)) ∧
    ((initializeChains s).chain_heats =
       (List.range s.num_chains).map (fun (i : Nat) => 1 / (1 + s.delta * (i : α))) ∧
     (initializeChains s).chain_heats.getD 0 0 = 1 ∧
     (∀ i j, i < j → j < s.num_chains →
       (initializeChains s).chain_heats.getD j 0 < (initializeChains s).chain_heats.getD i 0) ∧
     (initializeChains s).heat_ranks = List.range s.num_chains) :=
  ⟨geometric_rounded rn s hN hd hno h1 h2 r0 r1 rm,
    geometric_exact s hN hd hno h1 h2 h3 h4 h5⟩

/-- Four chains with the spacing `1/5`: in exact arithmetic the constructor leaves the
heats `1, 5/6, 5/7, 5/8` and the rank map `0, 1, 2, 3`; in `double` arithmetic the heat of
chain `0` is `1` and the rank map is the same. -/
theorem geometric_initialization_witness :
    (construct base0 4 1 (1 / 5) true "neighbor" 1 0 0).chain_heats = [1, 5 / 6, 5 / 7, 5 / 8] ∧
    (construct base0 4 1 (1 / 5) true "neighbor" 1 0 0).heat_ranks = [0, 1, 2, 3] ∧
    (initializeChainsRounded roundDouble
      (blankState base0 4 1 (1 / 5) true true false 1 0 0)).chain_heats.getD 0 0 = 1 ∧
    (initializeChainsRounded roundDouble
      (blankState base0 4 1 (1 / 5) true true false 1 0 0)).heat_ranks = [0, 1, 2, 3] := by
  have h := geometric_initialization roundDouble (blankState base0 4 1 (1 / 5) true true false 1 0 0)
    (by decide) (by norm_num [blankState]) (by simp [blankState]) (by simp [blankState])
    (by simp [blankState]) (by simp [blankState]) (by simp [blankState]) (by simp [blankState])
    roundDouble_zero roundDouble_one roundDouble_mono
  have hc : construct base0 4 1 (1 / 5) true "neighbor" 1 0 0 =
      initializeChains (blankState base0 4 1 (1 / 5) true true false 1 0 0) := by
    rw [construct_eq_initializeChains]
    rfl
  obtain ⟨⟨a1, -, a3, -⟩, b1, -, -, b4⟩ := h
  rw [hc, b1, b4, a1]
  refine ⟨?_, ?_, a3, ?_⟩
  · simp [blankState, List.range_succ]
    norm_num
  · simp [blankState, List.range_succ]
  · simp [blankState, List.range_succ]

/-- C11: when a heat vector `ht` of length `num_chains` with every entry in `(0, 1]`
has been supplied through `setHeatsInitial`, the initialization of the chains, whether
called directly (`initializeChains`) or from `setActivePIDSpecialized`, leaves
`chain_heats` equal to `ht` entry by entry whatever `delta` is, and `heat_ranks` equal to
the identity permutation `0, 1, ..., num_chains - 1`. -/
theorem explicit_heats_initialization (s : State α) (ht : List α) (i n : Nat)
    (hlen : ht.length = s.num_chains) (hpos : ∀ x ∈ ht, 0 < x ∧ x ≤ 1)
    (h1 : s.heat_ranks.length = s.num_chains) (h2 : s.chain_heats.length = s.num_chains)
    (h3 : s.chain_moves_tuningInfo.length = s.num_chains)
    (h4 : s.pid_per_chain.length = s.num_chains) (h5 : s.chains.length = s.num_chains) :
    ((initializeChains (setHeatsInitial s ht)).chain_heats = ht ∧
     (initializeChains (setHeatsInitial s ht)).heat_ranks = List.range s.num_chains) ∧
    ((setActivePIDSpecialized (setHeatsInitial s ht) i n).chain_heats = ht ∧
     (setActivePIDSpecialized (setHeatsInitial s ht) i n).heat_ranks
       = List.range s.num_chains) ∧
    (∀ a, a < s.num_chains →
      (initializeChains (setHeatsInitial s ht)).chain_heats.getD a 0 = ht.getD a 0 ∧
      (initializeChains (setHeatsInitial s ht)).heat_ranks.getD a 0 = a) := by
  have h0 : 1 ≤ s.num_chains → ht.getD 0 0 ≠ 0 := by
    intro hN
    have hl : 0 < ht.length := by omega
    rw [List.getD_eq_getElem _ _ hl]
    exact ne_of_gt (hpos _ (List.getElem_mem hl)).1
  have a := initializeChains_explicit s ht hlen h0 h1 h2 h3 h4 h5
  refine ⟨a, ?_, ?_⟩
  · unfold setActivePIDSpecialized
    dsimp only
    have b := initializeChains_explicit
      { s with chains := List.replicate s.num_chains none
               chain_values := List.replicate s.num_chains 0
               chain_heats := List.replicate s.num_chains 0
               pid_per_chain := resize s.pid_per_chain s.num_chains 0
               heat_ranks := List.replicate s.num_chains 0
               chain_moves_tuningInfo := List.replicate s.num_chains [] } ht hlen h0
      (by simp) (by simp) (by simp) (resize_length _ _ _) (by simp)
    exact b
  · intro x hx
    rw [a.1, a.2, List.getD_eq_getElem (List.range s.num_chains) 0 (by simpa using hx)]
    simp

/-- Three chains with spacing `1/5` and the explicit heats `1, 1/2, 1/4`: the heats of the
chains are the supplied ones and the ranks are `0, 1, 2`. -/
theorem explicit_heats_initialization_witness :
    (initializeChains (setHeatsInitial
        (blankState base0 3 1 (1 / 5) true true false 1 0 0) [1, 1 / 2, 1 / 4])).chain_heats
      = [1, 1 / 2, 1 / 4] ∧
    (initializeChains (setHeatsInitial
        (blankState base0 3 1 (1 / 5) true true false 1 0 0) [1, 1 / 2, 1 / 4])).heat_ranks
      = [0, 1, 2] :=
  (explicit_heats_initialization (blankState base0 3 1 (1 / 5) true true false 1 0 0)
    [1, 1 / 2, 1 / 4] 0 0 rfl
    (by
      intro x hx
      simp only [List.mem_cons, List.mem_singleton, List.not_mem_nil, or_false] at hx
      rcases hx with rfl | rfl | rfl <;> norm_num)
    rfl rfl rfl rfl rfl).1

end InitClaims

/-! ## Invariants of the reachable states -/

section InvariantClaims

variable {α : Type} [LinearOrderedField α] [FloorRing α]

/-- C4: in every state reached from an initialization by calls of `swapChains` (neighbor or
random, accepted or rejected), `tune` and `resetCounters`, `heat_ranks` is a permutation of
`[0, num_chains)`: it has length `num_chains` and every value below `num_chains` occurs in
it exactly once. -/
theorem heat_ranks_permutation (ex : α → α) (pw : α → α → α) (s0 s : State α)
    (h1 : s0.heat_ranks.length = s0.num_chains) (h2 : s0.chain_heats.length = s0.num_chains)
    (h3 : s0.chain_moves_tuningInfo.length = s0.num_chains)
    (h4 : s0.pid_per_chain.length = s0.num_chains) (h5 : s0.chains.length = s0.num_chains)
    (h : Reachable ex pw (initializeChains s0) s) :
    s.num_chains = s0.num_chains ∧
    s.heat_ranks.Perm (List.range s.num_chains) ∧
    s.heat_ranks.length = s.num_chains ∧
    ∀ v, v < s.num_chains → s.heat_ranks.count v = 1 := by
  have h0 : (initializeChains s0).heat_ranks.Perm
      (List.range (initializeChains s0).num_chains) := by
    rw [initializeChains_spec s0 h1 h2 h3 h4 h5]
  have hr := reachable_ranks ex pw _ s h h0
  have hn : (initializeChains s0).num_chains = s0.num_chains := by
    rw [initializeChains_spec s0 h1 h2 h3 h4 h5]
  refine ⟨hr.1.trans hn, hr.2, by simpa using hr.2.length_eq, fun v hv => ?_⟩
  rw [hr.2.count_eq]
  exact List.count_eq_one_of_mem (List.nodup_range _) (List.mem_range.mpr hv)

theorem heat_ranks_permutation_witness :
    (tune powStub id (initializeChains
      (blankState base0 3 1 (1 / 5) true true true 1 0 0))).heat_ranks.Perm
      (List.range (tune powStub id (initializeChains
        (blankState base0 3 1 (1 / 5) true true true 1 0 0))).num_chains) :=
  (heat_ranks_permutation expStub powStub (blankState base0 3 1 (1 / 5) true true true 1 0 0) _
    (by simp [blankState]) (by simp [blankState]) (by simp [blankState])
    (by simp [blankState]) (by simp [blankState])
    (Relation.ReflTransGen.single (Step.tune _ id))).2.1

/-- C8 at the failing input: after one accepted neighbor swap of the chains `0` and `1`
from the initial state of three chains, the draw `1/2` makes `swapNeighborChains` test
the chains `1` and `2`, which hold the ranks `0` and `2`: the tested ranks are not
adjacent. -/
theorem neighbor_swap_tests_nonadjacent_ranks :
    ∃ s : State ℚ,
      Reachable expStub powStub (construct base0 3 1 (1 / 5) true "neighbor" 1 0 0) s ∧
      s.num_chains = 3 ∧ s.heat_ranks = [1, 0, 2] ∧
      neighborIndex s (1 / 2) = 1 ∧
      s.heat_ranks.getD (neighborIndex s (1 / 2)) 0 = 0 ∧
      s.heat_ranks.getD (neighborIndex s (1 / 2) + 1) 0 = 2 := by
  obtain ⟨s1, s2, r1, -, n1, k1, -, -, -, -⟩ := two_swaps_reachable
  have j2 : neighborIndex s1 (1 / 2) = 1 := by
    unfold neighborIndex; rw [n1]; norm_num
  refine ⟨s1, r1, n1, k1, j2, ?_, ?_⟩
  · rw [j2, k1]; rfl
  · rw [j2, k1]; rfl

/-- C19 at the failing input: two chains on one process with the explicit heats
`1/2, 1` supplied through `setHeatsInitial`.  After `initializeChains` both chains are
owned and hold the heats recorded in `chain_heats`, but chain `0`, whose heat is `1/2`,
was made active, and chain `1`, whose heat is `1`, was made inactive: the flag set at
line 318 is `i == 0`, not `chain_heats[i] == 1.0`. -/
theorem initial_active_flag_ignores_heat :
    (initializeChains (setHeatsInitial
        (blankState base0 2 1 (1 / 5) true true false 1 0 0) [1 / 2, 1])).chains
      = [some { base0 with chain_active := true, chain_posterior_heat := 1 / 2,
                           chain_idx := 0 },
         some { base0 with chain_active := false, chain_posterior_heat := 1,
                           chain_idx := 1 }] ∧
    (initializeChains (setHeatsInitial
        (blankState base0 2 1 (1 / 5) true true false 1 0 0) [1 / 2, 1])).chain_heats
      = [1 / 2, 1] := by
  have o0 := ownsChain_single
    (setHeatsInitial (blankState base0 2 1 (1 / 5) true true false 1 0 0) [1 / 2, 1]) 0
    rfl rfl (by decide)
  have o1 := ownsChain_single
    (setHeatsInitial (blankState base0 2 1 (1 / 5) true true false 1 0 0) [1 / 2, 1]) 1
    rfl rfl (by decide)
  rw [initializeChains_spec _ rfl rfl rfl rfl rfl]
  refine ⟨?_, ?_⟩
  · show (List.range 2).map (initialSlot _) = _
    simp only [List.range_succ, List.range_zero, List.nil_append, List.cons_append,
      List.map_cons, List.map_nil, initialSlot, o0, o1, if_true]
    simp [initialHeat, setHeatsInitial, blankState]
  · show (List.range 2).map (initialHeat _) = _
    simp [List.range_succ, initialHeat, setHeatsInitial, blankState]

end InvariantClaims

/-! ## The swap test and its effect -/

section SwapClaims

variable {α : Type} [LinearOrderedField α] [FloorRing α]

/-- C1: in both swap functions the attempt on the chosen pair `(j, k)` computes
`lnR = b_j (lnP_k - lnP_j) + b_k (lnP_j - lnP_k)` and takes the accept branch exactly when
`lnR ≥ 0`, or `-100 ≤ lnR < 0` and `u < exp lnR`; `lnR ≥ 0` accepts and `lnR < -100`
rejects whatever `u` is; heats `[1, 1/2]` with log-probabilities `[-10, -12]` give
`lnR = -1` and the test `u < exp (-1)`. -/
theorem swap_acceptance_rule (ex : α → α) (s : State α) (base : Chain α) :
    (∀ u1 u2, swapNeighborChains ex s u1 u2 =
        swapAttempt ex s (neighborIndex s u1) (neighborIndex s u1 + 1) u2) ∧
    (∀ draws, swapRandomChains ex s draws =
        match randomPair s draws with
        | some ((j, k), u :: rest) => some (swapAttempt ex s j k u, rest)
        | _ => none) ∧
    (∀ j k u,
      let L := s.chain_heats.getD j 0 * (s.chain_values.getD k 0 - s.chain_values.getD j 0)
        + s.chain_heats.getD k 0 * (s.chain_values.getD j 0 - s.chain_values.getD k 0)
      let counted := countAttempt s j k
      swapAttempt ex s j k u =
          applyDecision counted j k (decide (0 ≤ L ∨ (-100 ≤ L ∧ L < 0 ∧ u < ex L))) ∧
      (0 ≤ L → swapAttempt ex s j k u = applyDecision counted j k true) ∧
      (L < -100 → swapAttempt ex s j k u = applyDecision counted j k false)) ∧
    lnR (twoChainScenario base) 0 1 = -1 ∧
    (∀ u, acceptTest ex (lnR (twoChainScenario base) 0 1) u = decide (u < ex (-1))) := by
  refine ⟨fun _ _ => rfl, fun _ => rfl, ?_, ?_, ?_⟩
  · intro j k u L counted
    have hL : lnR counted j k = L := by simp [lnR, L, counted, countAttempt]
    have h1 : swapAttempt ex s j k u = applyDecision counted j k (acceptTest ex L u) := by
      unfold swapAttempt
      simp only [← hL, counted]
    refine ⟨?_, ?_, ?_⟩
    · rw [h1, acceptTest_eq_decide]
    · intro h
      rw [h1, acceptTest_eq_decide]
      simp [h]
    · intro h
      rw [h1, acceptTest_eq_decide]
      have h2 : ¬ (0 ≤ L) := not_le.mpr (lt_trans h (by norm_num))
      have h3 : ¬ (-100 ≤ L) := not_le.mpr h
      simp [h2, h3]
  · simp [lnR, twoChainScenario]
    norm_num
  · intro u
    have h : lnR (twoChainScenario base) 0 1 = -1 := by
      simp [lnR, twoChainScenario]
      norm_num
    rw [h, acceptTest_eq_decide]
    norm_num

/-- C2: an accepted swap attempt on two distinct chain indices exchanges the entries `j`
and `k` of `chain_heats`, of `heat_ranks` and of `chain_moves_tuningInfo`, leaves the
entries of every other index as they were and leaves `chain_values` unchanged. -/
theorem accepted_swap_exchanges (ex : α → α) (s : State α) (j k : Nat) (u : α)
    (hN : 2 ≤ s.num_chains) (hj : j < s.num_chains) (hk : k < s.num_chains) (hjk : j ≠ k)
    (hheats : s.chain_heats.length = s.num_chains)
    (hranks : s.heat_ranks.length = s.num_chains)
    (htuning : s.chain_moves_tuningInfo.length = s.num_chains)
    (hacc : acceptTest ex (lnR s j k) u = true) :
    (swapAttempt ex s j k u).chain_heats.getD j 0 = s.chain_heats.getD k 0 ∧
    (swapAttempt ex s j k u).chain_heats.getD k 0 = s.chain_heats.getD j 0 ∧
    (swapAttempt ex s j k u).heat_ranks.getD j 0 = s.heat_ranks.getD k 0 ∧
    (swapAttempt ex s j k u).heat_ranks.getD k 0 = s.heat_ranks.getD j 0 ∧
    (swapAttempt ex s j k u).chain_moves_tuningInfo.getD j [] =
      s.chain_moves_tuningInfo.getD k [] ∧
    (swapAttempt ex s j k u).chain_moves_tuningInfo.getD k [] =
      s.chain_moves_tuningInfo.getD j [] ∧
    (∀ i, i ≠ j → i ≠ k →
      (swapAttempt ex s j k u).chain_heats.getD i 0 = s.chain_heats.getD i 0 ∧
      (swapAttempt ex s j k u).heat_ranks.getD i 0 = s.heat_ranks.getD i 0 ∧
      (swapAttempt ex s j k u).chain_moves_tuningInfo.getD i [] =
        s.chain_moves_tuningInfo.getD i []) ∧
    (swapAttempt ex s j k u).chain_heats.length = s.num_chains ∧
    (swapAttempt ex s j k u).heat_ranks.length = s.num_chains ∧
    (swapAttempt ex s j k u).chain_moves_tuningInfo.length = s.num_chains ∧
    (swapAttempt ex s j k u).chain_values = s.chain_values := by
  have h1 : swapAttempt ex s j k u =
      applyDecision (countAttempt s j k) j k true := by
    unfold swapAttempt
    have : lnR (countAttempt s j k) j k
        = lnR s j k := rfl
    simp only [this, hacc]
  obtain ⟨cs, h2⟩ := applyDecision_true (countAttempt s j k) j k
  rw [h1, h2]
  simp only [countAttempt]
  have a1 : j < s.chain_heats.length := hheats ▸ hj
  have a2 : k < s.chain_heats.length := hheats ▸ hk
  have b1 : j < s.heat_ranks.length := hranks ▸ hj
  have b2 : k < s.heat_ranks.length := hranks ▸ hk
  have c1 : j < s.chain_moves_tuningInfo.length := htuning ▸ hj
  have c2 : k < s.chain_moves_tuningInfo.length := htuning ▸ hk
  simp only [exchange_getD _ _ _ _ _ a1 a2, exchange_getD _ _ _ _ _ b1 b2,
    exchange_getD _ _ _ _ _ c1 c2, exchange_length, hheats, hranks, htuning,
    if_true, if_neg hjk, true_and, and_true]
  intro i hij hik
  simp only [if_neg hij, if_neg hik, and_self]

theorem accepted_swap_exchanges_witness :
    (swapAttempt expStub sampleState 0 1 (1 / 2)).chain_heats = [5 / 6, 1, 5 / 7] ∧
    (swapAttempt expStub sampleState 0 1 (1 / 2)).heat_ranks = [1, 0, 2] ∧
    (swapAttempt expStub sampleState 0 1 (1 / 2)).chain_values = [-12, -10, -11] := by
  obtain ⟨f1, f2, f3, f4, f5, f6, f7⟩ := sampleState_fields
  have h := accepted_swap_exchanges expStub sampleState 0 1 (1 / 2)
    (by rw [f1]; decide) (by rw [f1]; decide) (by rw [f1]; decide) (by decide)
    (by rw [f1, f2]; rfl) (by rw [f1, f3]; rfl) (by rw [f1, f5]; rfl)
    (by simp only [acceptTest, lnR, f2, f4]; norm_num)
  obtain ⟨h1, h2, h3, h4, -, -, h7, h8, h9, -, h11⟩ := h
  refine ⟨?_, ?_, ?_⟩
  · apply ext_getD _ _ 0 (by rw [h8, f1]; rfl)
    intro i hi
    rw [h8, f1] at hi
    interval_cases i
    · rw [h1, f2]; rfl
    · rw [h2, f2]; rfl
    · rw [(h7 2 (by decide) (by decide)).1, f2]; rfl
  · apply ext_getD _ _ 0 (by rw [h9, f1]; rfl)
    intro i hi
    rw [h9, f1] at hi
    interval_cases i
    · rw [h3, f3]; rfl
    · rw [h4, f3]; rfl
    · rw [(h7 2 (by decide) (by decide)).2.1, f3]; rfl
  · rw [h11, f4]

/-- C6: applying the accepted swap of the same pair `(j, k)` twice, acceptance forced both
times, returns `chain_heats`, `heat_ranks` and `chain_moves_tuningInfo` to their values
before the first swap. -/
theorem accepted_swap_twice (s : State α) (j k : Nat)
    (hN : 2 ≤ s.num_chains) (hj : j < s.num_chains) (hk : k < s.num_chains) (hjk : j ≠ k)
    (hheats : s.chain_heats.length = s.num_chains)
    (hranks : s.heat_ranks.length = s.num_chains)
    (htuning : s.chain_moves_tuningInfo.length = s.num_chains) :
    (applyDecision (applyDecision s j k true) j k true).chain_heats = s.chain_heats ∧
    (applyDecision (applyDecision s j k true) j k true).heat_ranks = s.heat_ranks ∧
    (applyDecision (applyDecision s j k true) j k true).chain_moves_tuningInfo =
      s.chain_moves_tuningInfo := by
  obtain ⟨cs, h1⟩ := applyDecision_true s j k
  obtain ⟨cs2, h2⟩ := applyDecision_true (applyDecision s j k true) j k
  rw [h2]
  simp only [h1]
  exact ⟨exchange_exchange _ _ _ _ (hheats ▸ hj) (hheats ▸ hk),
    exchange_exchange _ _ _ _ (hranks ▸ hj) (hranks ▸ hk),
    exchange_exchange _ _ _ _ (htuning ▸ hj) (htuning ▸ hk)⟩

theorem accepted_swap_twice_witness :
    (applyDecision (applyDecision sampleState 0 1 true) 0 1 true).chain_heats =
      [1, 5 / 6, 5 / 7] ∧
    (applyDecision (applyDecision sampleState 0 1 true) 0 1 true).heat_ranks = [0, 1, 2] := by
  obtain ⟨f1, f2, f3, f4, f5, f6, f7⟩ := sampleState_fields
  have h := accepted_swap_twice sampleState 0 1
    (by rw [f1]; decide) (by rw [f1]; decide) (by rw [f1]; decide) (by decide)
    (by rw [f1, f2]; rfl) (by rw [f1, f3]; rfl) (by rw [f1, f5]; rfl)
  rw [h.1, h.2.1, f2, f3]
  exact ⟨rfl, rfl⟩

/-- C7 at the failing input: the build with `RB_MPI`, three chains on two processes, on
the process of rank `1`, which is not the coordinator.  The rank map `R` before the
attempt is the identity and the counters are zero.  The process draws `1/2` and picks the
chains `(1, 2)`; the coordinator picks `(0, 1)`, accepts, and sends `(0, 1, true)`.  On the
process the swap exchanges the ranks of the chains `0` and `1`, yet the only attempted
counter that grows is that of the cell `(1, 2)`, not that of `(R[0], R[1]) = (0, 1)`, while
the only accepted counter that grows is that of the cell `(0, 1)`: the two increments are
not in the same cell. -/
theorem worker_counts_acceptance_apart :
    mpiWorker.active_PID ≠ mpiWorker.pid ∧ mpiWorker.heat_ranks = [0, 1, 2] ∧
    neighborIndex mpiWorker (1 / 2) = 1 ∧
    (swapNeighborChainsMPI expStub mpiCoordinator 0 0 (0, 0, false)).2 = (0, 1, true) ∧
    (neighborSwapOnTwoProcesses expStub mpiCoordinator mpiWorker 0 0 (1 / 2) 0).2.heat_ranks
      = [1, 0, 2] ∧
    (∀ r c,
      matGet (neighborSwapOnTwoProcesses expStub mpiCoordinator mpiWorker
          0 0 (1 / 2) 0).2.numAttemptedSwaps r c
        = matGet mpiWorker.numAttemptedSwaps r c + if r = 1 ∧ c = 2 then 1 else 0) ∧
    (∀ r c,
      matGet (neighborSwapOnTwoProcesses expStub mpiCoordinator mpiWorker
          0 0 (1 / 2) 0).2.numAcceptedSwaps r c
        = matGet mpiWorker.numAcceptedSwaps r c + if r = 0 ∧ c = 1 then 1 else 0) ∧
    matGet (neighborSwapOnTwoProcesses expStub mpiCoordinator mpiWorker
        0 0 (1 / 2) 0).2.numAttemptedSwaps
        (mpiWorker.heat_ranks.getD 0 0) (mpiWorker.heat_ranks.getD 1 0)
      = matGet mpiWorker.numAttemptedSwaps
        (mpiWorker.heat_ranks.getD 0 0) (mpiWorker.heat_ranks.getD 1 0) := by
  obtain ⟨p, r0, a0, b0, jw, tc, a1, b1, r1⟩ := mpiWorker_swap
  refine ⟨p, r0, jw, tc, r1, ?_, ?_, ?_⟩
  · intro r c
    rw [a1, a0]
    rcases r with _ | _ | _ | r <;> rcases c with _ | _ | _ | c <;> simp [matGet]
  · intro r c
    rw [b1, b0]
    rcases r with _ | _ | _ | r <;> rcases c with _ | _ | _ | c <;> simp [matGet]
  · rw [a1, a0, r0]
    rfl

/-- Where the pair that is counted is the pair that is tested and exchanged (the build
without `RB_MPI`, and the coordinator of the build with it): a swap attempt on the chain
indices `j`, `k` made with rank map `R` adds one to `numAttemptedSwaps[R[j]][R[k]]`, adds
one to `numAcceptedSwaps[R[j]][R[k]]` (the cell of the rank map before the exchange)
exactly when the attempt is accepted, and changes no other cell of either matrix. -/
theorem swap_counters (ex : α → α) (s : State α) (j k : Nat) (u : α)
    (hr1 : s.heat_ranks.getD j 0 < s.numAttemptedSwaps.length)
    (hc1 : s.heat_ranks.getD k 0 <
      (s.numAttemptedSwaps.getD (s.heat_ranks.getD j 0) []).length)
    (hr2 : s.heat_ranks.getD j 0 < s.numAcceptedSwaps.length)
    (hc2 : s.heat_ranks.getD k 0 <
      (s.numAcceptedSwaps.getD (s.heat_ranks.getD j 0) []).length) :
    (∀ r c, matGet (swapAttempt ex s j k u).numAttemptedSwaps r c =
      matGet s.numAttemptedSwaps r c +
        if s.heat_ranks.getD j 0 = r ∧ s.heat_ranks.getD k 0 = c then 1 else 0) ∧
    (∀ r c, matGet (swapAttempt ex s j k u).numAcceptedSwaps r c =
      matGet s.numAcceptedSwaps r c +
        if acceptTest ex (lnR s j k) u = true ∧
            s.heat_ranks.getD j 0 = r ∧ s.heat_ranks.getD k 0 = c then 1 else 0) := by
  have hL : lnR (countAttempt s j k) j k
        = lnR s j k := rfl
  unfold swapAttempt
  simp only [hL]
  cases hacc : acceptTest ex (lnR s j k) u
  · rw [applyDecision_false]
    refine ⟨fun r c => matGet_matIncr _ _ _ _ _ hr1 hc1, fun r c => ?_⟩
    simp [countAttempt]
  · obtain ⟨cs, h2⟩ := applyDecision_true (countAttempt s j k) j k
    rw [h2]
    simp only [countAttempt]
    refine ⟨fun r c => matGet_matIncr _ _ _ _ _ hr1 hc1, fun r c => ?_⟩
    simp only [true_and]
    exact matGet_matIncr _ _ _ _ _ hr2 hc2

theorem swap_counters_witness :
    matGet (swapAttempt expStub sampleState 0 1 (1 / 2)).numAttemptedSwaps 0 1 = 1 ∧
    matGet (swapAttempt expStub sampleState 0 1 (1 / 2)).numAttemptedSwaps 1 0 = 0 ∧
    matGet (swapAttempt expStub sampleState 0 1 (1 / 2)).numAcceptedSwaps 0 1 = 1 := by
  obtain ⟨f1, f2, f3, f4, f5, f6, f7⟩ := sampleState_fields
  have h := swap_counters expStub sampleState 0 1 (1 / 2)
    (by rw [f3, f6]; decide) (by rw [f3, f6]; decide)
    (by rw [f3, f7]; decide) (by rw [f3, f7]; decide)
  have hacc : acceptTest expStub (lnR sampleState 0 1) (1 / 2) = true := by
    simp only [acceptTest, lnR, f2, f4]; norm_num
  refine ⟨?_, ?_, ?_⟩
  · rw [h.1 0 1, f3, f6]; rfl
  · rw [h.1 1 0, f3, f6]; rfl
  · rw [h.2 0 1, hacc, f3, f7]; rfl

/-- C9: with at least two chains and draws in `[0,1)`, the pair chosen by
`swapRandomChains`, when the selection loop finishes, consists of two distinct chain indices
below `num_chains`; the pair chosen by `swapNeighborChains` is `j < k = j + 1 ≤ num_chains - 1`;
and the ranks read at these indices are below `num_chains` when the rank map is a
permutation, so the indices into the vectors and the counter matrices are in bounds. -/
theorem swap_indices_in_bounds (s : State α) (hN : 2 ≤ s.num_chains) :
    (∀ draws j k rest, (∀ u ∈ draws, 0 ≤ u ∧ u < 1) →
      randomPair s draws = some ((j, k), rest) →
      j ≠ k ∧ j < s.num_chains ∧ k < s.num_chains) ∧
    (∀ u, 0 ≤ u → u < 1 →
      neighborIndex s u < neighborIndex s u + 1 ∧ neighborIndex s u + 1 ≤ s.num_chains - 1) ∧
    (s.heat_ranks.Perm (List.range s.num_chains) →
      ∀ i, i < s.num_chains → s.heat_ranks.getD i 0 < s.num_chains) := by
  refine ⟨?_, ?_, ?_⟩
  · intro draws j k rest hd h
    have := randomPair_spec s hN draws hd j k rest h
    exact ⟨this.2.2.1, this.1, this.2.1⟩
  · intro u h0 h1
    have := neighborIndex_lt s u hN h0 h1
    omega
  · intro hp i hi
    have hlen : s.heat_ranks.length = s.num_chains := by simpa using hp.length_eq
    have hi2 : i < s.heat_ranks.length := hlen ▸ hi
    rw [List.getD_eq_getElem _ _ hi2]
    have : s.heat_ranks[i] ∈ List.range s.num_chains :=
      hp.mem_iff.mp (List.getElem_mem _)
    simpa using this

theorem swap_indices_in_bounds_witness :
    neighborIndex sampleState (1 / 2) < neighborIndex sampleState (1 / 2) + 1 ∧
    neighborIndex sampleState (1 / 2) + 1 ≤ sampleState.num_chains - 1 :=
  (swap_indices_in_bounds sampleState (by rw [sampleState_fields.1]; decide)).2.1 (1 / 2)
    (by norm_num) (by norm_num)

/-- C20: with fewer than two chains `swapChains` returns at once for every swap
method, "neighbor" and "random" included: there is a result (no error), the supply of draws
is returned untouched (no random number is drawn), and the state is returned as it was, so
`chain_heats`, `chain_values`, `heat_ranks`, the tuning snapshots and both counter matrices
are unchanged. -/
theorem swapChains_single_chain (ex : α → α) (s : State α) (swap_method : String)
    (draws : List α) (hN : s.num_chains < 2) :
    swapChains ex s swap_method draws = some (s, draws) ∧
    ∀ s2 rest, swapChains ex s swap_method draws = some (s2, rest) →
      rest = draws ∧ s2.chain_heats = s.chain_heats ∧ s2.chain_values = s.chain_values ∧
      s2.heat_ranks = s.heat_ranks ∧
      s2.chain_moves_tuningInfo = s.chain_moves_tuningInfo ∧
      s2.numAttemptedSwaps = s.numAttemptedSwaps ∧
      s2.numAcceptedSwaps = s.numAcceptedSwaps := by
  have e : swapChains ex s swap_method draws = some (s, draws) := by
    unfold swapChains
    rw [if_pos hN]
  refine ⟨e, ?_⟩
  intro s2 rest h
  rw [e] at h
  injection h with h
  injection h with ha hb
  subst ha
  subst hb
  exact ⟨rfl, rfl, rfl, rfl, rfl, rfl, rfl⟩

/-- A coordinator constructed with one chain: a random swap with no draw at hand returns
the state as it was. -/
theorem swapChains_single_chain_witness :
    swapChains expStub (construct base0 1 1 (1 / 5) true "random" 1 0 0) "random" []
      = some (construct base0 1 1 (1 / 5) true "random" 1 0 0, []) :=
  (swapChains_single_chain expStub (construct base0 1 1 (1 / 5) true "random" 1 0 0)
    "random" [] (by rw [construct_spec]; simp [blankState])).1

end SwapClaims

/-! ## Tuning of the heats and the swap counters -/

section TuneClaims

variable {α : Type} [LinearOrderedField α] [FloorRing α]

/-- C17: after a call of `tune` with heat tuning enabled and at least two chains, every
cell `(r, c)` with `r, c < num_chains` of `numAttemptedSwaps` and of `numAcceptedSwaps` is
zero, so that matrices of `num_chains` rows of `num_chains` cells are the zero matrices,
and `heat_ranks` is what it was before the call. -/
theorem tune_resets_counters (pw : α → α → α)
    (f : List (TuningInfo α) → List (TuningInfo α)) (s : State α)
    (hT : s.tune_heat = true) (hN : 2 ≤ s.num_chains) :
    (∀ r c, r < s.num_chains → c < s.num_chains →
      matGet (tune pw f s).numAttemptedSwaps r c = 0 ∧
      matGet (tune pw f s).numAcceptedSwaps r c = 0) ∧
    (s.numAttemptedSwaps.length = s.num_chains →
      (∀ r, r < s.num_chains → (s.numAttemptedSwaps.getD r []).length = s.num_chains) →
      (tune pw f s).numAttemptedSwaps
        = List.replicate s.num_chains (List.replicate s.num_chains 0)) ∧
    (s.numAcceptedSwaps.length = s.num_chains →
      (∀ r, r < s.num_chains → (s.numAcceptedSwaps.getD r []).length = s.num_chains) →
      (tune pw f s).numAcceptedSwaps
        = List.replicate s.num_chains (List.replicate s.num_chains 0)) ∧
    (tune pw f s).heat_ranks = s.heat_ranks := by
  obtain ⟨e1, e2, e3, -, -⟩ := tune_fields pw f s hT hN
  obtain ⟨z1, z2, ⟨d1, d2⟩, ⟨d3, d4⟩⟩ :=
    resetCounters_spec { s with chain_heats := tunedHeats pw s }
  have c1 : ∀ r c, r < s.num_chains → c < s.num_chains →
      matGet (tune pw f s).numAttemptedSwaps r c = 0 := by
    intro r c hr hc
    rw [e1, z1 r c]
    exact if_pos ⟨hr, hc⟩
  have c2 : ∀ r c, r < s.num_chains → c < s.num_chains →
      matGet (tune pw f s).numAcceptedSwaps r c = 0 := by
    intro r c hr hc
    rw [e2, z2 r c]
    exact if_pos ⟨hr, hc⟩
  refine ⟨fun r c hr hc => ⟨c1 r c hr hc, c2 r c hr hc⟩, ?_, ?_, e3⟩
  · intro hr hc
    apply mat_eq_zero _ _ (by rw [e1, d1]; exact hr) _ c1
    intro r hr2
    rw [e1, d2 r]
    exact hc r hr2
  · intro hr hc
    apply mat_eq_zero _ _ (by rw [e2, d3]; exact hr) _ c2
    intro r hr2
    rw [e2, d4 r]
    exact hc r hr2

/-- Three chains with one attempted and accepted swap counted for the ranks `(0, 1)`:
after `tune` the cell is zero in both matrices and the rank map is `0, 1, 2`. -/
theorem tune_resets_counters_witness :
    (matGet (tune powStub id
        { sampleState with numAttemptedSwaps := [[0, 1, 0], [0, 0, 0], [0, 0, 0]]
                           numAcceptedSwaps := [[0, 1, 0], [0, 0, 0], [0, 0, 0]] }
        ).numAttemptedSwaps 0 1 = 0 ∧
     matGet (tune powStub id
        { sampleState with numAttemptedSwaps := [[0, 1, 0], [0, 0, 0], [0, 0, 0]]
                           numAcceptedSwaps := [[0, 1, 0], [0, 0, 0], [0, 0, 0]] }
        ).numAcceptedSwaps 0 1 = 0) ∧
    (tune powStub id
        { sampleState with numAttemptedSwaps := [[0, 1, 0], [0, 0, 0], [0, 0, 0]]
                           numAcceptedSwaps := [[0, 1, 0], [0, 0, 0], [0, 0, 0]] }
        ).heat_ranks = [0, 1, 2] := by
  have h := tune_resets_counters powStub id
    { sampleState with numAttemptedSwaps := [[0, 1, 0], [0, 0, 0], [0, 0, 0]]
                       numAcceptedSwaps := [[0, 1, 0], [0, 0, 0], [0, 0, 0]] }
    (by rw [sampleState, construct_spec]; rfl)
    (by rw [sampleState, construct_spec]; simp [blankState])
  refine ⟨h.1 0 1 ?_ ?_, ?_⟩
  · rw [sampleState, construct_spec]; simp [blankState]
  · rw [sampleState, construct_spec]; simp [blankState]
  · rw [h.2.2.2]
    exact sampleState_fields.2.2.1

/-- C18: the acceptance ratio computed by `printSummaryPair` for the rank pair `(i, j)`,
for any division `fdiv` that is the division of the field on a divisor that is not zero, is
`accepted[i][j] / attempted[i][j]` when `attempted[i][j] > 0` and is `0` when
`attempted[i][j] = 0`, whatever `fdiv` returns on the divisor zero; and after
`resetCounters` every cell `(r, c)` with `r, c < num_chains` of both matrices is zero and
the ratio of every such pair is `0`. -/
theorem acceptance_ratio_reported (fdiv : α → α → α)
    (hdiv : ∀ a b, b ≠ 0 → fdiv a b = a / b) (s : State α) (i j : Nat) :
    (0 < matGet s.numAttemptedSwaps i j →
      acceptanceRatio fdiv s i j
        = (matGet s.numAcceptedSwaps i j : α) / (matGet s.numAttemptedSwaps i j : α)) ∧
    (matGet s.numAttemptedSwaps i j = 0 → acceptanceRatio fdiv s i j = 0) ∧
    (∀ r c, r < s.num_chains → c < s.num_chains →
      matGet (resetCounters s).numAttemptedSwaps r c = 0 ∧
      matGet (resetCounters s).numAcceptedSwaps r c = 0 ∧
      acceptanceRatio fdiv (resetCounters s) r c = 0) := by
  refine ⟨?_, ?_, ?_⟩
  · intro h
    unfold acceptanceRatio
    dsimp only
    rw [if_neg (by omega)]
    apply hdiv
    have : (0 : α) < (matGet s.numAttemptedSwaps i j : α) := by exact_mod_cast h
    exact ne_of_gt this
  · intro h
    unfold acceptanceRatio
    dsimp only
    rw [if_pos h]
  · intro r c hr hc
    obtain ⟨z1, z2, -, -⟩ := resetCounters_spec s
    have a1 : matGet (resetCounters s).numAttemptedSwaps r c = 0 := by
      rw [z1 r c]
      exact if_pos ⟨hr, hc⟩
    have a2 : matGet (resetCounters s).numAcceptedSwaps r c = 0 := by
      rw [z2 r c]
      exact if_pos ⟨hr, hc⟩
    refine ⟨a1, a2, ?_⟩
    unfold acceptanceRatio
    dsimp only
    rw [if_pos a1]

/-- Three chains with two attempted swaps, one of them accepted, counted for the ranks
`(0, 1)`: the ratio of the pair is `1/2` with the division of `ℚ`. -/
theorem acceptance_ratio_reported_witness :
    acceptanceRatio (fun a b => a / b)
      { sampleState with numAttemptedSwaps := [[0, 2, 0], [0, 0, 0], [0, 0, 0]]
                         numAcceptedSwaps := [[0, 1, 0], [0, 0, 0], [0, 0, 0]] } 0 1
      = 1 / 2 := by
  have h := (acceptance_ratio_reported (fun (a b : ℚ) => a / b) (fun _ _ _ => rfl)
    { sampleState with numAttemptedSwaps := [[0, 2, 0], [0, 0, 0], [0, 0, 0]]
                       numAcceptedSwaps := [[0, 1, 0], [0, 0, 0], [0, 0, 0]] } 0 1).1
    (by decide)
  rw [h]
  simp [matGet]

/-- C15: in a call of `tune` with heat tuning enabled and at least two chains, the ladder
is rebuilt (lines 1503-1535) from the gaps `tuneGaps s (heatsDiff s)`, and for every
adjacent rank pair `(r-1, r)` with gap `g = heat(rank r-1) - heat(rank r)` the gap used is:
if `attempted[r-1][r] + attempted[r][r-1] > 2`, with `rate` the combined accepted count
divided by the combined attempted count, `g * (1 + (rate - 0.23) / (1 - 0.23))` when
`rate > 0.23` and `g / (2 - rate / 0.23)` otherwise; and `g` itself if the combined
attempted count is at most two. -/
theorem tune_gap_rule (pw : α → α → α) (f : List (TuningInfo α) → List (TuningInfo α))
    (s : State α) (r : Nat) (hT : s.tune_heat = true) (hN : 2 ≤ s.num_chains)
    (h1 : 1 ≤ r) (hr : r < s.num_chains) :
    (tune pw f s).chain_heats =
      (if (tuneForward s.heat_ranks (tuneGaps s (heatsDiff s)) s.num_chains
            (s.num_chains - 1) s.chain_heats).1 < s.num_chains then
        tuneInterpolate pw s.heat_ranks s.num_chains
          (tuneForward s.heat_ranks (tuneGaps s (heatsDiff s)) s.num_chains
            (s.num_chains - 1) s.chain_heats).1
          (tuneForward s.heat_ranks (tuneGaps s (heatsDiff s)) s.num_chains
            (s.num_chains - 1) s.chain_heats).2
       else
        (tuneForward s.heat_ranks (tuneGaps s (heatsDiff s)) s.num_chains
            (s.num_chains - 1) s.chain_heats).2) ∧
    (tuneGaps s (heatsDiff s)).getD (r - 1) 0 =
      if matGet s.numAttemptedSwaps (r - 1) r + matGet s.numAttemptedSwaps r (r - 1) > 2 then
        if ((matGet s.numAcceptedSwaps (r - 1) r + matGet s.numAcceptedSwaps r (r - 1)
              : Nat) : α) /
            ((matGet s.numAttemptedSwaps (r - 1) r + matGet s.numAttemptedSwaps r (r - 1)
              : Nat) : α) > 23 / 100 then
          (heatAtRank s.heat_ranks s.chain_heats (r - 1)
              - heatAtRank s.heat_ranks s.chain_heats r) *
            (1 + (((matGet s.numAcceptedSwaps (r - 1) r + matGet s.numAcceptedSwaps r (r - 1)
                : Nat) : α) /
              ((matGet s.numAttemptedSwaps (r - 1) r + matGet s.numAttemptedSwaps r (r - 1)
                : Nat) : α) - 23 / 100) / (1 - 23 / 100))
        else
          (heatAtRank s.heat_ranks s.chain_heats (r - 1)
              - heatAtRank s.heat_ranks s.chain_heats r) /
            (2 - ((matGet s.numAcceptedSwaps (r - 1) r + matGet s.numAcceptedSwaps r (r - 1)
                : Nat) : α) /
              ((matGet s.numAttemptedSwaps (r - 1) r + matGet s.numAttemptedSwaps r (r - 1)
                : Nat) : α) / (23 / 100))
      else
        heatAtRank s.heat_ranks s.chain_heats (r - 1)
          - heatAtRank s.heat_ranks s.chain_heats r := by
  refine ⟨(tune_fields pw f s hT hN).2.2.2.1, ?_⟩
  obtain ⟨hl, hg⟩ := heatsDiff_spec s
  obtain ⟨-, ht⟩ := tuneGaps_getD s (heatsDiff s) hl
  obtain ⟨m, rfl⟩ : ∃ m, r = m + 1 := ⟨r - 1, by omega⟩
  have hm : m < s.num_chains - 1 := by omega
  rw [Nat.add_sub_cancel, ht m hm, hg m hm]
  rfl

/-- The scenario of the tuner: three chains with heats `1, 4/5, 3/5`, ten attempted swaps
of the ranks `0` and `1` of which five were accepted; the gap `1/5` becomes
`1/5 * (1 + (1/2 - 23/100) / (1 - 23/100)) = 104/385`, about `0.270`. -/
theorem tune_gap_rule_witness :
    (tuneGaps
        { sampleState with chain_heats := [1, 4 / 5, 3 / 5]
                           numAttemptedSwaps := [[0, 6, 0], [4, 0, 0], [0, 0, 0]]
                           numAcceptedSwaps := [[0, 3, 0], [2, 0, 0], [0, 0, 0]] }
        (heatsDiff
          { sampleState with chain_heats := [1, 4 / 5, 3 / 5]
                             numAttemptedSwaps := [[0, 6, 0], [4, 0, 0], [0, 0, 0]]
                             numAcceptedSwaps := [[0, 3, 0], [2, 0, 0], [0, 0, 0]] })).getD 0 0
      = 104 / 385 := by
  have h := (tune_gap_rule powStub id
    { sampleState with chain_heats := [1, 4 / 5, 3 / 5]
                       numAttemptedSwaps := [[0, 6, 0], [4, 0, 0], [0, 0, 0]]
                       numAcceptedSwaps := [[0, 3, 0], [2, 0, 0], [0, 0, 0]] } 1
    (by rw [sampleState, construct_spec]; rfl)
    (by rw [sampleState, construct_spec]; simp [blankState])
    (le_refl 1)
    (by rw [sampleState, construct_spec]; simp [blankState])).2
  have hr : sampleState.heat_ranks = [0, 1, 2] := sampleState_fields.2.2.1
  rw [h]
  simp only [hr, heatAtRank, chainOfRank, matGet]
  norm_num [List.indexOf_cons]

/-- C16 fails as stated: four chains with the heats `1, 3/256, 1/100, 1/200` and no swap
counted.  The loop of lines 1503-1517 recomputes the heats `3/256` of rank `1` and `1/100`
of rank `2`, neither of which is below the floor, and is left at rank `j = 3` with the
heat `1/200`, which is.  The last valid heat is the floor itself, so `rho = 1`, and after
`tune` over the real numbers the heats of the ranks `2` and `3` are both `1/100`: they are
not strictly decreasing.  The hottest heat is the floor and the formula holds.  (The
subtractions and the quotient `0.01 / 0.01` are exact in `double` on these heats, so the
run in `double` ties as well.) -/
theorem tune_floor_tie :
    (forwardPass (floorTieScenario : State ℝ)).1 = 3 ∧
    heatAtRank (floorTieScenario : State ℝ).heat_ranks
      (forwardPass (floorTieScenario : State ℝ)).2 3 < 1 / 100 ∧
    lastValidHeat (floorTieScenario : State ℝ) = 1 / 100 ∧
    (tune Real.rpow id (floorTieScenario : State ℝ)).chain_heats
      = [1, 3 / 256, 1 / 100, 1 / 100] ∧
    heatAtRank (floorTieScenario : State ℝ).heat_ranks
        (tune Real.rpow id (floorTieScenario : State ℝ)).chain_heats 3
      = heatAtRank (floorTieScenario : State ℝ).heat_ranks
        (tune Real.rpow id (floorTieScenario : State ℝ)).chain_heats 2 := by
  obtain ⟨f1, f2, f3, f4, f5, f6⟩ := floorTieScenario_fields (α := ℝ)
  have fp := floorTieScenario_forwardPass (α := ℝ)
  have e4 := (tune_fields Real.rpow id (floorTieScenario : State ℝ) f2 (by rw [f1]; decide)).2.2.2.1
  have hh : (tune Real.rpow id (floorTieScenario : State ℝ)).chain_heats
      = [1, 3 / 256, 1 / 100, 1 / 100] := by
    rw [e4, tunedHeats_interpolated Real.rpow _ (by rw [fp, f1]; decide), fp, f1, f3]
    unfold tuneInterpolate
    show List.foldl _ _ [3] = _
    simp only [List.foldl_cons, List.foldl_nil, chainOfRank, heatMinBound]
    norm_num [List.indexOf_cons]
  refine ⟨by rw [fp], ?_, ?_, hh, ?_⟩
  · rw [fp, f3]
    simp only [heatAtRank, chainOfRank]
    norm_num [List.indexOf_cons]
  · unfold lastValidHeat
    rw [fp, f3]
    simp only [heatAtRank, chainOfRank]
    norm_num [List.indexOf_cons]
  · rw [hh, f3]
    simp only [heatAtRank, chainOfRank]
    norm_num [List.indexOf_cons]

/-- C16, amended: for `tune` with heat tuning enabled over the real numbers (`pow` is
`Real.rpow`), at least two chains, `heat_ranks` a permutation of the ranks and one heat
for each chain: whenever the loop of lines 1503-1517 is left at a rank `j < num_chains`
because the heat computed there is below the floor, then `j >= 1` and after `tune` the
rank map is unchanged, the heat of rank `j - 1` is the last valid heat, and the heat of
every rank `k` from `j` on is `lastValidHeat / rho^(k+1-j)` with
`rho = (lastValidHeat / 0.01)^(1 / (num_chains - j))`.  If the last valid heat is positive,
the heat of the hottest rank `num_chains - 1` is the floor `0.01`, and the heats of the
ranks `j-1`, `j`, ..., `num_chains - 1` are strictly decreasing if and only if the last
valid heat is above the floor.  If the last valid heat is at least the floor these heats
do not increase with the rank, and if it is the floor itself they all equal the floor.
The last valid heat is at least the floor whenever the heat of rank `0` is `1`. -/
theorem tune_floor_interpolation (f : List (TuningInfo ℝ) → List (TuningInfo ℝ))
    (s : State ℝ) (hT : s.tune_heat = true) (hN : 2 ≤ s.num_chains)
    (hp : s.heat_ranks.Perm (List.range s.num_chains))
    (hlen : s.chain_heats.length = s.num_chains)
    (hj : (forwardPass s).1 < s.num_chains) :
    1 ≤ (forwardPass s).1 ∧
    (tune Real.rpow f s).heat_ranks = s.heat_ranks ∧
    heatAtRank s.heat_ranks (tune Real.rpow f s).chain_heats ((forwardPass s).1 - 1)
      = lastValidHeat s ∧
    (∀ k, (forwardPass s).1 ≤ k → k < s.num_chains →
      heatAtRank s.heat_ranks (tune Real.rpow f s).chain_heats k =
        lastValidHeat s /
          Real.rpow
            (Real.rpow (lastValidHeat s / (1 / 100))
              (1 / ((s.num_chains - (forwardPass s).1 : Nat) : ℝ)))
            ((k + 1 - (forwardPass s).1 : Nat) : ℝ)) ∧
    (0 < lastValidHeat s →
      heatAtRank s.heat_ranks (tune Real.rpow f s).chain_heats (s.num_chains - 1) = 1 / 100) ∧
    (0 < lastValidHeat s →
      ((∀ k, (forwardPass s).1 - 1 ≤ k → k + 1 < s.num_chains →
        heatAtRank s.heat_ranks (tune Real.rpow f s).chain_heats (k + 1)
          < heatAtRank s.heat_ranks (tune Real.rpow f s).chain_heats k) ↔
        1 / 100 < lastValidHeat s)) ∧
    (1 / 100 ≤ lastValidHeat s →
      ∀ k, (forwardPass s).1 - 1 ≤ k → k + 1 < s.num_chains →
        heatAtRank s.heat_ranks (tune Real.rpow f s).chain_heats (k + 1)
          ≤ heatAtRank s.heat_ranks (tune Real.rpow f s).chain_heats k) ∧
    (lastValidHeat s = 1 / 100 →
      ∀ k, (forwardPass s).1 - 1 ≤ k → k < s.num_chains →
        heatAtRank s.heat_ranks (tune Real.rpow f s).chain_heats k = 1 / 100) ∧
    (heatAtRank s.heat_ranks s.chain_heats 0 = 1 → 1 / 100 ≤ lastValidHeat s) :=
  tune_interpolation_floor f s hT hN hp hlen hj

/-- Two chains with the heats `1, 1/200`: the loop is left at rank `1` with the last valid
heat `1`, and after `tune` the heat of rank `1` is the floor `1/100`, below the heat of
rank `0`. -/
theorem tune_floor_interpolation_witness :
    heatAtRank (floorScenario : State ℝ).heat_ranks
        (tune Real.rpow id (floorScenario : State ℝ)).chain_heats 1 = 1 / 100 ∧
    heatAtRank (floorScenario : State ℝ).heat_ranks
        (tune Real.rpow id (floorScenario : State ℝ)).chain_heats 1
      < heatAtRank (floorScenario : State ℝ).heat_ranks
        (tune Real.rpow id (floorScenario : State ℝ)).chain_heats 0 := by
  obtain ⟨f1, f2, f3, f4, f5, f6⟩ := floorScenario_fields (α := ℝ)
  have fp := floorScenario_forwardPass (α := ℝ)
  have hL : lastValidHeat (floorScenario : State ℝ) = 1 := by
    unfold lastValidHeat
    rw [fp, f3]
    simp [heatAtRank, chainOfRank]
  have h := tune_floor_interpolation id (floorScenario : State ℝ) f2 (by rw [f1])
    (by rw [f1, f3]; exact List.Perm.refl _) (by rw [f4, f1]; rfl)
    (by rw [fp, f1]; decide)
  obtain ⟨-, -, -, -, h5, h6, -⟩ := h
  have h5b := h5 (by rw [hL]; norm_num)
  rw [f1] at h5b
  refine ⟨h5b, ?_⟩
  have := (h6 (by rw [hL]; norm_num)).mpr (by rw [hL]; norm_num) 0 (by rw [fp]; decide)
    (by rw [f1]; decide)
  exact this

/-- C29: over the real numbers (`pow` is `Real.rpow`), with heat tuning enabled, at least
two chains, a rank map that is a permutation, one heat for each chain, counter matrices of
`num_chains` rows of `num_chains` cells and a cold (rank `0`) heat of `1`, calling `tune`
twice in a row leaves `chain_heats`, `heat_ranks`, `numAttemptedSwaps` and
`numAcceptedSwaps` exactly as one call does; and `tune` on a state whose attempted
counters are all zero and whose heats are all at least `0.01` leaves `chain_heats` and
`heat_ranks` unchanged. -/
theorem tune_idempotent (f1 f2 : List (TuningInfo ℝ) → List (TuningInfo ℝ)) (s : State ℝ)
    (hT : s.tune_heat = true) (hN : 2 ≤ s.num_chains)
    (hp : s.heat_ranks.Perm (List.range s.num_chains))
    (hlen : s.chain_heats.length = s.num_chains)
    (hcold : heatAtRank s.heat_ranks s.chain_heats 0 = 1)
    (hA : s.numAttemptedSwaps.length = s.num_chains ∧
      ∀ r, r < s.num_chains → (s.numAttemptedSwaps.getD r []).length = s.num_chains)
    (hB : s.numAcceptedSwaps.length = s.num_chains ∧
      ∀ r, r < s.num_chains → (s.numAcceptedSwaps.getD r []).length = s.num_chains) :
    ((tune Real.rpow f2 (tune Real.rpow f1 s)).chain_heats
        = (tune Real.rpow f1 s).chain_heats ∧
     (tune Real.rpow f2 (tune Real.rpow f1 s)).heat_ranks
        = (tune Real.rpow f1 s).heat_ranks ∧
     (tune Real.rpow f2 (tune Real.rpow f1 s)).numAttemptedSwaps
        = (tune Real.rpow f1 s).numAttemptedSwaps ∧
     (tune Real.rpow f2 (tune Real.rpow f1 s)).numAcceptedSwaps
        = (tune Real.rpow f1 s).numAcceptedSwaps) ∧
    ((∀ r c, matGet s.numAttemptedSwaps r c = 0) →
      (∀ r, r < s.num_chains → 1 / 100 ≤ heatAtRank s.heat_ranks s.chain_heats r) →
      (tune Real.rpow f1 s).chain_heats = s.chain_heats ∧
      (tune Real.rpow f1 s).heat_ranks = s.heat_ranks) := by
  refine ⟨tune_twice_real f1 f2 s hT hN hp hlen hcold hA hB, ?_⟩
  intro hz hge
  obtain ⟨-, -, a3, a4, -⟩ := tune_fields Real.rpow f1 s hT hN
  refine ⟨?_, a3⟩
  rw [a4]
  apply tunedHeats_fixed
  · intro m _
    rw [hz, hz]
    omega
  · intro r _ hr
    exact hge r hr

/-- Two chains with the heats `1, 1/200` over the real numbers: the first call of `tune`
raises the heat of rank `1` to the floor, and a second call leaves the heats of the
first. -/
theorem tune_idempotent_witness :
    (tune Real.rpow id (tune Real.rpow id (floorScenario : State ℝ))).chain_heats
      = (tune Real.rpow id (floorScenario : State ℝ)).chain_heats := by
  obtain ⟨f1, f2, f3, f4, f5, f6⟩ := floorScenario_fields (α := ℝ)
  exact (tune_idempotent id id (floorScenario : State ℝ) f2 (by rw [f1])
    (by rw [f1, f3]; exact List.Perm.refl _) (by rw [f4, f1]; rfl)
    (by rw [f3, f4]; simp [heatAtRank, chainOfRank])
    ⟨by rw [f5, f1]; rfl, by
      intro r hr
      rw [f5, f1]
      rw [f1] at hr
      interval_cases r <;> rfl⟩
    ⟨by rw [f6, f1]; rfl, by
      intro r hr
      rw [f6, f1]
      rw [f1] at hr
      interval_cases r <;> rfl⟩).1.1

end TuneClaims

/-! ## The schedule of the swaps in `nextCycle` -/

section ScheduleClaims

variable {α : Type} [LinearOrderedField α] [FloorRing α]

/-- C12 fails as stated: two chains, neighbor swapping alone, `swap_interval = 1`.  The
first call of `nextCycle` is on generation `1`, a multiple of the interval; it uses four
draws and the sum of the attempted counters grows from `0` to `2`, one attempt for each
chain, not to `1`. -/
theorem neighbor_cycle_attempts_per_chain :
    neighborOnlyScenario.num_chains = 2 ∧
    testedGeneration (countedState (fun _ c => c) neighborOnlyScenario true)
      % neighborOnlyScenario.swap_interval = 0 ∧
    matSum neighborOnlyScenario.numAttemptedSwaps = 0 ∧
    ∃ s2, nextCycle expStub (fun _ c => c) neighborOnlyScenario true [0, 0, 0, 0]
        = some (s2, []) ∧
      matSum s2.numAttemptedSwaps = 2 := by
  obtain ⟨f1, f2, f3, f4, f5, f6, f7, f8⟩ := neighborOnlyScenario_fields
  have g := testedGeneration_first (fun _ c => c) neighborOnlyScenario true f6 f7
  have m0 : matSum neighborOnlyScenario.numAttemptedSwaps = 0 := by rw [f8]; rfl
  obtain ⟨s1, -, c, e⟩ := nextCycle_neighbor_count expStub (fun _ c => c)
    neighborOnlyScenario true [0, 0, 0, 0] f2 (by rw [f4])
    (fun h => absurd h (by rw [f3]; decide)) (by rw [f1]) (construct_countersOK _ _ _ _ _ _ _ _ _)
    (by intro u hu; simp at hu; subst hu; norm_num) (by rw [f1]; simp)
  rw [g, f4, f1, m0] at c
  rw [g, f4, f1, f3] at e
  refine ⟨f1, by rw [g, f4], m0, s1, ?_, by simpa using c⟩
  rw [e]
  simp

/-- C12, amended: with neighbor swapping selected, at least two chains, positive
intervals, draws in `[0,1)` and two draws at hand for each chain, a call of `nextCycle`
runs the neighbor swaps exactly when `g mod swap_interval = 0`, where `g` is the generation
that lines 391 and 425 test: after the counter of the phase has moved, `g` is
`current_generation` when that is positive and `burnin_generation` when it is zero (so a
burn-in call made after a sampling call tests `current_generation`, not the burn-in
counter).  On such a generation it makes `num_chains` calls of
`swapChains("neighbor")`, uses `2 * num_chains` draws and the sum of all attempted counters
grows by exactly `num_chains` from neighbor swapping; when `g mod swap_interval` is not
zero no neighbor swap is attempted, no draw is used and the sum does not grow.  What
`nextCycle` returns is that state and the unused draws, after the random swaps if random
swapping is selected too and due. -/
theorem neighbor_swaps_per_cycle (ex : α → α) (chainCycle : Bool → Chain α → Chain α)
    (s : State α) (advanceCycle : Bool) (draws : List α)
    (hn : s.useNeighborSwapping = true) (h1 : 1 ≤ s.swap_interval)
    (h2 : s.useRandomSwapping = true → 1 ≤ s.swap_interval2)
    (hN : 2 ≤ s.num_chains) (hC : CountersOK s)
    (hd : ∀ u ∈ draws, 0 ≤ u ∧ u < 1) (hl : 2 * s.num_chains ≤ draws.length) :
    ∃ s1,
      (if testedGeneration (countedState chainCycle s advanceCycle) % s.swap_interval = 0
        then neighborSwaps ex (countedState chainCycle s advanceCycle) draws
        else some (countedState chainCycle s advanceCycle, draws))
        = some (s1, draws.drop
            (if testedGeneration (countedState chainCycle s advanceCycle) % s.swap_interval = 0
              then 2 * s.num_chains else 0)) ∧
      matSum s1.numAttemptedSwaps = matSum s.numAttemptedSwaps +
        (if testedGeneration (countedState chainCycle s advanceCycle) % s.swap_interval = 0
          then s.num_chains else 0) ∧
      nextCycle ex chainCycle s advanceCycle draws =
        (if s.useRandomSwapping = true ∧
            testedGeneration (countedState chainCycle s advanceCycle) % s.swap_interval2 = 0
          then randomSwaps ex s1 (draws.drop
            (if testedGeneration (countedState chainCycle s advanceCycle) % s.swap_interval = 0
              then 2 * s.num_chains else 0))
          else some (s1, draws.drop
            (if testedGeneration (countedState chainCycle s advanceCycle) % s.swap_interval = 0
              then 2 * s.num_chains else 0))) :=
  nextCycle_neighbor_count ex chainCycle s advanceCycle draws hn h1 h2 hN hC hd hl

/-- Three chains with neighbor swapping alone and `swap_interval = 2`: the first call of
`nextCycle`, on generation `1`, attempts no swap and uses no draw. -/
theorem neighbor_swaps_per_cycle_witness :
    ∃ s1, nextCycle expStub (fun _ c => c)
        (construct base0 3 2 (1 / 5) true "neighbor" 1 0 0) true [0, 0, 0, 0, 0, 0]
        = some (s1, [0, 0, 0, 0, 0, 0]) ∧
      matSum s1.numAttemptedSwaps = 0 := by
  have f : (construct base0 3 2 (1 / 5) true "neighbor" 1 0 0).num_chains = 3 ∧
      (construct base0 3 2 (1 / 5) true "neighbor" 1 0 0).useNeighborSwapping = true ∧
      (construct base0 3 2 (1 / 5) true "neighbor" 1 0 0).useRandomSwapping = false ∧
      (construct base0 3 2 (1 / 5) true "neighbor" 1 0 0).swap_interval = 2 ∧
      (construct base0 3 2 (1 / 5) true "neighbor" 1 0 0).current_generation = 0 ∧
      (construct base0 3 2 (1 / 5) true "neighbor" 1 0 0).burnin_generation = 0 ∧
      (construct base0 3 2 (1 / 5) true "neighbor" 1 0 0).numAttemptedSwaps
        = [[0, 0, 0], [0, 0, 0], [0, 0, 0]] := by
    rw [construct_spec]
    refine ⟨rfl, ?_, ?_, rfl, rfl, rfl, rfl⟩
    · show decide ("neighbor" ≠ "random") = true
      decide
    · show decide ("neighbor" = "random" ∨ "neighbor" = "both") = false
      decide
  obtain ⟨f1, f2, f3, f4, f6, f7, f8⟩ := f
  have g := testedGeneration_first (fun _ c => c)
    (construct base0 3 2 (1 / 5) true "neighbor" 1 0 0) true f6 f7
  obtain ⟨s1, -, c, e⟩ := neighbor_swaps_per_cycle expStub (fun _ c => c)
    (construct base0 3 2 (1 / 5) true "neighbor" 1 0 0) true [0, 0, 0, 0, 0, 0] f2
    (by rw [f4]; decide) (fun h => absurd h (by rw [f3]; decide)) (by rw [f1]; decide)
    (construct_countersOK _ _ _ _ _ _ _ _ _)
    (by intro u hu; simp at hu; subst hu; norm_num) (by rw [f1]; simp)
  rw [g, f4, f8] at c
  rw [g, f4, f3] at e
  refine ⟨s1, ?_, by simpa [matSum] using c⟩
  rw [e]
  simp

/-- C13 fails as stated: two chains, random swapping alone, `swap_interval = 1`.  The
first call of `nextCycle` is on generation `1`, on which the random swaps are due; on the
draws of four swaps it returns with all twelve draws used and the sum of the attempted
counters grown from `0` to `4 = 2 * 2`, not to `2`. -/
theorem random_cycle_attempts_squared :
    randomOnlyScenario.num_chains = 2 ∧
    testedGeneration (countedState (fun _ c => c) randomOnlyScenario true)
      % randomOnlyScenario.swap_interval = 0 ∧
    matSum randomOnlyScenario.numAttemptedSwaps = 0 ∧
    ∃ s2, nextCycle expStub (fun _ c => c) randomOnlyScenario true (tripleDraws fourSwapDraws)
        = some (s2, []) ∧
      matSum s2.numAttemptedSwaps = 4 := by
  obtain ⟨f1, f2, f3, f4, f5, f6, f7, f8⟩ := randomOnlyScenario_fields
  have g := testedGeneration_first (fun _ c => c) randomOnlyScenario true f6 f7
  have m0 : matSum randomOnlyScenario.numAttemptedSwaps = 0 := by rw [f8]; rfl
  obtain ⟨p1, p2⟩ := nextCycle_random_count expStub (fun _ c => c) randomOnlyScenario true
    f3 (by rw [f4]) (fun h => absurd h (by rw [f2]; decide)) (by rw [f1])
    (construct_countersOK _ _ _ _ _ _ _ _ _) (by rw [g, f2, f4]; rfl)
  obtain ⟨s2, e⟩ := p2 [] fourSwapDraws [] (by rw [f2]; rfl) (by rw [f1]; rfl)
    (fourSwapDraws_distinct _ f1)
  rw [List.nil_append, List.append_nil] at e
  have c := p1 _ s2 [] fourSwapDraws_range e
  rw [f1, f2, m0] at c
  exact ⟨f1, by rw [g, f4], m0, s2, e, by simpa using c⟩

/-- C13, amended: with random swapping selected, at least two chains and positive
intervals, on a generation `g` on which the random swaps are due (`g` a multiple of
`swap_interval2` when neighbor swapping is selected too, of `swap_interval` when it is
not), a call of `nextCycle` runs the double loop of `num_chains * num_chains` calls of
`swapChains("random")`: whenever it returns on draws in `[0,1)`, the sum of all attempted
counters has grown by exactly `num_chains * num_chains` from random swapping, on top of the
`num_chains` attempts of the neighbor swaps if these were selected and due; and it does
return when the draws at hand are two for each neighbor swap followed by three for each
random swap in which the draw of `k` does not repeat the index `j`. -/
theorem random_swaps_per_cycle (ex : α → α) (chainCycle : Bool → Chain α → Chain α)
    (s : State α) (advanceCycle : Bool)
    (hr : s.useRandomSwapping = true) (h1 : 1 ≤ s.swap_interval)
    (h2 : s.useNeighborSwapping = true → 1 ≤ s.swap_interval2)
    (hN : 2 ≤ s.num_chains) (hC : CountersOK s)
    (hdue : testedGeneration (countedState chainCycle s advanceCycle)
      % (if s.useNeighborSwapping = true then s.swap_interval2 else s.swap_interval) = 0) :
    (∀ draws s2 rest, (∀ u ∈ draws, 0 ≤ u ∧ u < 1) →
      nextCycle ex chainCycle s advanceCycle draws = some (s2, rest) →
      matSum s2.numAttemptedSwaps = matSum s.numAttemptedSwaps +
        (if s.useNeighborSwapping = true ∧
            testedGeneration (countedState chainCycle s advanceCycle) % s.swap_interval = 0
          then s.num_chains else 0) + s.num_chains * s.num_chains) ∧
    (∀ (nd : List α) (ts : List (α × α × α)) (rest : List α),
      nd.length = (if s.useNeighborSwapping = true ∧
          testedGeneration (countedState chainCycle s advanceCycle) % s.swap_interval = 0
        then 2 * s.num_chains else 0) →
      ts.length = s.num_chains * s.num_chains → distinctDraws s ts →
      ∃ s2, nextCycle ex chainCycle s advanceCycle (nd ++ (tripleDraws ts ++ rest))
        = some (s2, rest)) :=
  nextCycle_random_count ex chainCycle s advanceCycle hr h1 h2 hN hC hdue

/-- Two chains with both kinds of swaps and both intervals `1`: the first call of
`nextCycle` on four draws for the neighbor swaps and the draws of four random swaps
returns with all draws used and `2 + 2 * 2 = 6` attempts counted. -/
theorem random_swaps_per_cycle_witness :
    ∃ s2, nextCycle expStub (fun _ c => c) bothScenario true
        ([0, 0, 0, 0] ++ (tripleDraws fourSwapDraws ++ [])) = some (s2, []) ∧
      matSum s2.numAttemptedSwaps = 6 := by
  obtain ⟨f1, f2, f3, f4, f5, f6, f7, f8, hC⟩ := bothScenario_fields
  have g := testedGeneration_first (fun _ c => c) bothScenario true f6 f7
  have m0 : matSum bothScenario.numAttemptedSwaps = 0 := by rw [f8]; rfl
  obtain ⟨p1, p2⟩ := random_swaps_per_cycle expStub (fun _ c => c) bothScenario true
    f3 (by rw [f4]) (fun _ => by rw [f5]) (by rw [f1]) hC (by rw [g, f2, f5]; rfl)
  obtain ⟨s2, e⟩ := p2 [0, 0, 0, 0] fourSwapDraws [] (by rw [g, f2, f4, f1]; rfl)
    (by rw [f1]; rfl) (fourSwapDraws_distinct _ f1)
  have hd : ∀ u ∈ [0, 0, 0, 0] ++ (tripleDraws fourSwapDraws ++ []), (0 : ℚ) ≤ u ∧ u < 1 := by
    intro u hu
    rw [List.append_nil, List.mem_append] at hu
    rcases hu with hu | hu
    · simp at hu; subst hu; norm_num
    · exact fourSwapDraws_range u hu
  have c := p1 _ s2 [] hd e
  rw [g, f1, f2, f4, m0] at c
  exact ⟨s2, e, by simpa using c⟩

/-- C14 fails as stated: two chains, random swapping alone, `swap_interval = 2` and
`swap_interval2 = 1`.  The first call of `nextCycle` is on generation `1`, a multiple of
`swap_interval2`, and random swapping is selected; but no random swap is attempted: the
call returns with no draw used and the attempted counters as they were, because with
random swapping alone the test is against `swap_interval`. -/
theorem random_only_ignores_swap_interval2 :
    randomOnlyScenario2.useRandomSwapping = true ∧ randomOnlyScenario2.num_chains = 2 ∧
    testedGeneration (countedState (fun _ c => c) randomOnlyScenario2 true)
      % randomOnlyScenario2.swap_interval2 = 0 ∧
    ∃ s2, nextCycle expStub (fun _ c => c) randomOnlyScenario2 true (tripleDraws fourSwapDraws)
        = some (s2, tripleDraws fourSwapDraws) ∧
      s2.numAttemptedSwaps = randomOnlyScenario2.numAttemptedSwaps := by
  obtain ⟨f1, f2, f3, f4, f5, f6, f7, f8⟩ := randomOnlyScenario2_fields
  have g := testedGeneration_first (fun _ c => c) randomOnlyScenario2 true f6 f7
  have e := nextCycle_random_only expStub (fun _ c => c) randomOnlyScenario2 true
    (tripleDraws fourSwapDraws) f2 f3 (by rw [f4]; decide)
  unfold countedState at g
  rw [g, f4, if_neg (by decide)] at e
  refine ⟨f3, f1, ?_, _, e, (counted_fields _ _ _).2.2.1⟩
  unfold countedState
  rw [g, f5]

/-- C14, amended: with positive intervals, in every swap configuration `nextCycle` is the
schedule `scheduledCycle`: after the chains have run and the counter of the phase has
moved to the generation `g`, the neighbor swaps are run if and only if neighbor swapping
is selected and `g mod swap_interval = 0`; then the random swaps are run if and only if
random swapping is selected and `g` is a multiple of the interval of the random swaps,
which is `swap_interval2` when neighbor swapping is selected too and `swap_interval` when
random swapping is selected alone.  Neither test depends on the outcome of the other. -/
theorem swap_schedule_by_configuration (ex : α → α)
    (chainCycle : Bool → Chain α → Chain α) (s : State α) (advanceCycle : Bool)
    (draws : List α) (h1 : 1 ≤ s.swap_interval)
    (h2 : s.useNeighborSwapping = true → s.useRandomSwapping = true → 1 ≤ s.swap_interval2) :
    nextCycle ex chainCycle s advanceCycle draws
      = scheduledCycle ex chainCycle s advanceCycle draws :=
  nextCycle_scheduled ex chainCycle s advanceCycle draws h1 h2

/-- Two chains with both kinds of swaps and both intervals `1`: the first call of
`nextCycle` is the schedule. -/
theorem swap_schedule_by_configuration_witness :
    nextCycle expStub (fun _ c => c) bothScenario true
        ([0, 0, 0, 0] ++ tripleDraws fourSwapDraws)
      = scheduledCycle expStub (fun _ c => c) bothScenario true
        ([0, 0, 0, 0] ++ tripleDraws fourSwapDraws) :=
  swap_schedule_by_configuration expStub (fun _ c => c) bothScenario true
    ([0, 0, 0, 0] ++ tripleDraws fourSwapDraws)
    (by rw [bothScenario_fields.2.2.2.1])
    (fun _ _ => by rw [bothScenario_fields.2.2.2.2.1])

end ScheduleClaims

/-! ## The assignment of processes to chains -/

section AssignmentClaims

variable {α : Type} [LinearOrderedField α] [FloorRing α]

/-- C21: with `P >= 1` processes, `N >= 1` chains and the leader at rank `0`, the process
assignment of `initializeChains` (lines 282-307) gives chain `i < N` the first process
`p_i = floor(i * P / N)` and the number of processes `k_i >= 1`, with `p_i < P` and `p_i`
non-decreasing in `i`; the range `[p_i, p_i + k_i)` stays within `[0, P)`, and the process
of rank `p_i` is one of the `P` processes and owns chain `i` (the test of line 312). -/
theorem process_assignment_owner (s : State α) (i : Nat) (hP : 1 ≤ s.num_processes)
    (hN : 1 ≤ s.num_chains) (hA : s.active_PID = 0) (hi : i < s.num_chains) :
    active_pid_for_chain s i = i * s.num_processes / s.num_chains ∧
    1 ≤ num_processer_for_chain s i ∧
    active_pid_for_chain s i < s.num_processes ∧
    (∀ j, i ≤ j → active_pid_for_chain s i ≤ active_pid_for_chain s j) ∧
    active_pid_for_chain s i + num_processer_for_chain s i ≤ s.num_processes ∧
    ownsChain { s with pid := active_pid_for_chain s i } i = true := by
  have hp := active_pid_eq s i hA
  have hk : 1 ≤ num_processer_for_chain s i := by
    unfold num_processer_for_chain
    dsimp only
    split <;> omega
  have hlt := pid_lt s.num_processes s.num_chains i hP hN hi
  refine ⟨hp, hk, by rw [hp]; exact hlt, ?_, ?_, ?_⟩
  · intro j hj
    rw [hp, active_pid_eq s j hA]
    exact pid_mono _ _ _ _ hj
  · rw [range_end_le s i hA]
    have h2 : (i + 1) * s.num_processes / s.num_chains ≤ s.num_processes := by
      calc (i + 1) * s.num_processes / s.num_chains
          ≤ s.num_chains * s.num_processes / s.num_chains :=
            pid_mono _ _ _ _ (by omega)
        _ = s.num_processes := pid_last _ _ hN
    exact max_le h2 (by omega)
  · unfold ownsChain
    have e1 : active_pid_for_chain { s with pid := active_pid_for_chain s i } i
        = active_pid_for_chain s i := rfl
    have e2 : num_processer_for_chain { s with pid := active_pid_for_chain s i } i
        = num_processer_for_chain s i := rfl
    rw [e1, e2]
    simp only [decide_eq_true_eq]
    exact ⟨le_refl _, by omega⟩

/-- Three chains on two processes: chain `1` starts at process `floor(2/3) = 0`. -/
theorem process_assignment_owner_witness :
    active_pid_for_chain (blankState base0 3 1 (1 / 5) true true false 2 0 0) 1 = 0 ∧
    1 ≤ num_processer_for_chain (blankState base0 3 1 (1 / 5) true true false 2 0 0) 1 :=
  ⟨(process_assignment_owner (blankState base0 3 1 (1 / 5) true true false 2 0 0) 1
      (by decide) (by decide) rfl (by decide)).1,
   (process_assignment_owner (blankState base0 3 1 (1 / 5) true true false 2 0 0) 1
      (by decide) (by decide) rfl (by decide)).2.1⟩

/-- C22 fails as stated: two chains on one process with the leader at rank `0`.  Both
chains get the range `[0, 1)`: the ranges are not disjoint and the range of chain `1` does
not begin where the range of chain `0` ends; the one process owns both chains. -/
theorem assignment_overlaps :
    active_pid_for_chain (blankState base0 2 1 (1 / 5) true true false 1 0 0) 0 = 0 ∧
    num_processer_for_chain (blankState base0 2 1 (1 / 5) true true false 1 0 0) 0 = 1 ∧
    active_pid_for_chain (blankState base0 2 1 (1 / 5) true true false 1 0 0) 1 = 0 ∧
    num_processer_for_chain (blankState base0 2 1 (1 / 5) true true false 1 0 0) 1 = 1 ∧
    ownsChain (blankState base0 2 1 (1 / 5) true true false 1 0 0) 0 = true ∧
    ownsChain (blankState base0 2 1 (1 / 5) true true false 1 0 0) 1 = true := by
  have p0 := active_pid_eq (blankState base0 2 1 (1 / 5) true true false 1 0 0) 0 rfl
  have p1 := active_pid_eq (blankState base0 2 1 (1 / 5) true true false 1 0 0) 1 rfl
  have k0 := num_processer_eq (blankState base0 2 1 (1 / 5) true true false 1 0 0) 0 rfl
  have k1 := num_processer_eq (blankState base0 2 1 (1 / 5) true true false 1 0 0) 1 rfl
  have q0 : active_pid_for_chain (blankState base0 2 1 (1 / 5) true true false 1 0 0) 0 = 0 := by
    rw [p0]; rfl
  have q1 : active_pid_for_chain (blankState base0 2 1 (1 / 5) true true false 1 0 0) 1 = 0 := by
    rw [p1]; rfl
  have r0 : num_processer_for_chain (blankState base0 2 1 (1 / 5) true true false 1 0 0) 0
      = 1 := by
    rw [k0]; rfl
  have r1 : num_processer_for_chain (blankState base0 2 1 (1 / 5) true true false 1 0 0) 1
      = 1 := by
    rw [k1]; rfl
  refine ⟨q0, r0, q1, r1, ?_, ?_⟩
  · unfold ownsChain
    rw [q0, r0]
    rfl
  · unfold ownsChain
    rw [q1, r1]
    rfl

/-- C22, amended: with the leader at rank `0`, `N >= 1` chains and at least as many
processes as chains (`P >= N`), the ranges `[p_i, p_i + k_i)` of the process assignment
partition `[0, P)`: `p_0 = 0`, each range ends where the next begins
(`p_{i+1} = p_i + k_i`), the last range ends at `P`, a range lies below every later one,
no process is in two ranges, and every process below `P` is in a range. -/
theorem process_assignment_partition (s : State α) (hN : 1 ≤ s.num_chains)
    (hPN : s.num_chains ≤ s.num_processes) (hA : s.active_PID = 0) :
    active_pid_for_chain s 0 = 0 ∧
    (∀ i, i + 1 < s.num_chains →
      active_pid_for_chain s (i + 1)
        = active_pid_for_chain s i + num_processer_for_chain s i) ∧
    active_pid_for_chain s (s.num_chains - 1) + num_processer_for_chain s (s.num_chains - 1)
      = s.num_processes ∧
    (∀ i j, i < j → j < s.num_chains →
      active_pid_for_chain s i + num_processer_for_chain s i ≤ active_pid_for_chain s j) ∧
    (∀ q i j, i < s.num_chains → j < s.num_chains →
      active_pid_for_chain s i ≤ q → q < active_pid_for_chain s i + num_processer_for_chain s i →
      active_pid_for_chain s j ≤ q → q < active_pid_for_chain s j + num_processer_for_chain s j →
      i = j) ∧
    (∀ q, q < s.num_processes → ∃ i, i < s.num_chains ∧ active_pid_for_chain s i ≤ q ∧
      q < active_pid_for_chain s i + num_processer_for_chain s i) := by
  have he := fun i => range_end s i hA hN hPN
  have hp := fun i => active_pid_eq s i hA
  have hbelow : ∀ i j, i < j → j < s.num_chains →
      active_pid_for_chain s i + num_processer_for_chain s i ≤ active_pid_for_chain s j := by
    intro i j hij _
    rw [he i, hp j]
    exact pid_mono _ _ _ _ hij
  refine ⟨by rw [hp 0]; simp, ?_, ?_, hbelow, ?_, ?_⟩
  · intro i _
    rw [he i, hp (i + 1)]
  · rw [he (s.num_chains - 1)]
    have : s.num_chains - 1 + 1 = s.num_chains := by omega
    rw [this]
    exact pid_last _ _ hN
  · intro q i j hi hj a1 a2 b1 b2
    by_contra hne
    rcases Nat.lt_or_gt_of_ne hne with h | h
    · have := hbelow i j h hj
      omega
    · have := hbelow j i h hi
      omega
  · intro q hq
    obtain ⟨i, h1, h2, h3⟩ := pid_cover s.num_processes s.num_chains hN q hq
    exact ⟨i, h1, by rw [hp i]; exact h2, by rw [he i]; exact h3⟩

/-- Two chains on five processes: chain `0` has the processes `0, 1` and chain `1` the
processes `2, 3, 4`. -/
theorem process_assignment_partition_witness :
    active_pid_for_chain (blankState base0 2 1 (1 / 5) true true false 5 0 0) 0 = 0 ∧
    active_pid_for_chain (blankState base0 2 1 (1 / 5) true true false 5 0 0) (0 + 1)
      = active_pid_for_chain (blankState base0 2 1 (1 / 5) true true false 5 0 0) 0
        + num_processer_for_chain (blankState base0 2 1 (1 / 5) true true false 5 0 0) 0 ∧
    active_pid_for_chain (blankState base0 2 1 (1 / 5) true true false 5 0 0) (2 - 1)
        + num_processer_for_chain (blankState base0 2 1 (1 / 5) true true false 5 0 0) (2 - 1)
      = 5 :=
  ⟨(process_assignment_partition (blankState base0 2 1 (1 / 5) true true false 5 0 0)
      (by decide) (by decide) rfl).1,
   (process_assignment_partition (blankState base0 2 1 (1 / 5) true true false 5 0 0)
      (by decide) (by decide) rfl).2.1 0 (by decide),
   (process_assignment_partition (blankState base0 2 1 (1 / 5) true true false 5 0 0)
      (by decide) (by decide) rfl).2.2.1⟩

end AssignmentClaims

/-! ## The exchange of tuning information and the swap across processes -/

section ExchangeClaims

variable {α : Type} [LinearOrderedField α] [FloorRing α]

/-- C23 at the failing input: the first vector holds the moves `scale`, `slide` and the
second only the move `scale`.  The vectors have different lengths, but no exception is
thrown: after the first position has been exchanged the loop goes on over `mvsj` and
dereferences `itk` at `mvsk.end()`.  So it is for every `mvsj` that is not empty against an
empty `mvsk`.  The difference of the lengths is reported only when `mvsk` is the longer
vector. -/
theorem swap_info_longer_first_vector :
    swapMovesTuningInfo
        [(⟨"scale", 10, 3, some 1⟩ : Move ℚ), ⟨"slide", 4, 1, none⟩]
        [⟨"scale", 20, 5, some 2⟩]
      = SwapInfoResult.pastTheEnd ∧
    (∀ (mj : Move ℚ) (js : List (Move ℚ)),
      swapMovesTuningInfo (mj :: js) [] = SwapInfoResult.pastTheEnd) ∧
    swapMovesTuningInfo
        [(⟨"scale", 20, 5, some 2⟩ : Move ℚ)]
        [⟨"scale", 10, 3, some 1⟩, ⟨"slide", 4, 1, none⟩]
      = SwapInfoResult.thrown "The two moves objetcs whose tuning information is attempted to be swapped have different number of moves." ∧
    swapMovesTuningInfo
        [(⟨"scale", 10, 3, some 1⟩ : Move ℚ), ⟨"slide", 4, 1, none⟩]
        [⟨"scale", 20, 5, some 2⟩, ⟨"slide", 7, 2, none⟩]
      = SwapInfoResult.returned
        [⟨"scale", 20, 5, some 2⟩, ⟨"slide", 7, 2, none⟩]
        [⟨"scale", 10, 3, some 1⟩, ⟨"slide", 4, 1, none⟩] := by
  refine ⟨?_, fun _ _ => rfl, ?_, ?_⟩
  · simp [swapMovesTuningInfo]
  · simp [swapMovesTuningInfo]
  · simp [swapMovesTuningInfo]

/-- C26: with at least two chains, a rank map that is a permutation, counter matrices of
`num_chains` rows of `num_chains` cells and draws in `[0,1)`, a rejected swap attempt of
`swapNeighborChains` or of `swapRandomChains` on the chosen pair `(j, k)` leaves the state
as it was but for `numAttemptedSwaps`: `chain_heats`, `chain_values`, `heat_ranks`,
`chain_moves_tuningInfo`, `active_chain_index`, `numAcceptedSwaps` and the chains are
unchanged, and the cell `(heat_ranks[j], heat_ranks[k])`, which is inside the matrix, has
grown by one while every other cell of `numAttemptedSwaps` is unchanged. -/
theorem rejected_swap_frame (ex : α → α) (s : State α) (hN : 2 ≤ s.num_chains)
    (hC : CountersOK s) :
    (∀ u1 u2, 0 ≤ u1 → u1 < 1 →
      acceptTest ex (lnR s (neighborIndex s u1) (neighborIndex s u1 + 1)) u2 = false →
      swapNeighborChains ex s u1 u2
        = countAttempt s (neighborIndex s u1) (neighborIndex s u1 + 1) ∧
      OnlyAttemptCounted s (swapNeighborChains ex s u1 u2)
        (s.heat_ranks.getD (neighborIndex s u1) 0)
        (s.heat_ranks.getD (neighborIndex s u1 + 1) 0) ∧
      s.heat_ranks.getD (neighborIndex s u1) 0 < s.num_chains ∧
      s.heat_ranks.getD (neighborIndex s u1 + 1) 0 < s.num_chains) ∧
    (∀ draws j k u rest, (∀ x ∈ draws, 0 ≤ x ∧ x < 1) →
      randomPair s draws = some ((j, k), u :: rest) →
      acceptTest ex (lnR s j k) u = false →
      swapRandomChains ex s draws = some (countAttempt s j k, rest) ∧
      OnlyAttemptCounted s (countAttempt s j k)
        (s.heat_ranks.getD j 0) (s.heat_ranks.getD k 0) ∧
      s.heat_ranks.getD j 0 < s.num_chains ∧ s.heat_ranks.getD k 0 < s.num_chains) := by
  have key : ∀ j k, j < s.num_chains → k < s.num_chains →
      OnlyAttemptCounted s (countAttempt s j k)
        (s.heat_ranks.getD j 0) (s.heat_ranks.getD k 0) ∧
      s.heat_ranks.getD j 0 < s.num_chains ∧ s.heat_ranks.getD k 0 < s.num_chains := by
    intro j k hj hk
    have rj := getD_rank_lt s.heat_ranks s.num_chains j hC.perm hj
    have rk := getD_rank_lt s.heat_ranks s.num_chains k hC.perm hk
    refine ⟨⟨rfl, rfl, rfl, rfl, rfl, rfl, rfl, ?_⟩, rj, rk⟩
    intro r1 c1
    exact matGet_matIncr _ _ _ _ _ (by rw [hC.rows]; exact rj)
      (by rw [hC.cols _ rj]; exact rk)
  have rej : ∀ j k u, acceptTest ex (lnR s j k) u = false →
      swapAttempt ex s j k u = countAttempt s j k := by
    intro j k u h
    unfold swapAttempt
    dsimp only
    have e : lnR (countAttempt s j k) j k = lnR s j k := rfl
    rw [e, h]
    exact applyDecision_false _ _ _
  refine ⟨?_, ?_⟩
  · intro u1 u2 h0 h1 hr
    have hj := neighborIndex_lt s u1 hN h0 h1
    have e : swapNeighborChains ex s u1 u2
        = countAttempt s (neighborIndex s u1) (neighborIndex s u1 + 1) := by
      unfold swapNeighborChains
      exact rej _ _ _ hr
    rw [e]
    exact ⟨rfl, key _ _ (by omega) hj⟩
  · intro draws j k u rest hd hp hr
    obtain ⟨hj, hk, -, -⟩ := randomPair_spec s hN draws hd j k _ hp
    refine ⟨?_, key j k hj hk⟩
    unfold swapRandomChains
    rw [hp]
    dsimp only
    rw [rej j k u hr]

/-- The three chains of `sampleState` with the stand-in for `exp` that is `0`: a neighbor
swap with the draws `3/4` and `0` tests the chains `1` and `2` and is rejected; the heats
are unchanged. -/
theorem rejected_swap_frame_witness :
    (swapNeighborChains expStub sampleState (3 / 4) 0).chain_heats
      = sampleState.chain_heats := by
  obtain ⟨f1, f2, f3, f4, f5, f6, f7⟩ := sampleState_fields
  have hC : CountersOK sampleState :=
    countersOK_congr (construct base0 3 1 (1 / 5) true "both" 1 0 0) sampleState rfl rfl rfl
      (construct_countersOK _ _ _ _ _ _ _ _ _)
  have hi : neighborIndex sampleState (3 / 4) = 1 := by
    unfold neighborIndex
    rw [f1]
    norm_num
    rw [Nat.floor_eq_iff (by norm_num)]
    norm_num
  have h := (rejected_swap_frame expStub sampleState (by rw [f1]; decide) hC).1 (3 / 4) 0
    (by norm_num) (by norm_num)
    (by
      rw [hi]
      unfold lnR acceptTest expStub
      rw [f2, f4]
      norm_num)
  exact h.2.1.1

/-- C24 at the failing input: three chains on two processes that hold the same heats,
values, rank map and counters before a neighbor swap of the build with `RB_MPI`.  Each
process makes its own two draws.  The coordinator draws `0` and picks the chains `(0, 1)`;
the other process draws `1/2` and picks `(1, 2)`, counts its attempt in the cell `(1, 2)`,
and only then receives the tuple `(0, 1, accept)`.  After the swap the heats, the rank map
and the accepted counts agree, but the attempted counts do not: the cell `(0, 1)` is `1`
on the coordinator and `0` on the other process, where the accepted count of that cell
is `1`. -/
theorem worker_counts_its_own_pair :
    mpiWorker.numAttemptedSwaps = mpiCoordinator.numAttemptedSwaps ∧
    mpiWorker.heat_ranks = mpiCoordinator.heat_ranks ∧
    mpiWorker.chain_heats = mpiCoordinator.chain_heats ∧
    (neighborSwapOnTwoProcesses expStub mpiCoordinator mpiWorker 0 0 (1 / 2) 0).1.numAttemptedSwaps
      = [[0, 1, 0], [0, 0, 0], [0, 0, 0]] ∧
    (neighborSwapOnTwoProcesses expStub mpiCoordinator mpiWorker 0 0 (1 / 2) 0).2.numAttemptedSwaps
      = [[0, 0, 0], [0, 0, 1], [0, 0, 0]] ∧
    (neighborSwapOnTwoProcesses expStub mpiCoordinator mpiWorker 0 0 (1 / 2) 0).2.numAcceptedSwaps
      = [[0, 1, 0], [0, 0, 0], [0, 0, 0]] ∧
    (neighborSwapOnTwoProcesses expStub mpiCoordinator mpiWorker 0 0 (1 / 2) 0).1.numAcceptedSwaps
      = [[0, 1, 0], [0, 0, 0], [0, 0, 0]] ∧
    (neighborSwapOnTwoProcesses expStub mpiCoordinator mpiWorker 0 0 (1 / 2) 0).1.heat_ranks
      = [1, 0, 2] ∧
    (neighborSwapOnTwoProcesses expStub mpiCoordinator mpiWorker 0 0 (1 / 2) 0).2.heat_ranks
      = [1, 0, 2] := by
  obtain ⟨c1, c2, c3, c4, c5, c6, c7, c8⟩ := mpiCoordinator_fields
  obtain ⟨w1, w2, w3, w4, w5, w6, w7, w8⟩ := mpiWorker_fields
  have jc : neighborIndex mpiCoordinator 0 = 0 := by
    unfold neighborIndex; simp
  have jw : neighborIndex mpiWorker (1 / 2) = 1 := by
    unfold neighborIndex
    rw [w1]
    norm_num
  have acc : acceptTest expStub (lnR mpiCoordinator 0 1) 0 = true := by
    unfold lnR acceptTest
    rw [c5, c6]
    norm_num
  have ec := swapNeighborChainsMPI_coordinator expStub mpiCoordinator 0 0 (0, 0, false)
    (by rw [c2, c3])
  rw [jc, acc] at ec
  have ew := swapNeighborChainsMPI_worker expStub mpiWorker (1 / 2) 0 (0, 0 + 1, true)
    (by rw [w2, w3]; decide)
  rw [jw] at ew
  have e1 : (neighborSwapOnTwoProcesses expStub mpiCoordinator mpiWorker 0 0 (1 / 2) 0).1
      = swapNeighborChains expStub mpiCoordinator 0 0 := by
    unfold neighborSwapOnTwoProcesses
    dsimp only
    rw [ec]
  have e2 : (neighborSwapOnTwoProcesses expStub mpiCoordinator mpiWorker 0 0 (1 / 2) 0).2
      = applyDecision (countAttempt mpiWorker 1 (1 + 1)) 0 (0 + 1) true := by
    unfold neighborSwapOnTwoProcesses
    dsimp only
    rw [ec, ew]
  have e3 : swapNeighborChains expStub mpiCoordinator 0 0
      = applyDecision (countAttempt mpiCoordinator 0 (0 + 1)) 0 (0 + 1) true := by
    unfold swapNeighborChains swapAttempt
    dsimp only
    rw [jc]
    have : lnR (countAttempt mpiCoordinator 0 (0 + 1)) 0 (0 + 1) = lnR mpiCoordinator 0 1 := rfl
    rw [this, acc]
  obtain ⟨cs1, d1⟩ := applyDecision_true (countAttempt mpiCoordinator 0 (0 + 1)) 0 (0 + 1)
  obtain ⟨cs2, d2⟩ := applyDecision_true (countAttempt mpiWorker 1 (1 + 1)) 0 (0 + 1)
  rw [e1, e2, e3, d1, d2]
  refine ⟨by rw [w7, c7], by rw [w4, c4], by rw [w5, c5], ?_, ?_, ?_, ?_, ?_, ?_⟩
  · show matIncr mpiCoordinator.numAttemptedSwaps _ _ = _
    rw [c7, c4]
    rfl
  · show matIncr mpiWorker.numAttemptedSwaps _ _ = _
    rw [w7, w4]
    rfl
  · show matIncr mpiWorker.numAcceptedSwaps _ _ = _
    rw [w8]
    show matIncr _ (mpiWorker.heat_ranks.getD 0 0) (mpiWorker.heat_ranks.getD (0 + 1) 0) = _
    rw [w4]
    rfl
  · show matIncr mpiCoordinator.numAcceptedSwaps _ _ = _
    rw [c8]
    show matIncr _ (mpiCoordinator.heat_ranks.getD 0 0)
      (mpiCoordinator.heat_ranks.getD (0 + 1) 0) = _
    rw [c4]
    rfl
  · show exchange mpiCoordinator.heat_ranks 0 (0 + 1) 0 = _
    rw [c4]
    rfl
  · show exchange mpiWorker.heat_ranks 0 (0 + 1) 0 = _
    rw [w4]
    rfl

end ExchangeClaims

/-! ## The generation counters and the interval tests -/

section CounterClaims

variable {α : Type} [LinearOrderedField α] [FloorRing α]

/-- C25 fails as stated: two chains with neighbor swapping alone and `swap_interval = 2`;
one sampling cycle, then two burn-in cycles.  In the second burn-in cycle the burn-in
counter has moved to `2`, a multiple of the interval, but the test is made against
`current_generation`, which is `1`: the call returns with all the draws and no swap
attempted, as the two calls before it. -/
theorem burnin_after_sampling_tests_sampling_counter :
    nextCycle expStub (fun _ c => c) intervalTwoScenario true [0, 0, 0, 0]
      = some (countedState (fun _ c => c) intervalTwoScenario true, [0, 0, 0, 0]) ∧
    nextCycle expStub (fun _ c => c) (countedState (fun _ c => c) intervalTwoScenario true)
        false [0, 0, 0, 0]
      = some (countedState (fun _ c => c)
          (countedState (fun _ c => c) intervalTwoScenario true) false, [0, 0, 0, 0]) ∧
    nextCycle expStub (fun _ c => c)
        (countedState (fun _ c => c)
          (countedState (fun _ c => c) intervalTwoScenario true) false) false [0, 0, 0, 0]
      = some (countedState (fun _ c => c)
          (countedState (fun _ c => c)
            (countedState (fun _ c => c) intervalTwoScenario true) false) false,
          [0, 0, 0, 0]) ∧
    (countedState (fun _ c => c) (countedState (fun _ c => c)
      (countedState (fun _ c => c) intervalTwoScenario true) false) false).burnin_generation
      = 2 ∧
    (countedState (fun _ c => c) (countedState (fun _ c => c)
      (countedState (fun _ c => c) intervalTwoScenario true) false) false).current_generation
      = 1 ∧
    (countedState (fun _ c => c) (countedState (fun _ c => c)
      (countedState (fun _ c => c) intervalTwoScenario true) false) false).swap_interval
      = 2 ∧
    (countedState (fun _ c => c) (countedState (fun _ c => c)
      (countedState (fun _ c => c) intervalTwoScenario true) false) false).numAttemptedSwaps
      = intervalTwoScenario.numAttemptedSwaps :=
  intervalTwo_cycles [0, 0, 0, 0]

/-- C25, amended: the constructor sets `current_generation` and `burnin_generation` to
`0`.  Whenever `nextCycle(advanceCycle)` returns, `nextCycle(true)` has increased
`current_generation` by exactly one and left `burnin_generation`, and `nextCycle(false)`
has increased `burnin_generation` by exactly one and left `current_generation`.  The
generation tested against a positive interval is `current_generation` after the increment
for a sampling call; for a burn-in call it is `burnin_generation` after the increment only
while `current_generation` is `0`, and `current_generation`, which the call does not move,
once a sampling call has been made. -/
theorem generation_counters (ex : α → α) (chainCycle : Bool → Chain α → Chain α)
    (s : State α) (advanceCycle : Bool) (draws : List α) (s2 : State α) (rest : List α)
    (h : nextCycle ex chainCycle s advanceCycle draws = some (s2, rest)) :
    (∀ (base : Chain α) (nc si : Nat) (dt : α) (th : Bool) (sm : String) (P pid apid : Nat),
      (construct base nc si dt th sm P pid apid).current_generation = 0 ∧
      (construct base nc si dt th sm P pid apid).burnin_generation = 0) ∧
    s2.current_generation = s.current_generation + (if advanceCycle = true then 1 else 0) ∧
    s2.burnin_generation = s.burnin_generation + (if advanceCycle = true then 0 else 1) ∧
    testedGeneration (countedState chainCycle s advanceCycle) =
      (if advanceCycle = true then s.current_generation + 1
       else if s.current_generation = 0 then s.burnin_generation + 1
       else s.current_generation) ∧
    (∀ interval, 1 ≤ interval →
      swapDue (countedState chainCycle s advanceCycle) interval
        = some (decide (testedGeneration (countedState chainCycle s advanceCycle)
            % interval = 0))) := by
  have hS := nextCycle_schedule ex chainCycle s advanceCycle draws s2 rest h
  obtain ⟨-, -, -, -, -, c5, c6⟩ := countedState_fields chainCycle s advanceCycle
  refine ⟨?_, by rw [hS.2.1, c5], by rw [hS.2.2.1, c6],
    testedGeneration_counted chainCycle s advanceCycle,
    fun interval hi => swapDue_eq _ interval hi⟩
  intro base nc si dt th sm P pid apid
  rw [construct_spec]
  exact ⟨rfl, rfl⟩

/-- Two chains with `swap_interval = 2`: the first sampling cycle leaves the burn-in
counter at `0` and moves the sampling counter to `1`. -/
theorem generation_counters_witness :
    (countedState (fun _ c => c) intervalTwoScenario true).current_generation
      = intervalTwoScenario.current_generation + 1 ∧
    (countedState (fun _ c => c) intervalTwoScenario true).burnin_generation
      = intervalTwoScenario.burnin_generation + 0 :=
  ⟨(generation_counters expStub (fun _ c => c) intervalTwoScenario true [0, 0, 0, 0]
      (countedState (fun _ c => c) intervalTwoScenario true) [0, 0, 0, 0]
      (intervalTwo_cycles [0, 0, 0, 0]).1).2.1,
   (generation_counters expStub (fun _ c => c) intervalTwoScenario true [0, 0, 0, 0]
      (countedState (fun _ c => c) intervalTwoScenario true) [0, 0, 0, 0]
      (intervalTwo_cycles [0, 0, 0, 0]).1).2.2.1⟩

/-- C30 at the failing input, which is every coordinator constructed with the swap method
"both" on which `setSwapInterval2` has not been called: the constructor leaves
`swap_interval2` at `0` and selects both kinds of swaps, so in every call of `nextCycle`
the test of line 405 takes a remainder modulo zero (the test against `swap_interval2` has
no value in the state in which the counter has moved, and `nextCycle` has no result,
whatever draws are at hand). -/
theorem both_mode_remainder_modulo_zero (ex : α → α)
    (chainCycle : Bool → Chain α → Chain α) (base : Chain α) (nc si : Nat) (dt : α)
    (th : Bool) (P pid apid : Nat) (advanceCycle : Bool) (draws : List α) :
    (construct base nc si dt th "both" P pid apid).swap_interval2 = 0 ∧
    (construct base nc si dt th "both" P pid apid).useNeighborSwapping = true ∧
    (construct base nc si dt th "both" P pid apid).useRandomSwapping = true ∧
    swapDue (countedState chainCycle (construct base nc si dt th "both" P pid apid)
        advanceCycle)
      (countedState chainCycle (construct base nc si dt th "both" P pid apid)
        advanceCycle).swap_interval2 = none ∧
    nextCycle ex chainCycle (construct base nc si dt th "both" P pid apid) advanceCycle draws
      = none := by
  have h0 : (construct base nc si dt th "both" P pid apid).swap_interval2 = 0 := by
    rw [construct_spec]; rfl
  have h1 : (construct base nc si dt th "both" P pid apid).useNeighborSwapping = true := by
    rw [construct_spec]
    show decide ("both" ≠ "random") = true
    decide
  have h2 : (construct base nc si dt th "both" P pid apid).useRandomSwapping = true := by
    rw [construct_spec]
    show decide ("both" = "random" ∨ "both" = "both") = true
    decide
  refine ⟨h0, h1, h2, ?_, nextCycle_both_undefined ex chainCycle _ advanceCycle draws h1 h2 h0⟩
  have e := (counted_fields chainCycle (construct base nc si dt th "both" P pid apid)
    advanceCycle).2.2.2.2.1
  unfold countedState
  rw [e, h0]
  rfl

end CounterClaims

/-! ## Invariants of the ladder and of the swap counters -/

section LadderClaims

variable {α : Type} [LinearOrderedField α] [FloorRing α]

/-- C28 at the failing input: the build with `RB_MPI`, three chains on two processes, on
the process of rank `1`, which is not the coordinator, after one neighbor swap from the
constructed state (all counters zero).  The process counted its attempt in the cell
`(1, 2)` of the pair it drew and the acceptance in the cell `(0, 1)` of the pair it
received: `numAcceptedSwaps[0][1] = 1` exceeds `numAttemptedSwaps[0][1] = 0`. -/
theorem worker_accepted_exceeds_attempted :
    mpiWorker.active_PID ≠ mpiWorker.pid ∧
    (∀ r c, matGet mpiWorker.numAttemptedSwaps r c = 0 ∧
      matGet mpiWorker.numAcceptedSwaps r c = 0) ∧
    matGet (neighborSwapOnTwoProcesses expStub mpiCoordinator mpiWorker
        0 0 (1 / 2) 0).2.numAttemptedSwaps 0 1 = 0 ∧
    matGet (neighborSwapOnTwoProcesses expStub mpiCoordinator mpiWorker
        0 0 (1 / 2) 0).2.numAcceptedSwaps 0 1 = 1 ∧
    ¬ (matGet (neighborSwapOnTwoProcesses expStub mpiCoordinator mpiWorker
          0 0 (1 / 2) 0).2.numAcceptedSwaps 0 1
        ≤ matGet (neighborSwapOnTwoProcesses expStub mpiCoordinator mpiWorker
          0 0 (1 / 2) 0).2.numAttemptedSwaps 0 1) := by
  obtain ⟨p, r0, a0, b0, jw, tc, a1, b1, r1⟩ := mpiWorker_swap
  refine ⟨p, ?_, ?_, ?_, ?_⟩
  · intro r c
    rw [a0, b0]
    rcases r with _ | _ | _ | r <;> rcases c with _ | _ | _ | c <;> simp [matGet]
  · rw [a1]
    rfl
  · rw [b1]
    rfl
  · rw [a1, b1]
    decide
/-- In the build without `RB_MPI`, with counters that do not wrap: in every state reached
from the constructor by calls of `swapChains` (with draws in `[0,1)`), `tune` and
`resetCounters`, and by the chains advancing,
`numAcceptedSwaps[i][j] <= numAttemptedSwaps[i][j]` for every cell `(i, j)` and every
diagonal cell `numAttemptedSwaps[i][i]` is zero; both matrices keep `num_chains` rows of
`num_chains` cells. -/
theorem accepted_at_most_attempted (ex : α → α) (pw : α → α → α) (base : Chain α)
    (nc si : Nat) (dt : α) (th : Bool) (sm : String) (P pid apid : Nat) (s : State α)
    (h : Reachable ex pw (construct base nc si dt th sm P pid apid) s) :
    (∀ i j, matGet s.numAcceptedSwaps i j ≤ matGet s.numAttemptedSwaps i j) ∧
    (∀ i, matGet s.numAttemptedSwaps i i = 0) ∧
    s.numAttemptedSwaps.length = s.num_chains ∧ s.numAcceptedSwaps.length = s.num_chains ∧
    (∀ r, r < s.num_chains → (s.numAttemptedSwaps.getD r []).length = s.num_chains ∧
      (s.numAcceptedSwaps.getD r []).length = s.num_chains) := by
  have hI := reachable_countsInv ex pw _ s h
    (construct_countsInv base nc si dt th sm P pid apid)
  exact ⟨hI.le, hI.diag, hI.ok.rows, hI.rowsA, fun r hr => ⟨hI.ok.cols r hr, hI.colsA r hr⟩⟩

/-- Two chains after one neighbor swap with the draws `0, 0`: the accepted count of the
cell `(0, 1)` is at most its attempted count. -/
theorem accepted_at_most_attempted_witness :
    matGet (swapNeighborChains expStub
        (synchronizeTuningInfo (synchronizeHeats (synchronizeValues
          (construct base0 2 1 (1 / 5) true "neighbor" 1 0 0) false))) 0 0).numAcceptedSwaps 0 1
      ≤ matGet (swapNeighborChains expStub
        (synchronizeTuningInfo (synchronizeHeats (synchronizeValues
          (construct base0 2 1 (1 / 5) true "neighbor" 1 0 0) false))) 0 0).numAttemptedSwaps
          0 1 :=
  (accepted_at_most_attempted expStub powStub base0 2 1 (1 / 5) true "neighbor" 1 0 0 _
    (Relation.ReflTransGen.single
      (Step.swap _ "neighbor" [0, 0] _ []
        (by intro u hu; simp at hu; subst hu; norm_num)
        (swapChains_neighbor_eq expStub (construct base0 2 1 (1 / 5) true "neighbor" 1 0 0)
          0 0 [] (by rw [construct_spec]; simp [blankState]))))).1 0 1

end LadderClaims

end Mcmcmc
